import Mathlib

/-!
# Simple image processing program: PPM codec and pixel transforms

A shallow embedding of `ppm_io.c`, `image_manip.c` and `project.c`.

Modelling conventions.

* A byte is a natural number (`unsigned char`, 0..255). An input `FILE *` is the list of
  bytes not yet read; `fgetc` takes the head, `ungetc` of the byte just read leaves the
  list as it was, and `ungetc(EOF)` does nothing.
* An output `FILE *` is a `Sink`: the bytes accepted so far and the number of bytes it
  will still accept.
* C `int` values are integers. Signed overflow is undefined in C, so the development is
  about inputs on which no `int` computation leaves the `int` range. A number that
  `fscanf` or `atoi` reads is different: it is converted as the GNU C library converts it,
  through `strtol` to a `long` and then cut to the 32 bits of an `int`.
* An `Image *` that the functions receive is not null; the pixel pointer `data` may be.
  Pixel storage is a list in row-major order. A read outside the storage, which is
  undefined in C, gives the pixel (0,0,0), and a write outside it does nothing.
* `malloc` is taken to succeed, with a block that is not null also when the size asked
  for is 0. The block has indeterminate contents: a function that allocates takes them as
  the parameter `fresh`.
* `double` is IEEE-754 binary64 with round-to-nearest, ties-to-even, every operation
  rounded on its own. Only non-negative values below 256 occur in `pixel_to_gray`; they
  are held as dyadic fractions `m / 2^e`, and the exponent range plays no part.
* The `double` arithmetic of `swirl` and `edges`, with `sqrt`, `pow`, `cos` and `sin`, is a
  parameter `FloatOps`: what is proved of these two functions holds for every such
  arithmetic, or for those that obey the facts a theorem lists.
* What a transform prints on `stderr` is given by a function of its own, such as
  `grayscale_stderr`. `main` takes the content of its input file and the room of its
  output stream as parameters, and records the transforms it calls; what it prints on
  `stdout` and `stderr` is left out.
-/

namespace PPM

/-! ## Data model (`ppm_io.h`) -/

/-- An RGB pixel, one byte per channel (`struct _pixel`). -/
structure Pixel where
  r : Nat
  g : Nat
  b : Nat
deriving DecidableEq

/-- An image (`struct _image`): `data` is `none` for a null pixel pointer. -/
structure Image where
  data : Option (List Pixel)
  rows : Int
  cols : Int
deriving DecidableEq

/-- Every channel of the pixel is a byte. -/
def Pixel.isByte (p : Pixel) : Prop := p.r < 256 ∧ p.g < 256 ∧ p.b < 256

/-! ## The C library calls used by the codec -/

/-- The C function `isspace` in the C locale: space, and `\t \n \v \f \r`. -/
def isspace (c : Nat) : Bool := c == 32 || (9 ≤ c && c ≤ 13)

/-- The C function `isdigit`: the ASCII digits. -/
def isdigit (c : Nat) : Bool := 48 ≤ c && c ≤ 57

/-- Skips white space, as `scanf` does for a white-space directive and before `%s`, `%d`. -/
def skip_space (fp : List Nat) : List Nat := fp.dropWhile isspace

/-- The bytes of a C string held in a buffer: those before the first NUL. -/
def cstr (buf : List Nat) : List Nat := buf.takeWhile (fun c => c != 0)

/-- The test `strncmp(a, b, n) == 0`: both C strings agree on their first `n` bytes. -/
def strncmp_eq (a b : List Nat) (n : Nat) : Bool := (cstr a).take n == (cstr b).take n

/-- The call `fscanf(fp, "%19s\n", tag)`: skips white space, stores at most 19 bytes that
are not white space, then skips white space again. At end of file nothing is stored and
`tag` keeps its previous contents `tag0`. Returns the buffer and the rest of the stream. -/
def fscanf_tag (tag0 : List Nat) (fp : List Nat) : List Nat × List Nat :=
  match skip_space fp with
  | [] => (tag0, [])
  | c :: rest =>
    let tok := ((c :: rest).takeWhile (fun x => !isspace x)).take 19
    (tok, skip_space ((c :: rest).drop tok.length))

/-- The value of a run of decimal digits. -/
def digits_value (ds : List Nat) : Nat := ds.foldl (fun acc d => 10 * acc + (d - 48)) 0

/-- The value `strtol` gives for a sign and a run of decimal digits: the number, brought
into the range of `long` (64 bits) when it lies outside. -/
def strtol_value (neg : Bool) (ds : List Nat) : Int :=
  if neg then
    if (digits_value ds : Int) > 9223372036854775808 then -9223372036854775808
    else -(digits_value ds : Int)
  else
    if (digits_value ds : Int) > 9223372036854775807 then 9223372036854775807
    else (digits_value ds : Int)

/-- Conversion of a `long` to `int`: the low 32 bits, read as a signed value. -/
def int_of_long (x : Int) : Int := (x + 2147483648) % 4294967296 - 2147483648

/-- The call `fscanf(fp, "%d", &val)`: skips white space, reads an optional sign and then
decimal digits. With no digit the conversion fails; what was read so far stays consumed.
The value stored is the one the GNU C library stores: the `long` that `strtol` gives for
the digits, cut to an `int`; C leaves it undefined when the number does not fit. -/
def fscanf_d (fp : List Nat) : Option Int × List Nat :=
  let fp1 := skip_space fp
  let signed : Bool × List Nat :=
    match fp1 with
    | [] => (false, fp1)
    | c :: t => if c = 45 then (true, t) else if c = 43 then (false, t) else (false, fp1)
  let ds := signed.2.takeWhile isdigit
  if ds.isEmpty then (none, signed.2)
  else (some (int_of_long (strtol_value signed.1 ds)), signed.2.drop ds.length)

/-- The call `fread(data, sizeof(Pixel), n, fp)`: reads up to `n` pixels of three bytes
each; an incomplete last pixel is not counted. -/
def fread : Nat → List Nat → List Pixel × List Nat
  | 0, fp => ([], fp)
  | n + 1, r :: g :: b :: fp => ((⟨r, g, b⟩ : Pixel) :: (fread n fp).1, (fread n fp).2)
  | _ + 1, _ => ([], [])

/-- An output stream: the bytes it has accepted and how many more it accepts. -/
structure Sink where
  out : List Nat
  room : Nat
deriving DecidableEq

/-- Sends bytes to the sink; those beyond its room are lost. -/
def Sink.put (fp : Sink) (bs : List Nat) : Sink :=
  { out := fp.out ++ bs.take fp.room, room := fp.room - bs.length }

/-- The decimal digits of a natural number, most significant first. -/
def dec_digits_aux : Nat → Nat → List Nat → List Nat
  | 0, _, acc => acc
  | fuel + 1, n, acc =>
    if n < 10 then (48 + n) :: acc
    else dec_digits_aux fuel (n / 10) ((48 + n % 10) :: acc)

/-- The text `printf("%d", v)` produces. -/
def fmt_d (v : Int) : List Nat :=
  if v < 0 then 45 :: dec_digits_aux (v.natAbs + 1) v.natAbs []
  else dec_digits_aux (v.natAbs + 1) v.natAbs []

/-- The three bytes of a pixel in memory order. -/
def Pixel.bytes (p : Pixel) : List Nat := [p.r, p.g, p.b]

/-- The call `fwrite(data, sizeof(Pixel), n, fp)`: writes the first `n` pixels and returns
the sink and the number of pixels written in full. -/
def fwrite (data : List Pixel) (n : Nat) (fp : Sink) : Sink × Nat :=
  let items := data.take n
  (fp.put (items.flatMap Pixel.bytes), min items.length (fp.room / 3))

/-- Conversion of an `int` to `size_t` (64 bits): a negative value wraps. -/
def size_t_of_int (v : Int) : Nat := if v < 0 then (v + 2 ^ 64).toNat else v.toNat

/-! ## `ppm_io.c` -/

/-- The comment loop of `read_num`. With `inLine = false` the next byte is tested
against `#`; with `inLine = true` bytes are discarded up to the end of the line. -/
def comment_loop : Bool → List Nat → List Nat
  | _, [] => []
  | false, c :: fp => if c = 35 then comment_loop true fp else c :: fp
  | true, c :: fp => if c = 10 then comment_loop false fp else comment_loop true fp

/-- The function `read_num`: skips comment lines, reads a number and drops the white space
after it. Returns `-1` when no number can be read. -/
def read_num (fp : List Nat) : Int × List Nat :=
  match fscanf_d (comment_loop false fp) with
  | (some val, fp1) => (val, skip_space fp1)
  | (none, fp1) => (-1, fp1)

/-- The tag `"P6"`. -/
def P6 : List Nat := [80, 54]

/-- The function `read_ppm`; `tag0` is the indeterminate initial content of the local
buffer `tag`, whose last byte the function sets to NUL. -/
def read_ppm (tag0 : List Nat) (fp : List Nat) : Option Image :=
  let tagged := fscanf_tag (tag0.take 19) fp
  if !strncmp_eq tagged.1 P6 20 then none
  else
    let c := read_num tagged.2
    let r := read_num c.2
    let colors := read_num r.2
    if colors.1 ≠ 255 then none
    else if c.1 ≤ 0 ∨ r.1 ≤ 0 then none
    else
      let got := fread (size_t_of_int (r.1 * c.1)) colors.2
      if got.1.length ≠ size_t_of_int (r.1 * c.1) then none
      else some { data := some got.1, rows := r.1, cols := c.1 }

/-- The function `write_ppm`: returns the sink after the call and the return code. With a
null pixel pointer, outside the function's domain, no pixel is written. -/
def write_ppm (fp : Sink) (im : Image) : Sink × Int :=
  let fp1 := fp.put (P6 ++ [10] ++ fmt_d im.cols ++ [32] ++ fmt_d im.rows ++ [10, 50, 53, 53, 10])
  let w := fwrite (im.data.getD []) (size_t_of_int (im.rows * im.cols)) fp1
  if w.2 ≠ size_t_of_int (im.rows * im.cols) then (w.1, -1) else (w.1, 0)

/-! ## IEEE-754 binary64 arithmetic on the values `pixel_to_gray` meets -/

/-- A non-negative finite `double`, held as the dyadic fraction `m / 2^e`. -/
structure Double where
  m : Nat
  e : Nat
deriving DecidableEq

/-- The number of low bits of `m` to drop so that at most 53 bits remain. -/
def drop_bits : Nat → Nat → Nat
  | 0, _ => 0
  | fuel + 1, m => if m < 2 ^ 53 then 0 else drop_bits fuel (m / 2) + 1

/-- Rounds an exact dyadic result to 53 significant bits, nearest, ties to even. -/
def round53 (x : Double) : Double :=
  let s := drop_bits x.m x.m
  let q := x.m / 2 ^ s
  let rest := x.m % 2 ^ s
  if 2 ^ s < 2 * rest ∨ (2 * rest = 2 ^ s ∧ q % 2 = 1) then ⟨(q + 1) * 2 ^ s, x.e⟩
  else ⟨q * 2 ^ s, x.e⟩

/-- The conversion `(double)c` of an `unsigned char`: exact. -/
def Double.ofUChar (c : Nat) : Double := ⟨c, 0⟩

/-- Multiplication of two doubles. -/
def Double.mul (a b : Double) : Double := round53 ⟨a.m * b.m, a.e + b.e⟩

/-- Addition of two doubles. -/
def Double.add (a b : Double) : Double :=
  round53 ⟨a.m * 2 ^ (max a.e b.e - a.e) + b.m * 2 ^ (max a.e b.e - b.e), max a.e b.e⟩

/-- The conversion `(unsigned char)x`: the integer part, reduced to 8 bits. -/
def Double.toUChar (a : Double) : Nat := (a.m / 2 ^ a.e) % 256

/-- The literal `0.3`: the double nearest to 3/10. -/
def c_0_3 : Double := ⟨5404319552844595, 54⟩

/-- The literal `0.59`: the double nearest to 59/100. -/
def c_0_59 : Double := ⟨5314247560297185, 53⟩

/-- The literal `0.11`: the double nearest to 11/100. -/
def c_0_11 : Double := ⟨7926335344172073, 56⟩

/-! ## `image_manip.c` -/

/-- The `double` that `pixel_to_gray` computes before the cast:
`(0.3 * (double)p->r) + (0.59 * (double)p->g) + (0.11 * (double)p->b)`. -/
def gray_sum (p : Pixel) : Double :=
  Double.add
    (Double.add (Double.mul c_0_3 (Double.ofUChar p.r)) (Double.mul c_0_59 (Double.ofUChar p.g)))
    (Double.mul c_0_11 (Double.ofUChar p.b))

/-- The function `pixel_to_gray`: the cast of `gray_sum` to `unsigned char`. -/
def pixel_to_gray (p : Pixel) : Nat := Double.toUChar (gray_sum p)

/-- The index expression `(r*cols)+c`. -/
def pix_index (r : Nat) (cols : Int) (c : Nat) : Nat := ((r : Int) * cols + (c : Int)).toNat

/-- Reads `data[i]`. -/
def getPx (d : List Pixel) (i : Nat) : Pixel := d.getD i ⟨0, 0, 0⟩

/-- The assignment `data[i].r = v`. -/
def setR (d : List Pixel) (i : Nat) (v : Nat) : List Pixel := d.set i { getPx d i with r := v }

/-- The assignment `data[i].g = v`. -/
def setG (d : List Pixel) (i : Nat) (v : Nat) : List Pixel := d.set i { getPx d i with g := v }

/-- The assignment `data[i].b = v`. -/
def setB (d : List Pixel) (i : Nat) (v : Nat) : List Pixel := d.set i { getPx d i with b := v }

/-- The body of the loop of `grayscale` at index `i`. -/
def grayscale_body (d : List Pixel) (i : Nat) : List Pixel :=
  let grayLevel := pixel_to_gray (getPx d i)
  setB (setG (setR d i grayLevel) i grayLevel) i grayLevel

/-- The function `grayscale`: a null pixel pointer leaves the image as it is. -/
def grayscale (im : Image) : Image :=
  match im.data with
  | none => im
  | some d =>
    { im with
      data := some ((List.range im.rows.toNat).foldl
        (fun d1 r => (List.range im.cols.toNat).foldl
          (fun d2 c => grayscale_body d2 (pix_index r im.cols c)) d1) d) }

/-- The body of the loop of `swap` at index `i`. -/
def swap_body (d : List Pixel) (i : Nat) : List Pixel :=
  let temp := (getPx d i).r
  let d1 := setR d i (getPx d i).g
  let d2 := setG d1 i (getPx d1 i).b
  setB d2 i temp

/-- The function `swap`: a null pixel pointer leaves the image as it is. -/
def swap (im : Image) : Image :=
  match im.data with
  | none => im
  | some d =>
    { im with
      data := some ((List.range im.rows.toNat).foldl
        (fun d1 r => (List.range im.cols.toNat).foldl
          (fun d2 c => swap_body d2 (pix_index r im.cols c)) d1) d) }

/-- Conversion of an `int` to `unsigned char`: reduction modulo 256. -/
def uchar_of_int (v : Int) : Nat := (v % 256).toNat

/-- The body of the loop of `invert` at index `i`. -/
def invert_body (d : List Pixel) (i : Nat) : List Pixel :=
  let d1 := setR d i (uchar_of_int (255 - ((getPx d i).r : Int)))
  let d2 := setG d1 i (uchar_of_int (255 - ((getPx d1 i).g : Int)))
  setB d2 i (uchar_of_int (255 - ((getPx d2 i).b : Int)))

/-- The function `invert`: a null pixel pointer leaves the image as it is. -/
def invert (im : Image) : Image :=
  match im.data with
  | none => im
  | some d =>
    { im with
      data := some ((List.range im.rows.toNat).foldl
        (fun d1 r => (List.range im.cols.toNat).foldl
          (fun d2 c => invert_body d2 (pix_index r im.cols c)) d1) d) }

/-- The block of `n` pixels that `malloc` returns: its contents are indeterminate, and
`fresh i` stands for what the block holds at index `i`. -/
def malloc_pixels (fresh : Nat → Pixel) (n : Nat) : List Pixel := (List.range n).map fresh

/-- The average of four channel values as `zoom_out` computes it: the sum is an `int`, the
quotient is stored in an `unsigned char`. -/
def avg4 (a b c d : Nat) : Nat := uchar_of_int (Int.tdiv ((a : Int) + b + c + d) 4)

/-- The body of the loop of `zoom_out` at row `r` and column `c` of the new image. -/
def zoom_out_body (d : List Pixel) (cols newCols : Int) (nd : List Pixel) (r c : Nat) :
    List Pixel :=
  let p00 := getPx d (pix_index (2 * r) cols (2 * c))
  let p01 := getPx d (pix_index (2 * r) cols (2 * c + 1))
  let p10 := getPx d (pix_index (2 * r + 1) cols (2 * c))
  let p11 := getPx d (pix_index (2 * r + 1) cols (2 * c + 1))
  let avgR := avg4 p00.r p01.r p10.r p11.r
  let avgG := avg4 p00.g p01.g p10.g p11.g
  let avgB := avg4 p00.b p01.b p10.b p11.b
  setB (setG (setR nd (pix_index r newCols c) avgR) (pix_index r newCols c) avgG)
    (pix_index r newCols c) avgB

/-- The function `zoom_out`: a null pixel pointer leaves the image as it is. -/
def zoom_out (fresh : Nat → Pixel) (im : Image) : Image :=
  match im.data with
  | none => im
  | some d =>
    let newRows := Int.tdiv im.rows 2
    let newCols := Int.tdiv im.cols 2
    let nd := malloc_pixels fresh (newRows * newCols).toNat
    { data := some ((List.range newRows.toNat).foldl
        (fun d1 r => (List.range newCols.toNat).foldl
          (fun d2 c => zoom_out_body d im.cols newCols d2 r c) d1) nd),
      rows := newRows, cols := newCols }

/-- The index expression `(c*newCols)+(newCols-1-r)` of `rotate_right`. -/
def rot_index (c : Nat) (newCols : Int) (r : Nat) : Nat :=
  ((c : Int) * newCols + (newCols - 1 - (r : Int))).toNat

/-- The body of the loop of `rotate_right` at row `r` and column `c` of the old image. -/
def rotate_right_body (d : List Pixel) (cols newCols : Int) (nd : List Pixel) (r c : Nat) :
    List Pixel :=
  let d1 := setR nd (rot_index c newCols r) (getPx d (pix_index r cols c)).r
  let d2 := setG d1 (rot_index c newCols r) (getPx d (pix_index r cols c)).g
  setB d2 (rot_index c newCols r) (getPx d (pix_index r cols c)).b

/-- The function `rotate_right`: a null pixel pointer leaves the image as it is. -/
def rotate_right (fresh : Nat → Pixel) (im : Image) : Image :=
  match im.data with
  | none => im
  | some d =>
    let newRows := im.cols
    let newCols := im.rows
    let nd := malloc_pixels fresh (newRows * newCols).toNat
    { data := some ((List.range im.rows.toNat).foldl
        (fun d1 r => (List.range im.cols.toNat).foldl
          (fun d2 c => rotate_right_body d im.cols newCols d2 r c) d1) nd),
      rows := newRows, cols := newCols }

/-! ## The `double` operations and `swirl`, `edges` (`image_manip.c`) -/

/-- The `double` arithmetic and the `libm` functions that `swirl` and `edges` call, over a
type `F` of doubles. They are parameters of the model: `ofInt` is the conversion of an
`int`, `toInt` the conversion to `int`, `eq` and `lt` the comparisons `==` and `<`. -/
structure FloatOps (F : Type) where
  ofInt : Int → F
  add : F → F → F
  sub : F → F → F
  mul : F → F → F
  div : F → F → F
  sqrt : F → F
  pow : F → F → F
  cos : F → F
  sin : F → F
  toInt : F → Int
  eq : F → F → Bool
  lt : F → F → Bool

/-- The index expression `(r*cols)+c` on `int` operands. -/
def pix_indexZ (r cols c : Int) : Nat := (r * cols + c).toNat

/-- The centre coordinate after the test `if (cx == -1) cx = dim/2`. -/
def swirl_centre {F : Type} (ops : FloatOps F) (cx : F) (dim : Int) : F :=
  if ops.eq cx (ops.ofInt (-1)) then ops.ofInt (Int.tdiv dim 2) else cx

/-- The angle `alpha` of `swirl` at row `r` and column `c`:
`sqrt(pow((double)c - cx, 2) + pow((double)r - cy, 2)) / s`. -/
def swirl_alpha {F : Type} (ops : FloatOps F) (cx cy s : F) (r c : Nat) : F :=
  ops.div
    (ops.sqrt (ops.add (ops.pow (ops.sub (ops.ofInt c) cx) (ops.ofInt 2))
      (ops.pow (ops.sub (ops.ofInt r) cy) (ops.ofInt 2))))
    s

/-- The column `newC` of `swirl`:
`(c - cx) * cos(alpha) - (r - cy) * sin(alpha) + cx`, converted to `int`. -/
def swirl_newC {F : Type} (ops : FloatOps F) (cx cy s : F) (r c : Nat) : Int :=
  ops.toInt (ops.add
    (ops.sub (ops.mul (ops.sub (ops.ofInt c) cx) (ops.cos (swirl_alpha ops cx cy s r c)))
      (ops.mul (ops.sub (ops.ofInt r) cy) (ops.sin (swirl_alpha ops cx cy s r c))))
    cx)

/-- The row `newR` of `swirl`:
`(c - cx) * sin(alpha) + (r - cy) * cos(alpha) + cy`, converted to `int`. -/
def swirl_newR {F : Type} (ops : FloatOps F) (cx cy s : F) (r c : Nat) : Int :=
  ops.toInt (ops.add
    (ops.add (ops.mul (ops.sub (ops.ofInt c) cx) (ops.sin (swirl_alpha ops cx cy s r c)))
      (ops.mul (ops.sub (ops.ofInt r) cy) (ops.cos (swirl_alpha ops cx cy s r c))))
    cy)

/-- The body of the loop of `swirl` at row `r` and column `c`; `cx`, `cy` are the centre
after the tests against -1. -/
def swirl_body {F : Type} (ops : FloatOps F) (d : List Pixel) (rows cols : Int) (cx cy s : F)
    (nd : List Pixel) (r c : Nat) : List Pixel :=
  let newC := swirl_newC ops cx cy s r c
  let newR := swirl_newR ops cx cy s r c
  if newC < 0 ∨ newC ≥ cols ∨ newR < 0 ∨ newR ≥ rows then
    setB (setG (setR nd (pix_index r cols c) 0) (pix_index r cols c) 0) (pix_index r cols c) 0
  else
    setB (setG (setR nd (pix_index r cols c) (getPx d (pix_indexZ newR cols newC)).r)
      (pix_index r cols c) (getPx d (pix_indexZ newR cols newC)).g)
      (pix_index r cols c) (getPx d (pix_indexZ newR cols newC)).b

/-- The function `swirl`: a null pixel pointer leaves the image as it is. -/
def swirl {F : Type} (ops : FloatOps F) (fresh : Nat → Pixel) (im : Image) (cx cy s : F) :
    Image :=
  match im.data with
  | none => im
  | some d =>
    let cx1 := swirl_centre ops cx im.cols
    let cy1 := swirl_centre ops cy im.rows
    let nd := malloc_pixels fresh (im.rows * im.cols).toNat
    { data := some ((List.range im.rows.toNat).foldl
        (fun d1 r => (List.range im.cols.toNat).foldl
          (fun d2 c => swirl_body ops d im.rows im.cols cx1 cy1 s d2 r c) d1) nd),
      rows := im.rows, cols := im.cols }

/-- The gradient magnitude of `edges` from the two intensity differences:
`sqrt(pow((double)dx / 2, 2) + pow((double)dy / 2, 2))`. -/
def gradient_magnitude {F : Type} (ops : FloatOps F) (dx dy : Int) : F :=
  ops.sqrt (ops.add (ops.pow (ops.div (ops.ofInt dx) (ops.ofInt 2)) (ops.ofInt 2))
    (ops.pow (ops.div (ops.ofInt dy) (ops.ofInt 2)) (ops.ofInt 2)))

/-- The body of the loop of `edges` at row `r` and column `c`; `d` is the storage after
`grayscale`. -/
def edges_body {F : Type} (ops : FloatOps F) (d : List Pixel) (rows cols : Int) (threshold : F)
    (nd : List Pixel) (r c : Nat) : List Pixel :=
  if r = 0 ∨ c = 0 ∨ (r : Int) = rows - 1 ∨ (c : Int) = cols - 1 then
    setB (setG (setR nd (pix_index r cols c) (getPx d (pix_index r cols c)).r)
      (pix_index r cols c) (getPx d (pix_index r cols c)).r)
      (pix_index r cols c) (getPx d (pix_index r cols c)).r
  else
    let intensityAt1Up : Int := (getPx d (pix_indexZ ((r : Int) - 1) cols c)).g
    let intensityAt1Down : Int := (getPx d (pix_indexZ ((r : Int) + 1) cols c)).g
    let intensityAt1Left : Int := (getPx d (pix_indexZ r cols ((c : Int) - 1))).g
    let intensityAt1Right : Int := (getPx d (pix_indexZ ((r : Int) + 1) cols ((c : Int) + 1))).g
    let gradientMagnitude := gradient_magnitude ops (intensityAt1Left - intensityAt1Right)
      (intensityAt1Up - intensityAt1Down)
    if ops.lt gradientMagnitude threshold then
      setB (setG (setR nd (pix_index r cols c) 255) (pix_index r cols c) 255)
        (pix_index r cols c) 255
    else
      setB (setG (setR nd (pix_index r cols c) 0) (pix_index r cols c) 0) (pix_index r cols c) 0

/-- The function `edges`: a null pixel pointer leaves the image as it is; otherwise the
image is first converted by `grayscale`. -/
def edges {F : Type} (ops : FloatOps F) (fresh : Nat → Pixel) (im : Image) (threshold : F) :
    Image :=
  match im.data with
  | none => im
  | some _ =>
    match (grayscale im).data with
    | none => grayscale im
    | some d =>
      let nd := malloc_pixels fresh (im.rows * im.cols).toNat
      { grayscale im with
        data := some ((List.range im.rows.toNat).foldl
          (fun d1 r => (List.range im.cols.toNat).foldl
            (fun d2 c => edges_body ops d im.rows im.cols threshold d2 r c) d1) nd) }

/-! ## Messages on `stderr` and the elements `edges` touches (`image_manip.c`) -/

/-- What `grayscale` prints on `stderr`. -/
def grayscale_stderr (im : Image) : List String :=
  match im.data with
  | none => ["Error:image_manip - grayscale given a bad image pointer\n"]
  | some _ => []

/-- What `swap` prints on `stderr`. -/
def swap_stderr (im : Image) : List String :=
  match im.data with
  | none => ["Error:image_manip - swap given a bad image pointer\n"]
  | some _ => []

/-- What `invert` prints on `stderr`. -/
def invert_stderr (im : Image) : List String :=
  match im.data with
  | none => ["Error:image_manip - invert given a bad image pointer\n"]
  | some _ => []

/-- What `zoom_out` prints on `stderr`. -/
def zoom_out_stderr (im : Image) : List String :=
  match im.data with
  | none => ["Error:image_manip - zoom_out given a bad image pointer\n"]
  | some _ => []

/-- What `rotate_right` prints on `stderr`. -/
def rotate_right_stderr (im : Image) : List String :=
  match im.data with
  | none => ["Error:image_manip - rotate_right given a bad image pointer\n"]
  | some _ => []

/-- What `swirl` prints on `stderr`. -/
def swirl_stderr (im : Image) : List String :=
  match im.data with
  | none => ["Error:image_manip - swirl given a bad image pointer\n"]
  | some _ => []

/-- What `edges` prints on `stderr`: its own message for a null pixel pointer, and
otherwise what the call of `grayscale` prints. -/
def edges_stderr (im : Image) : List String :=
  match im.data with
  | none => ["Error:image_manip - edges given a bad image pointer\n"]
  | some _ => grayscale_stderr im

/-- The C function `atoi`: skips white space, reads an optional sign and decimal digits,
and gives 0 when there is no digit. The value is `(int) strtol(s, NULL, 10)`, as in the
GNU C library; C leaves it undefined when the number does not fit. -/
def atoi (s : List Nat) : Int := ((fscanf_d (cstr s)).1).getD 0

/-- The test `strcmp(a, b) == 0`. -/
def strcmp_eq (a b : List Nat) : Bool := cstr a == cstr b

/-- The text `swap`. -/
def str_swap : List Nat := [115, 119, 97, 112]

/-- The text `invert`. -/
def str_invert : List Nat := [105, 110, 118, 101, 114, 116]

/-- The text `zoom-out`. -/
def str_zoom_out : List Nat := [122, 111, 111, 109, 45, 111, 117, 116]

/-- The text `rotate-right`. -/
def str_rotate_right : List Nat := [114, 111, 116, 97, 116, 101, 45, 114, 105, 103, 104, 116]

/-- The text `swirl`. -/
def str_swirl : List Nat := [115, 119, 105, 114, 108]

/-- The text `edge-detection`. -/
def str_edge_detection : List Nat :=
  [101, 100, 103, 101, 45, 100, 101, 116, 101, 99, 116, 105, 111, 110]

/-- The text `0`. -/
def str_0 : List Nat := [48]

/-- A call of a transform by `main`, with the arguments passed. -/
inductive Call (F : Type) where
  | swap : Call F
  | invert : Call F
  | zoom_out : Call F
  | rotate_right : Call F
  | swirl (cx cy s : F) : Call F
  | edges (threshold : F) : Call F
deriving DecidableEq

/-- What a run of `main` leaves: the return code, the output stream (`none` when it was not
opened), the transforms called, and the raster as it is when `main` returns (`none` when
none was read). -/
structure Outcome (F : Type) where
  code : Int
  output : Option Sink
  calls : List (Call F)
  image : Option Image
deriving DecidableEq

/-- The function `main`. `argv` holds the `argc` arguments; `file_in` is the content of the
file `argv[1]` (`none` when it cannot be opened), `file_out` the room of the stream that
opening `argv[2]` for writing gives (`none` when it cannot be opened). The result is `none`
when `argc` is 3, where `strcmp` is called on the null pointer `argv[3]`. What `main`
prints on `stdout` and `stderr` is left out. -/
def main {F : Type} (ops : FloatOps F) (fresh : Nat → Pixel) (tag0 : List Nat)
    (argv : List (List Nat)) (file_in : Option (List Nat)) (file_out : Option Nat) :
    Option (Outcome F) :=
  if argv.length < 3 then some ⟨1, none, [], none⟩
  else
    match file_in with
    | none => some ⟨2, none, [], none⟩
    | some inputF =>
      match read_ppm tag0 inputF with
      | none => some ⟨3, none, [], none⟩
      | some input =>
        match file_out with
        | none => some ⟨7, none, [], some input⟩
        | some room =>
          let output : Sink := ⟨[], room⟩
          match argv[3]? with
          | none => none
          | some op =>
            if strcmp_eq op str_swap then
              if argv.length ≠ 4 then some ⟨5, some output, [], some input⟩
              else some ⟨0, some output, [Call.swap], some (swap input)⟩
            else if strcmp_eq op str_invert then
              if argv.length ≠ 4 then some ⟨5, some output, [], some input⟩
              else some ⟨0, some output, [Call.invert], some (invert input)⟩
            else if strcmp_eq op str_zoom_out then
              if argv.length ≠ 4 then some ⟨5, some output, [], some input⟩
              else some ⟨0, some output, [Call.zoom_out], some (zoom_out fresh input)⟩
            else if strcmp_eq op str_rotate_right then
              if argv.length ≠ 4 then some ⟨5, some output, [], some input⟩
              else
                some ⟨0, some (write_ppm output (rotate_right fresh input)).1,
                  [Call.rotate_right], some (rotate_right fresh input)⟩
            else if strcmp_eq op str_swirl then
              if argv.length ≠ 7 then some ⟨5, some output, [], some input⟩
              else if atoi (argv.getD 4 []) < -1 ∨ atoi (argv.getD 5 []) < -1 then
                some ⟨6, some output, [], some input⟩
              else if atoi (argv.getD 4 []) = 0 ∧ ¬ strcmp_eq (argv.getD 4 []) str_0 then
                some ⟨6, some output, [], some input⟩
              else if atoi (argv.getD 5 []) = 0 ∧ ¬ strcmp_eq (argv.getD 5 []) str_0 then
                some ⟨6, some output, [], some input⟩
              else if atoi (argv.getD 6 []) = 0 ∧ ¬ strcmp_eq (argv.getD 6 []) str_0 then
                some ⟨6, some output, [], some input⟩
              else
                some ⟨0, some output,
                  [Call.swirl (ops.ofInt (atoi (argv.getD 4 []))) (ops.ofInt (atoi (argv.getD 5 [])))
                    (ops.ofInt (atoi (argv.getD 6 [])))],
                  some (swirl ops fresh input (ops.ofInt (atoi (argv.getD 4 [])))
                    (ops.ofInt (atoi (argv.getD 5 []))) (ops.ofInt (atoi (argv.getD 6 []))))⟩
            else if strcmp_eq op str_edge_detection then
              if argv.length ≠ 5 then some ⟨5, some output, [], some input⟩
              else if atoi (argv.getD 4 []) = 0 ∧ ¬ strcmp_eq (argv.getD 4 []) str_0 then
                some ⟨6, some output, [], some input⟩
              else
                some ⟨0, some output, [Call.edges (ops.ofInt (atoi (argv.getD 4 [])))],
                  some (edges ops fresh input (ops.ofInt (atoi (argv.getD 4 []))))⟩
            else some ⟨4, some output, [], some input⟩

/-! ## Definitions used to state the properties -/

/-- The pixel-wise update `data[i] = f(data[i])`. -/
def point_update (f : Pixel → Pixel) (d : List Pixel) (i : Nat) : List Pixel :=
  d.set i (f (getPx d i))

/-- The pixel `grayscale` stores for an original pixel. -/
def gray_px (p : Pixel) : Pixel := ⟨pixel_to_gray p, pixel_to_gray p, pixel_to_gray p⟩

/-- The pixel `swap` stores for an original pixel. -/
def swap_px (p : Pixel) : Pixel := ⟨p.g, p.b, p.r⟩

/-- The state of a row-major pass that has updated the first `k` pixels. -/
def mapped_upto (f : Pixel → Pixel) (d : List Pixel) (k : Nat) : List Pixel :=
  (d.take k).map f ++ d.drop k

/-- A raster with present storage `d`: the dimensions are not negative and `d` holds
`rows * cols` pixels. -/
def Image.holds (im : Image) (d : List Pixel) : Prop :=
  im.data = some d ∧ 0 ≤ im.rows ∧ 0 ≤ im.cols ∧ d.length = im.rows.toNat * im.cols.toNat

/-- The decimal numeral of an integer as ASCII bytes, from the digits of `Nat.digits`. -/
def decimal (v : Int) : List Nat :=
  (if v < 0 then [45] else []) ++
    (if v = 0 then [48] else ((Nat.digits 10 v.natAbs).reverse.map (fun x => 48 + x)))

/-- The first token of a stream that white space delimits. -/
def first_token (fp : List Nat) : List Nat := (skip_space fp).takeWhile (fun x => !isspace x)

/-- The stream as `read_ppm` finds it when it starts to read the width. -/
def at_width (fp : List Nat) : List Nat := (fscanf_tag [] fp).2

/-- The stream as `read_ppm` finds it when it starts to read the height. -/
def at_height (fp : List Nat) : List Nat := (read_num (at_width fp)).2

/-- The stream as `read_ppm` finds it when it starts to read the maximum value. -/
def at_maxval (fp : List Nat) : List Nat := (read_num (at_height fp)).2

/-- The bytes that remain after the header. -/
def at_pixels (fp : List Nat) : List Nat := (read_num (at_maxval fp)).2

/-- A number can be read at the head of the stream, after comment lines. -/
def readable (fp : List Nat) : Prop := (fscanf_d (comment_loop false fp)).1 ≠ none

/-- The list starts with a byte on which `p` is false. -/
def starts_not (p : Nat → Bool) (l : List Nat) : Prop := ∃ x t, l = x :: t ∧ p x = false

/-- The replacement `t1` of the unread stream `t` starts with the same byte, or with `#`. -/
def same_start (t t1 : List Nat) : Prop := t1.head? = t.head? ∨ t1.head? = some 35

/-- Comment lines: each is `#`, a body without a newline, and a newline. -/
def comment_block (bodies : List (List Nat)) : List Nat :=
  bodies.flatMap (fun b => 35 :: (b ++ [10]))

/-- The stream with `cs` inserted after its first `k` bytes. -/
def insert_at (fp : List Nat) (k : Nat) (cs : List Nat) : List Nat :=
  fp.take k ++ cs ++ fp.drop k

/-- The integer square root, by search from `k` downwards. -/
def isqrt_aux : Nat → Nat → Nat
  | 0, _ => 0
  | k + 1, n => if (k + 1) * (k + 1) ≤ n then k + 1 else isqrt_aux k n

/-- An arithmetic on the integers on which the definitions can be run, used for the
instances of the theorems only: it is exact on integers, its division truncates, its square
root is the integer square root, and its `cos` and `sin` are those of the angle zero at
zero and those of a quarter turn elsewhere. -/
def intOps : FloatOps Int where
  ofInt := id
  add := fun a b => a + b
  sub := fun a b => a - b
  mul := fun a b => a * b
  div := fun a b => Int.tdiv a b
  sqrt := fun a => (isqrt_aux a.toNat a.toNat : Nat)
  pow := fun a b => a ^ b.toNat
  cos := fun a => if a = 0 then 1 else 0
  sin := fun a => if a = 0 then 0 else 1
  toInt := id
  eq := fun a b => decide (a = b)
  lt := fun a b => decide (a < b)

/-- The loop nest `for r < R, for c < C: a[dst r c] = val r c`. -/
def fill2 (R C : Nat) (dst : Nat → Nat → Nat) (val : Nat → Nat → Pixel) (a : List Pixel) :
    List Pixel :=
  (List.range R).foldl
    (fun a1 r => (List.range C).foldl (fun a2 c => a2.set (dst r c) (val r c)) a1) a

/-- The effect of `invert` on one pixel. -/
def invert_px (p : Pixel) : Pixel :=
  ⟨uchar_of_int (255 - (p.r : Int)), uchar_of_int (255 - (p.g : Int)),
   uchar_of_int (255 - (p.b : Int))⟩

/-- The pixel that `zoom_out` stores at row `r` and column `c` of the new image. -/
def zoom_px (d : List Pixel) (cols : Int) (r c : Nat) : Pixel :=
  ⟨avg4 (getPx d (pix_index (2 * r) cols (2 * c))).r
      (getPx d (pix_index (2 * r) cols (2 * c + 1))).r
      (getPx d (pix_index (2 * r + 1) cols (2 * c))).r
      (getPx d (pix_index (2 * r + 1) cols (2 * c + 1))).r,
   avg4 (getPx d (pix_index (2 * r) cols (2 * c))).g
      (getPx d (pix_index (2 * r) cols (2 * c + 1))).g
      (getPx d (pix_index (2 * r + 1) cols (2 * c))).g
      (getPx d (pix_index (2 * r + 1) cols (2 * c + 1))).g,
   avg4 (getPx d (pix_index (2 * r) cols (2 * c))).b
      (getPx d (pix_index (2 * r) cols (2 * c + 1))).b
      (getPx d (pix_index (2 * r + 1) cols (2 * c))).b
      (getPx d (pix_index (2 * r + 1) cols (2 * c + 1))).b⟩

/-- The pixel that `swirl` stores at row `r` and column `c`. -/
def swirl_px {F : Type} (ops : FloatOps F) (d : List Pixel) (rows cols : Int) (cx cy s : F)
    (r c : Nat) : Pixel :=
  if swirl_newC ops cx cy s r c < 0 ∨ swirl_newC ops cx cy s r c ≥ cols ∨
      swirl_newR ops cx cy s r c < 0 ∨ swirl_newR ops cx cy s r c ≥ rows then
    ⟨0, 0, 0⟩
  else
    getPx d (pix_indexZ (swirl_newR ops cx cy s r c) cols (swirl_newC ops cx cy s r c))

/-- Facts of `double` arithmetic about the zeros, for a predicate `Z` that holds of them:
the difference of equal integers is a zero; sums, differences and products of zeros, the
product of a zero and one, the square and the square root of a zero and the sine of a zero
are zeros; the cosine of a zero is one; a zero added to an `int` converts back to that
`int`; a non-negative `int` does not compare equal to -1. -/
structure ZeroLaws {F : Type} (ops : FloatOps F) (Z : F → Prop) : Prop where
  sub_self : ∀ a : Int, Z (ops.sub (ops.ofInt a) (ops.ofInt a))
  add_zero : ∀ x y, Z x → Z y → Z (ops.add x y)
  sub_zero : ∀ x y, Z x → Z y → Z (ops.sub x y)
  mul_zero : ∀ x y, Z x → Z y → Z (ops.mul x y)
  mul_one : ∀ x, Z x → Z (ops.mul x (ops.ofInt 1))
  pow_two : ∀ x, Z x → Z (ops.pow x (ops.ofInt 2))
  sqrt_zero : ∀ x, Z x → Z (ops.sqrt x)
  cos_zero : ∀ x, Z x → ops.cos x = ops.ofInt 1
  sin_zero : ∀ x, Z x → Z (ops.sin x)
  toInt_add : ∀ x (a : Int), Z x → 0 ≤ a → a < 2 ^ 31 →
    ops.toInt (ops.add x (ops.ofInt a)) = a
  ne_minus_one : ∀ a : Int, 0 ≤ a → a < 2 ^ 31 → ops.eq (ops.ofInt a) (ops.ofInt (-1)) = false

/-- The pixel that `edges` stores at row `r` and column `c`; `g` is the storage after
`grayscale`. -/
def edges_px {F : Type} (ops : FloatOps F) (g : List Pixel) (rows cols : Int) (threshold : F)
    (r c : Nat) : Pixel :=
  if r = 0 ∨ c = 0 ∨ (r : Int) = rows - 1 ∨ (c : Int) = cols - 1 then
    ⟨(getPx g (pix_index r cols c)).r, (getPx g (pix_index r cols c)).r,
     (getPx g (pix_index r cols c)).r⟩
  else if ops.lt (gradient_magnitude ops
      (((getPx g (pix_indexZ r cols ((c : Int) - 1))).g : Int)
        - ((getPx g (pix_indexZ ((r : Int) + 1) cols ((c : Int) + 1))).g : Int))
      (((getPx g (pix_indexZ ((r : Int) - 1) cols c)).g : Int)
        - ((getPx g (pix_indexZ ((r : Int) + 1) cols c)).g : Int))) threshold then
    ⟨255, 255, 255⟩
  else
    ⟨0, 0, 0⟩

/-- A 3x3 raster for the instances of the theorems. -/
def sample_pixels : List Pixel :=
  [⟨10, 20, 30⟩, ⟨40, 50, 60⟩, ⟨70, 80, 90⟩,
   ⟨100, 110, 120⟩, ⟨130, 140, 150⟩, ⟨160, 170, 180⟩,
   ⟨190, 200, 210⟩, ⟨220, 230, 240⟩, ⟨250, 0, 255⟩]

/-- The raster of 3 rows and 3 columns that holds `sample_pixels`. -/
def sample_raster : Image := ⟨some sample_pixels, 3, 3⟩

/-- The pixels of a 2x3 raster for the instances of the theorems. -/
def wide_pixels : List Pixel :=
  [⟨1, 2, 3⟩, ⟨4, 5, 6⟩, ⟨7, 8, 9⟩, ⟨10, 11, 12⟩, ⟨13, 14, 15⟩, ⟨16, 17, 18⟩]

/-- The raster of 2 rows and 3 columns that holds `wide_pixels`. -/
def wide_raster : Image := ⟨some wide_pixels, 2, 3⟩

/-- The pixels of a 3x3 raster of one colour. -/
def uniform_pixels : List Pixel := List.replicate 9 ⟨10, 20, 30⟩

/-- The raster of 3 rows and 3 columns that holds `uniform_pixels`. -/
def uniform_raster : Image := ⟨some uniform_pixels, 3, 3⟩

/-- Contents of an allocated block for the instances of the theorems. -/
def sample_fresh : Nat → Pixel := fun _ => ⟨7, 7, 7⟩

/-- The raster invariant: storage of `rows * cols` pixels is present and both dimensions
are positive. -/
def Image.valid (im : Image) (d : List Pixel) : Prop :=
  im.holds d ∧ 0 < im.rows ∧ 0 < im.cols

/-- A PPM stream of one row and one column with the pixel (1,2,3). -/
def one_pixel_ppm : List Nat := [80, 54, 10, 49, 32, 49, 10, 50, 53, 53, 10, 1, 2, 3]

/-- A file name for the instances of the theorems. -/
def str_name : List Nat := [112]

/-- The pixels of a 3x3 raster that differs from `sample_pixels` in the last row and the
last column only. -/
def sample_pixels_alt : List Pixel :=
  [⟨10, 20, 30⟩, ⟨40, 50, 60⟩, ⟨1, 1, 1⟩,
   ⟨100, 110, 120⟩, ⟨130, 140, 150⟩, ⟨2, 2, 2⟩,
   ⟨3, 3, 3⟩, ⟨4, 4, 4⟩, ⟨5, 5, 5⟩]

/-- The raster of 3 rows and 3 columns that holds `sample_pixels_alt`. -/
def sample_raster_alt : Image := ⟨some sample_pixels_alt, 3, 3⟩

/-! ## Lemmas and theorems -/

theorem pix_index_eq (r c : Nat) (cols : Int) (h : 0 ≤ cols) :
    pix_index r cols c = r * cols.toNat + c := by
  obtain ⟨n, rfl⟩ := Int.eq_ofNat_of_zero_le h
  unfold pix_index
  simp only [Int.toNat_ofNat]
  have : ((r : Int) * (n : Int) + (c : Int)) = ((r * n + c : Nat) : Int) := by push_cast; ring
  rw [this, Int.toNat_ofNat]

theorem getPx_set_self (d : List Pixel) (i : Nat) (p : Pixel) (h : i < d.length) :
    getPx (d.set i p) i = p := by
  simp [getPx, List.getD_eq_getElem?_getD, h]

theorem set_of_length_le (d : List Pixel) (i : Nat) (p : Pixel) (h : d.length ≤ i) :
    d.set i p = d := by
  apply List.ext_getElem?
  intro j
  by_cases hj : i = j
  · subst hj
    rw [List.getElem?_eq_none (by simpa using h), List.getElem?_eq_none h]
  · rw [List.getElem?_set_ne hj]

theorem grayscale_body_eq (d : List Pixel) (i : Nat) :
    grayscale_body d i = point_update gray_px d i := by
  unfold grayscale_body point_update
  by_cases h : i < d.length
  · simp [setR, setG, setB, getPx_set_self, h, gray_px, List.set_set]
  · simp [setR, setG, setB, set_of_length_le _ _ _ (Nat.le_of_not_lt h)]

theorem swap_body_eq (d : List Pixel) (i : Nat) :
    swap_body d i = point_update swap_px d i := by
  unfold swap_body point_update
  by_cases h : i < d.length
  · simp [setR, setG, setB, getPx_set_self, h, swap_px, List.set_set]
  · simp [setR, setG, setB, set_of_length_le _ _ _ (Nat.le_of_not_lt h)]

theorem mapped_upto_step (f : Pixel → Pixel) (d : List Pixel) (k : Nat) (h : k < d.length) :
    point_update f (mapped_upto f d k) k = mapped_upto f d (k + 1) := by
  unfold point_update mapped_upto getPx
  have hlen : ((d.take k).map f).length = k := by simp; omega
  rw [List.drop_eq_getElem_cons h]
  rw [List.getD_eq_getElem?_getD, List.getElem?_append_right (by omega)]
  rw [List.set_append_right _ _ (by omega)]
  simp only [hlen, Nat.sub_self, List.getElem?_cons_zero, Option.getD_some, List.set_cons_zero]
  rw [List.take_succ, List.getElem?_eq_getElem h]
  simp only [Option.toList_some, List.map_append, List.map_cons, List.map_nil, List.append_assoc,
    List.singleton_append]

theorem cols_loop (f : Pixel → Pixel) (d : List Pixel) (C r : Nat) (c : Nat) (hc : c ≤ C)
    (h : (r + 1) * C ≤ d.length) :
    (List.range c).foldl (fun d2 j => point_update f d2 (r * C + j)) (mapped_upto f d (r * C))
      = mapped_upto f d (r * C + c) := by
  induction c with
  | zero => simp
  | succ c ih =>
    rw [List.range_succ, List.foldl_append, ih (by omega)]
    simp only [List.foldl_cons, List.foldl_nil]
    have : r * C + c < d.length := by
      have : (r + 1) * C = r * C + C := by ring
      omega
    rw [mapped_upto_step f d _ this]
    rfl

theorem rows_loop (f : Pixel → Pixel) (d : List Pixel) (R C : Nat) (h : d.length = R * C) :
    (List.range R).foldl
      (fun d1 r => (List.range C).foldl (fun d2 c => point_update f d2 (r * C + c)) d1) d
      = d.map f := by
  have key : ∀ r, r ≤ R → (List.range r).foldl
      (fun d1 r => (List.range C).foldl (fun d2 c => point_update f d2 (r * C + c)) d1) d
      = mapped_upto f d (r * C) := by
    intro r
    induction r with
    | zero => intro _; simp [mapped_upto]
    | succ r ih =>
      intro hr
      rw [List.range_succ, List.foldl_append, ih (by omega)]
      simp only [List.foldl_cons, List.foldl_nil]
      have hle : (r + 1) * C ≤ d.length := by
        rw [h]; exact Nat.mul_le_mul_right C hr
      rw [cols_loop f d C r C (le_refl C) hle]
      congr 1
      ring
  rw [key R (le_refl R)]
  simp [mapped_upto, ← h]

/-- The three literals are the 53-bit fractions nearest to 3/10, 59/100 and 11/100: each
has 53 significant bits and is within half a unit in the last place of the decimal. -/
theorem literals_nearest :
    (2 ^ 52 ≤ c_0_3.m ∧ c_0_3.m < 2 ^ 53 ∧
      10 * c_0_3.m ≤ 3 * 2 ^ c_0_3.e + 5 ∧ 3 * 2 ^ c_0_3.e ≤ 10 * c_0_3.m + 5) ∧
    (2 ^ 52 ≤ c_0_59.m ∧ c_0_59.m < 2 ^ 53 ∧
      100 * c_0_59.m ≤ 59 * 2 ^ c_0_59.e + 50 ∧ 59 * 2 ^ c_0_59.e ≤ 100 * c_0_59.m + 50) ∧
    (2 ^ 52 ≤ c_0_11.m ∧ c_0_11.m < 2 ^ 53 ∧
      100 * c_0_11.m ≤ 11 * 2 ^ c_0_11.e + 50 ∧ 11 * 2 ^ c_0_11.e ≤ 100 * c_0_11.m + 50) := by
  decide

theorem drop_bits_lower : ∀ fuel m, 0 < drop_bits fuel m → 2 ^ (52 + drop_bits fuel m) ≤ m := by
  intro fuel
  induction fuel with
  | zero => intro m h; simp [drop_bits] at h
  | succ fuel ih =>
    intro m h
    unfold drop_bits at h ⊢
    split_ifs at h ⊢ with hlt
    · omega
    · by_cases hs : 0 < drop_bits fuel (m / 2)
      · have h1 := ih (m / 2) hs
        have h2 : 2 ^ (52 + (drop_bits fuel (m / 2) + 1)) = 2 * 2 ^ (52 + drop_bits fuel (m / 2)) := by
          rw [← Nat.add_assoc, pow_succ]; ring
        rw [h2]
        omega
      · have h0 : drop_bits fuel (m / 2) = 0 := by omega
        rw [h0]
        norm_num at hlt ⊢
        exact hlt

/-- The fuel of `drop_bits` is enough: what remains has at most 53 bits. -/
theorem drop_bits_upper : ∀ fuel m, m ≤ fuel → m / 2 ^ drop_bits fuel m < 2 ^ 53 := by
  intro fuel
  induction fuel with
  | zero =>
    intro m h
    have : m = 0 := by omega
    subst this
    simp [drop_bits]
  | succ fuel ih =>
    intro m h
    unfold drop_bits
    split_ifs with hlt
    · simpa using hlt
    · have h2 : m / 2 ≤ fuel := by
        have : 2 ^ 53 ≤ m := by omega
        norm_num at this
        omega
      have := ih (m / 2) h2
      rw [pow_succ', ← Nat.div_div_eq_div_mul]
      exact this

/-- The result of `round53` is a double: a significand of at most 53 bits (2^53 when the
rounding carries) times a power of two. -/
theorem round53_is_double (x : Double) :
    ∃ q s, (round53 x).m = q * 2 ^ s ∧ q ≤ 2 ^ 53 := by
  have h := drop_bits_upper x.m x.m (le_refl _)
  unfold round53
  simp only
  split_ifs
  · exact ⟨_, _, rfl, by omega⟩
  · exact ⟨_, _, rfl, by omega⟩

theorem round53_e (x : Double) : (round53 x).e = x.e := by
  unfold round53
  simp only
  split_ifs <;> rfl

theorem round53_err (x : Double) (hx : x.m < 2 ^ (x.e + 8)) :
    (round53 x).m * 2 ^ 46 ≤ x.m * 2 ^ 46 + 2 ^ x.e ∧
    x.m * 2 ^ 46 ≤ (round53 x).m * 2 ^ 46 + 2 ^ x.e := by
  obtain ⟨m, e⟩ := x
  simp only at hx ⊢
  unfold round53
  simp only
  generalize hs : drop_bits m m = s
  have hdm := Nat.div_add_mod m (2 ^ s)
  have hrest : m % 2 ^ s < 2 ^ s := Nat.mod_lt _ (by positivity)
  by_cases hs0 : s = 0
  · subst hs0
    simp [Nat.mod_one]
  · have hlow : 2 ^ (52 + s) ≤ m := by
      have := drop_bits_lower m m (by omega)
      rwa [hs] at this
    have hlt : 52 + s < e + 8 := by
      by_contra hcon
      have : 2 ^ (e + 8) ≤ 2 ^ (52 + s) := Nat.pow_le_pow_right (by norm_num) (by omega)
      omega
    have hP : 2 ^ s * 2 ^ 46 ≤ 2 * 2 ^ e := by
      rw [← pow_add, ← pow_succ']
      exact Nat.pow_le_pow_right (by norm_num) (by omega)
    generalize 2 ^ s = P at *
    generalize 2 ^ e = E at *
    generalize hq : m / P = q at *
    generalize hr : m % P = rest at *
    have hmul : (q + 1) * P = P * q + P := by ring
    have hmul2 : q * P = P * q := by ring
    generalize hPq : P * q = t at *
    split_ifs with hup
    · simp only
      rw [hmul]
      rcases hup with hup | ⟨hup, _⟩ <;> constructor <;> omega
    · simp only
      rw [hmul2]
      have : 2 * rest ≤ P := by
        by_contra hc
        exact hup (Or.inl (by omega))
      constructor <;> omega

theorem gray_sum_bound (p : Pixel) (hp : p.isByte) :
    (gray_sum p).e = 56 ∧
    100 * (gray_sum p).m ≤ 2 ^ 56 * (30 * p.r + 59 * p.g + 11 * p.b) + 1000000 ∧
    2 ^ 56 * (30 * p.r + 59 * p.g + 11 * p.b) ≤ 100 * (gray_sum p).m + 1000000 := by
  obtain ⟨r, g, b⟩ := p
  obtain ⟨hr, hg, hb⟩ := hp
  simp only at hr hg hb ⊢
  unfold gray_sum Double.add Double.mul Double.ofUChar c_0_3 c_0_59 c_0_11
  simp only [round53_e, Nat.add_zero]
  have hA := round53_err ⟨5404319552844595 * r, 54⟩ (by simp only; norm_num; omega)
  have hB := round53_err ⟨5314247560297185 * g, 53⟩ (by simp only; norm_num; omega)
  have hC := round53_err ⟨7926335344172073 * b, 56⟩ (by simp only; norm_num; omega)
  generalize (round53 ⟨5404319552844595 * r, 54⟩).m = A at *
  generalize (round53 ⟨5314247560297185 * g, 53⟩).m = B at *
  generalize (round53 ⟨7926335344172073 * b, 56⟩).m = C at *
  simp only at hA hB hC
  norm_num at hA hB hC ⊢
  have hS := round53_err ⟨A + B * 2, 54⟩ (by simp only; norm_num; omega)
  generalize (round53 ⟨A + B * 2, 54⟩).m = S at *
  simp only at hS
  norm_num at hS
  have hT := round53_err ⟨S * 4 + C, 56⟩ (by simp only; norm_num; omega)
  generalize (round53 ⟨S * 4 + C, 56⟩).m = T at *
  simp only at hT
  norm_num at hT
  omega

theorem grayscale_eq_map (im : Image) (d : List Pixel) (h : im.holds d) :
    grayscale im = { im with data := some (d.map gray_px) } := by
  obtain ⟨hd, _, hc, hlen⟩ := h
  unfold grayscale
  rw [hd]
  simp only [grayscale_body_eq, pix_index_eq _ _ _ hc]
  rw [rows_loop gray_px d _ _ hlen]

theorem swap_eq_map (im : Image) (d : List Pixel) (h : im.holds d) :
    swap im = { im with data := some (d.map swap_px) } := by
  obtain ⟨hd, _, hc, hlen⟩ := h
  unfold swap
  rw [hd]
  simp only [swap_body_eq, pix_index_eq _ _ _ hc]
  rw [rows_loop swap_px d _ _ hlen]

theorem holds_map (im : Image) (d : List Pixel) (f : Pixel → Pixel) (h : im.holds d) :
    Image.holds { im with data := some (d.map f) } (d.map f) := by
  obtain ⟨_, hr, hc, hlen⟩ := h
  exact ⟨rfl, hr, hc, by simpa using hlen⟩

theorem getPx_map (f : Pixel → Pixel) (d : List Pixel) (i : Nat) (h : i < d.length) :
    getPx (d.map f) i = f (getPx d i) := by
  simp [getPx, List.getD_eq_getElem?_getD, h]

theorem pixel_to_gray_lt (p : Pixel) : pixel_to_gray p < 256 := by
  unfold pixel_to_gray Double.toUChar
  exact Nat.mod_lt _ (by norm_num)

/-- C6 (as stated): the pixel (1,1,1) has exact luma floor(100/100) = 1, but the code
returns 0. The white pixel (255,255,255) gives 255. -/
theorem pixel_to_gray_exact_counterexample :
    pixel_to_gray ⟨1, 1, 1⟩ = 0 ∧ pixel_to_gray ⟨1, 1, 1⟩ ≠ (30 * 1 + 59 * 1 + 11 * 1) / 100 ∧
    pixel_to_gray ⟨255, 255, 255⟩ = 255 := by
  decide

/-- C6 (amended): for a pixel of bytes, the integer part of the double computed by
`pixel_to_gray` is at most 255, so the cast does not wrap, and the result is
floor((30R+59G+11B)/100), or one less than that when 30R+59G+11B is a multiple of 100. -/
theorem pixel_to_gray_luma (p : Pixel) (hp : p.isByte) :
    (gray_sum p).m / 2 ^ (gray_sum p).e ≤ 255 ∧
    (pixel_to_gray p = (30 * p.r + 59 * p.g + 11 * p.b) / 100 ∨
      ((30 * p.r + 59 * p.g + 11 * p.b) % 100 = 0 ∧
        pixel_to_gray p + 1 = (30 * p.r + 59 * p.g + 11 * p.b) / 100)) := by
  obtain ⟨he, h1, h2⟩ := gray_sum_bound p hp
  obtain ⟨hr, hg, hb⟩ := hp
  unfold pixel_to_gray Double.toUChar
  rw [he]
  generalize (gray_sum p).m = m at *
  have hN := Nat.div_add_mod (30 * p.r + 59 * p.g + 11 * p.b) 100
  have ht : (30 * p.r + 59 * p.g + 11 * p.b) % 100 < 100 := Nat.mod_lt _ (by norm_num)
  have hq : (30 * p.r + 59 * p.g + 11 * p.b) / 100 ≤ 255 := by omega
  generalize (30 * p.r + 59 * p.g + 11 * p.b) / 100 = q at *
  generalize (30 * p.r + 59 * p.g + 11 * p.b) % 100 = t at *
  generalize 30 * p.r + 59 * p.g + 11 * p.b = N at *
  subst hN
  norm_num at h1 h2
  by_cases ht0 : t = 0
  · subst ht0
    by_cases hm : q * 2 ^ 56 ≤ m
    · have hdiv : m / 2 ^ 56 = q := Nat.div_eq_of_lt_le hm (by norm_num at hm ⊢; omega)
      rw [hdiv]
      omega
    · have hq1 : 1 ≤ q := by
        by_contra hc
        have : q = 0 := by omega
        subst this
        omega
      have hdiv : m / 2 ^ 56 = q - 1 :=
        Nat.div_eq_of_lt_le (by norm_num at hm ⊢; omega) (by norm_num at hm ⊢; omega)
      rw [hdiv]
      omega
  · have hdiv : m / 2 ^ 56 = q :=
      Nat.div_eq_of_lt_le (by norm_num; omega) (by norm_num; omega)
    rw [hdiv]
    omega

/-- Witness of C6 at the white pixel (255,255,255), where the result is 255. -/
theorem pixel_to_gray_luma_witness :
    Pixel.isByte ⟨255, 255, 255⟩ ∧
    ((gray_sum ⟨255, 255, 255⟩).m / 2 ^ (gray_sum ⟨255, 255, 255⟩).e ≤ 255 ∧
    (pixel_to_gray ⟨255, 255, 255⟩ = (30 * 255 + 59 * 255 + 11 * 255) / 100 ∨
      ((30 * 255 + 59 * 255 + 11 * 255) % 100 = 0 ∧
        pixel_to_gray ⟨255, 255, 255⟩ + 1 = (30 * 255 + 59 * 255 + 11 * 255) / 100))) :=
  ⟨by unfold Pixel.isByte; decide,
    pixel_to_gray_luma ⟨255, 255, 255⟩ (by unfold Pixel.isByte; decide)⟩

/-- C7: on a raster with present storage, `grayscale` keeps rows and cols and sets the
three channels of every pixel to `pixel_to_gray` of the original pixel. -/
theorem grayscale_post (im : Image) (d : List Pixel) (h : im.holds d) :
    (grayscale im).rows = im.rows ∧ (grayscale im).cols = im.cols ∧
    ∃ d1, (grayscale im).data = some d1 ∧ d1.length = d.length ∧
      ∀ i, i < d.length →
        (getPx d1 i).r = pixel_to_gray (getPx d i) ∧
        (getPx d1 i).g = pixel_to_gray (getPx d i) ∧
        (getPx d1 i).b = pixel_to_gray (getPx d i) := by
  rw [grayscale_eq_map im d h]
  refine ⟨rfl, rfl, d.map gray_px, rfl, by simp, ?_⟩
  intro i hi
  rw [getPx_map _ _ _ hi]
  exact ⟨rfl, rfl, rfl⟩

/-- Witness of C7 on a 1x2 raster. -/
theorem grayscale_post_witness :
    Image.holds ⟨some [⟨200, 100, 50⟩, ⟨1, 2, 3⟩], 1, 2⟩ [⟨200, 100, 50⟩, ⟨1, 2, 3⟩] ∧
    ((grayscale ⟨some [⟨200, 100, 50⟩, ⟨1, 2, 3⟩], 1, 2⟩).rows = 1 ∧
     (grayscale ⟨some [⟨200, 100, 50⟩, ⟨1, 2, 3⟩], 1, 2⟩).cols = 2 ∧
    ∃ d1, (grayscale ⟨some [⟨200, 100, 50⟩, ⟨1, 2, 3⟩], 1, 2⟩).data = some d1 ∧
      d1.length = [(⟨200, 100, 50⟩ : Pixel), ⟨1, 2, 3⟩].length ∧
      ∀ i, i < [(⟨200, 100, 50⟩ : Pixel), ⟨1, 2, 3⟩].length →
        (getPx d1 i).r = pixel_to_gray (getPx [⟨200, 100, 50⟩, ⟨1, 2, 3⟩] i) ∧
        (getPx d1 i).g = pixel_to_gray (getPx [⟨200, 100, 50⟩, ⟨1, 2, 3⟩] i) ∧
        (getPx d1 i).b = pixel_to_gray (getPx [⟨200, 100, 50⟩, ⟨1, 2, 3⟩] i)) :=
  ⟨by unfold Image.holds; decide,
    grayscale_post ⟨some [⟨200, 100, 50⟩, ⟨1, 2, 3⟩], 1, 2⟩ [⟨200, 100, 50⟩, ⟨1, 2, 3⟩] (by unfold Image.holds; decide)⟩

/-- The luma of a grey pixel (v,v,v), by evaluation of all 256 cases. -/
theorem pixel_to_gray_diag :
    ∀ v, v < 256 → (pixel_to_gray ⟨v, v, v⟩ = v ∨ pixel_to_gray ⟨v, v, v⟩ + 1 = v) := by
  set_option maxRecDepth 1000000 in
  decide

/-- C8 (as stated): on the 1x1 raster (2,2,2) a second `grayscale` changes the result of
the first: (2,2,2) becomes (1,1,1) and then (0,0,0). -/
theorem grayscale_idempotent_counterexample :
    grayscale ⟨some [⟨2, 2, 2⟩], 1, 1⟩ = ⟨some [⟨1, 1, 1⟩], 1, 1⟩ ∧
    grayscale (grayscale ⟨some [⟨2, 2, 2⟩], 1, 1⟩) = ⟨some [⟨0, 0, 0⟩], 1, 1⟩ ∧
    grayscale (grayscale ⟨some [⟨2, 2, 2⟩], 1, 1⟩) ≠ grayscale ⟨some [⟨2, 2, 2⟩], 1, 1⟩ := by
  decide

/-- C8 (amended): on a raster with present storage, a second `grayscale` keeps rows and
cols, and every pixel (v,v,v) of the first result becomes (w,w,w) with w = v or
w = v - 1. -/
theorem grayscale_twice (im : Image) (d : List Pixel) (h : im.holds d) :
    (grayscale (grayscale im)).rows = (grayscale im).rows ∧
    (grayscale (grayscale im)).cols = (grayscale im).cols ∧
    ∃ d1 d2, (grayscale im).data = some d1 ∧ (grayscale (grayscale im)).data = some d2 ∧
      d2.length = d1.length ∧
      ∀ i, i < d1.length → ∃ v w, getPx d1 i = ⟨v, v, v⟩ ∧ getPx d2 i = ⟨w, w, w⟩ ∧
        (w = v ∨ w + 1 = v) := by
  rw [grayscale_eq_map _ _ (by rw [grayscale_eq_map im d h]; exact holds_map im d gray_px h),
    grayscale_eq_map im d h]
  refine ⟨rfl, rfl, d.map gray_px, (d.map gray_px).map gray_px, rfl, rfl, by simp, ?_⟩
  intro i hi
  have hi' : i < d.length := by simpa using hi
  refine ⟨pixel_to_gray (getPx d i), pixel_to_gray (gray_px (getPx d i)), ?_, ?_, ?_⟩
  · rw [getPx_map _ _ _ hi']; rfl
  · rw [getPx_map _ _ _ hi, getPx_map _ _ _ hi']; rfl
  · have hv := pixel_to_gray_lt (getPx d i)
    exact pixel_to_gray_diag _ hv

/-- Witness of C8 on the 1x1 raster (2,2,2). -/
theorem grayscale_twice_witness :
    Image.holds ⟨some [⟨2, 2, 2⟩], 1, 1⟩ [⟨2, 2, 2⟩] ∧
    ((grayscale (grayscale ⟨some [⟨2, 2, 2⟩], 1, 1⟩)).rows = (grayscale ⟨some [⟨2, 2, 2⟩], 1, 1⟩).rows ∧
    (grayscale (grayscale ⟨some [⟨2, 2, 2⟩], 1, 1⟩)).cols = (grayscale ⟨some [⟨2, 2, 2⟩], 1, 1⟩).cols ∧
    ∃ d1 d2, (grayscale ⟨some [⟨2, 2, 2⟩], 1, 1⟩).data = some d1 ∧
      (grayscale (grayscale ⟨some [⟨2, 2, 2⟩], 1, 1⟩)).data = some d2 ∧
      d2.length = d1.length ∧
      ∀ i, i < d1.length → ∃ v w, getPx d1 i = ⟨v, v, v⟩ ∧ getPx d2 i = ⟨w, w, w⟩ ∧
        (w = v ∨ w + 1 = v)) :=
  ⟨by unfold Image.holds; decide,
    grayscale_twice ⟨some [⟨2, 2, 2⟩], 1, 1⟩ [⟨2, 2, 2⟩] (by unfold Image.holds; decide)⟩

/-- C9: on a raster with present storage, `swap` keeps rows, cols and positions, and a
pixel (R,G,B) becomes (G,B,R). -/
theorem swap_post (im : Image) (d : List Pixel) (h : im.holds d) :
    (swap im).rows = im.rows ∧ (swap im).cols = im.cols ∧
    ∃ d1, (swap im).data = some d1 ∧ d1.length = d.length ∧
      ∀ i, i < d.length →
        (getPx d1 i).r = (getPx d i).g ∧
        (getPx d1 i).g = (getPx d i).b ∧
        (getPx d1 i).b = (getPx d i).r := by
  rw [swap_eq_map im d h]
  refine ⟨rfl, rfl, d.map swap_px, rfl, by simp, ?_⟩
  intro i hi
  rw [getPx_map _ _ _ hi]
  exact ⟨rfl, rfl, rfl⟩

/-- Witness of C9 on a 2x1 raster. -/
theorem swap_post_witness :
    Image.holds ⟨some [⟨1, 2, 3⟩, ⟨4, 5, 6⟩], 2, 1⟩ [⟨1, 2, 3⟩, ⟨4, 5, 6⟩] ∧
    ((swap ⟨some [⟨1, 2, 3⟩, ⟨4, 5, 6⟩], 2, 1⟩).rows = 2 ∧
     (swap ⟨some [⟨1, 2, 3⟩, ⟨4, 5, 6⟩], 2, 1⟩).cols = 1 ∧
    ∃ d1, (swap ⟨some [⟨1, 2, 3⟩, ⟨4, 5, 6⟩], 2, 1⟩).data = some d1 ∧
      d1.length = [(⟨1, 2, 3⟩ : Pixel), ⟨4, 5, 6⟩].length ∧
      ∀ i, i < [(⟨1, 2, 3⟩ : Pixel), ⟨4, 5, 6⟩].length →
        (getPx d1 i).r = (getPx [⟨1, 2, 3⟩, ⟨4, 5, 6⟩] i).g ∧
        (getPx d1 i).g = (getPx [⟨1, 2, 3⟩, ⟨4, 5, 6⟩] i).b ∧
        (getPx d1 i).b = (getPx [⟨1, 2, 3⟩, ⟨4, 5, 6⟩] i).r) :=
  ⟨by unfold Image.holds; decide,
    swap_post ⟨some [⟨1, 2, 3⟩, ⟨4, 5, 6⟩], 2, 1⟩ [⟨1, 2, 3⟩, ⟨4, 5, 6⟩] (by unfold Image.holds; decide)⟩

/-- C10: on a raster with present storage, three applications of `swap` give the raster
back. -/
theorem swap_swap_swap (im : Image) (d : List Pixel) (h : im.holds d) :
    swap (swap (swap im)) = im := by
  have h1 := holds_map im d swap_px h
  have h2 := holds_map _ _ swap_px h1
  rw [swap_eq_map im d h, swap_eq_map _ _ h1, swap_eq_map _ _ h2]
  obtain ⟨hd, _⟩ := h
  have : ((d.map swap_px).map swap_px).map swap_px = d := by
    have hid : (swap_px ∘ swap_px) ∘ swap_px = id := by funext p; rfl
    rw [List.map_map, List.map_map, hid, List.map_id]
  cases im
  simp only at hd ⊢
  rw [this, hd]

/-- Witness of C10 on a 1x2 raster. -/
theorem swap_swap_swap_witness :
    Image.holds ⟨some [⟨1, 2, 3⟩, ⟨4, 5, 6⟩], 1, 2⟩ [⟨1, 2, 3⟩, ⟨4, 5, 6⟩] ∧
    swap (swap (swap ⟨some [⟨1, 2, 3⟩, ⟨4, 5, 6⟩], 1, 2⟩)) = ⟨some [⟨1, 2, 3⟩, ⟨4, 5, 6⟩], 1, 2⟩ :=
  ⟨by unfold Image.holds; decide,
    swap_swap_swap ⟨some [⟨1, 2, 3⟩, ⟨4, 5, 6⟩], 1, 2⟩ [⟨1, 2, 3⟩, ⟨4, 5, 6⟩] (by unfold Image.holds; decide)⟩

theorem dec_digits_aux_eq : ∀ fuel n acc, 0 < n → n ≤ fuel →
    dec_digits_aux fuel n acc = (Nat.digits 10 n).reverse.map (fun x => 48 + x) ++ acc := by
  intro fuel
  induction fuel with
  | zero => intro n acc h1 h2; omega
  | succ fuel ih =>
    intro n acc h1 h2
    unfold dec_digits_aux
    split_ifs with hlt
    · rw [Nat.digits_of_lt 10 n (by omega) hlt]
      simp
    · rw [ih (n / 10) _ (by omega) (by omega)]
      conv_rhs => rw [Nat.digits_def' (by norm_num : 1 < 10) h1]
      simp

theorem fmt_d_eq_decimal (v : Int) : fmt_d v = decimal v := by
  unfold fmt_d decimal
  by_cases h0 : v = 0
  · subst h0
    simp [dec_digits_aux]
  · have hpos : 0 < v.natAbs := Int.natAbs_pos.mpr h0
    rw [dec_digits_aux_eq _ _ _ hpos (by omega)]
    split_ifs <;> simp

theorem length_flatMap_bytes (d : List Pixel) : (d.flatMap Pixel.bytes).length = 3 * d.length := by
  induction d with
  | nil => rfl
  | cons p d ih =>
    simp only [List.flatMap_cons, List.length_append, ih, List.length_cons, Pixel.bytes,
      List.length_nil]
    omega

theorem size_t_of_holds (im : Image) (d : List Pixel) (h : im.holds d) :
    size_t_of_int (im.rows * im.cols) = d.length := by
  obtain ⟨_, hr, hc, hlen⟩ := h
  obtain ⟨R, hR⟩ := Int.eq_ofNat_of_zero_le hr
  obtain ⟨C, hC⟩ := Int.eq_ofNat_of_zero_le hc
  rw [hlen, hR, hC]
  unfold size_t_of_int
  have hmul : ((R : Int) * (C : Int)) = ((R * C : Nat) : Int) := by push_cast; ring
  rw [hmul, if_neg (by omega)]
  simp only [Int.toNat_ofNat]

theorem write_ppm_all (fp : Sink) (im : Image) (d : List Pixel) (hdr : List Nat)
    (h : im.holds d)
    (hhdr : P6 ++ [10] ++ fmt_d im.cols ++ [32] ++ fmt_d im.rows ++ [10, 50, 53, 53, 10] = hdr)
    (hroom : hdr.length + 3 * d.length ≤ fp.room) :
    write_ppm fp im = (⟨fp.out ++ (hdr ++ d.flatMap Pixel.bytes), fp.room - hdr.length - 3 * d.length⟩, 0) := by
  have hn := size_t_of_holds im d h
  obtain ⟨hd, _⟩ := h
  have hb := length_flatMap_bytes d
  unfold write_ppm fwrite Sink.put
  simp only [hn, hd, Option.getD_some, hhdr, List.take_length]
  rw [List.take_of_length_le (by omega), List.take_of_length_le (by omega), hb]
  have hmin : min d.length ((fp.room - hdr.length) / 3) = d.length := by
    apply Nat.min_eq_left
    omega
  rw [hmin]
  simp

theorem bytes_at : ∀ (d : List Pixel) (i : Nat), i < d.length →
    ((d.flatMap Pixel.bytes).drop (3 * i)).take 3 = (getPx d i).bytes := by
  intro d
  induction d with
  | nil => intro i h; simp at h
  | cons p d ih =>
    intro i h
    cases i with
    | zero => simp [getPx, Pixel.bytes]
    | succ j =>
      have hj : j < d.length := by simpa using h
      have h3 : 3 * (j + 1) = 3 * j + 3 := by ring
      have hpx : getPx (p :: d) (j + 1) = getPx d j := by simp [getPx]
      rw [hpx, ← ih j hj, h3, Nat.add_comm, ← List.drop_drop]
      simp [Pixel.bytes]

theorem pix_index_lt (im : Image) (d : List Pixel) (h : im.holds d) (r c : Nat)
    (hr : r < im.rows.toNat) (hc : c < im.cols.toNat) : pix_index r im.cols c < d.length := by
  obtain ⟨_, _, hc0, hlen⟩ := h
  rw [pix_index_eq _ _ _ hc0, hlen]
  calc r * im.cols.toNat + c < r * im.cols.toNat + im.cols.toNat := by omega
    _ = (r + 1) * im.cols.toNat := by ring
    _ ≤ im.rows.toNat * im.cols.toNat := Nat.mul_le_mul_right _ hr

/-- C4: for a raster with present storage, when the sink has room for all the bytes,
`write_ppm` returns 0 and appends to the sink the text `P6\n<cols> <rows>\n255\n`, the
dimensions in decimal, followed by 3*rows*cols pixel bytes; the three bytes at offset
3*(r*cols+c) of the pixel bytes are R, G, B of the pixel at row r, column c. -/
theorem write_ppm_format (fp : Sink) (im : Image) (d : List Pixel) (h : im.holds d)
    (hroom : ([80, 54, 10] ++ decimal im.cols ++ [32] ++ decimal im.rows ++ [10, 50, 53, 53, 10]
      ++ d.flatMap Pixel.bytes).length ≤ fp.room) :
    (write_ppm fp im).2 = 0 ∧
    (write_ppm fp im).1.out = fp.out ++ ([80, 54, 10] ++ decimal im.cols ++ [32] ++
      decimal im.rows ++ [10, 50, 53, 53, 10] ++ d.flatMap Pixel.bytes) ∧
    (d.flatMap Pixel.bytes).length = 3 * (im.rows.toNat * im.cols.toNat) ∧
    ∀ r c, r < im.rows.toNat → c < im.cols.toNat →
      ((d.flatMap Pixel.bytes).drop (3 * pix_index r im.cols c)).take 3
        = [(getPx d (pix_index r im.cols c)).r, (getPx d (pix_index r im.cols c)).g,
            (getPx d (pix_index r im.cols c)).b] := by
  have hb := length_flatMap_bytes d
  have hhdr : P6 ++ [10] ++ fmt_d im.cols ++ [32] ++ fmt_d im.rows ++ [10, 50, 53, 53, 10]
      = [80, 54, 10] ++ decimal im.cols ++ [32] ++ decimal im.rows ++ [10, 50, 53, 53, 10] := by
    simp [P6, fmt_d_eq_decimal]
  rw [List.length_append, hb] at hroom
  rw [write_ppm_all fp im d _ h hhdr hroom]
  refine ⟨rfl, rfl, by rw [hb, h.2.2.2], ?_⟩
  intro r c hr hc
  exact bytes_at d _ (pix_index_lt im d h r c hr hc)

/-- Witness of C4 on a 1x2 raster and a sink with room for its 17 bytes. -/
theorem write_ppm_format_witness :
    Image.holds ⟨some [⟨1, 2, 3⟩, ⟨4, 5, 6⟩], 1, 2⟩ [⟨1, 2, 3⟩, ⟨4, 5, 6⟩] ∧
    ([80, 54, 10] ++ decimal 2 ++ [32] ++ decimal 1 ++ [10, 50, 53, 53, 10]
      ++ [(⟨1, 2, 3⟩ : Pixel), ⟨4, 5, 6⟩].flatMap Pixel.bytes).length ≤ 17 ∧
    ((write_ppm ⟨[], 17⟩ ⟨some [⟨1, 2, 3⟩, ⟨4, 5, 6⟩], 1, 2⟩).2 = 0 ∧
    (write_ppm ⟨[], 17⟩ ⟨some [⟨1, 2, 3⟩, ⟨4, 5, 6⟩], 1, 2⟩).1.out =
      [] ++ ([80, 54, 10] ++ decimal 2 ++ [32] ++ decimal 1 ++ [10, 50, 53, 53, 10]
        ++ [(⟨1, 2, 3⟩ : Pixel), ⟨4, 5, 6⟩].flatMap Pixel.bytes) ∧
    ([(⟨1, 2, 3⟩ : Pixel), ⟨4, 5, 6⟩].flatMap Pixel.bytes).length
      = 3 * ((1 : Int).toNat * (2 : Int).toNat) ∧
    ∀ r c, r < (1 : Int).toNat → c < (2 : Int).toNat →
      (([(⟨1, 2, 3⟩ : Pixel), ⟨4, 5, 6⟩].flatMap Pixel.bytes).drop (3 * pix_index r 2 c)).take 3
        = [(getPx [⟨1, 2, 3⟩, ⟨4, 5, 6⟩] (pix_index r 2 c)).r,
            (getPx [⟨1, 2, 3⟩, ⟨4, 5, 6⟩] (pix_index r 2 c)).g,
            (getPx [⟨1, 2, 3⟩, ⟨4, 5, 6⟩] (pix_index r 2 c)).b]) :=
  ⟨by unfold Image.holds; decide, by simp [decimal, Pixel.bytes],
    write_ppm_format ⟨[], 17⟩ ⟨some [⟨1, 2, 3⟩, ⟨4, 5, 6⟩], 1, 2⟩ [⟨1, 2, 3⟩, ⟨4, 5, 6⟩]
      (by unfold Image.holds; decide) (by simp [decimal, Pixel.bytes])⟩

theorem dropWhile_starts_not (p : Nat → Bool) (l : List Nat) (h : l.dropWhile p ≠ []) :
    starts_not p (l.dropWhile p) := by
  induction l with
  | nil => simp at h
  | cons x xs ih =>
    rw [List.dropWhile_cons] at h ⊢
    split_ifs at h ⊢ with hx
    · exact ih h
    · exact ⟨x, xs, rfl, by simpa using hx⟩

theorem dropWhile_of_starts_not (p : Nat → Bool) (l : List Nat) (h : starts_not p l) :
    l.dropWhile p = l := by
  obtain ⟨x, t, rfl, hx⟩ := h
  simp [hx]

theorem takeWhile_of_starts_not (p : Nat → Bool) (l : List Nat) (h : starts_not p l) :
    l.takeWhile p = [] := by
  obtain ⟨x, t, rfl, hx⟩ := h
  simp [hx]

theorem drop_length_takeWhile (p : Nat → Bool) (l : List Nat) :
    l.drop (l.takeWhile p).length = l.dropWhile p := by
  induction l with
  | nil => rfl
  | cons x xs ih =>
    rw [List.takeWhile_cons, List.dropWhile_cons]
    split_ifs with hx
    · simpa using ih
    · rfl

theorem all_takeWhile (p : Nat → Bool) (l : List Nat) : ∀ a ∈ l.takeWhile p, p a = true :=
  fun _ ha => List.mem_takeWhile_imp ha

theorem skip_space_append (ws t : List Nat) (hws : ∀ a ∈ ws, isspace a = true)
    (ht : starts_not isspace t) : skip_space (ws ++ t) = t := by
  unfold skip_space
  rw [List.dropWhile_append_of_pos hws, dropWhile_of_starts_not _ _ ht]

theorem starts_not_append (p : Nat → Bool) (l t : List Nat) (h : starts_not p l) :
    starts_not p (l ++ t) := by
  obtain ⟨x, u, rfl, hx⟩ := h
  exact ⟨x, u ++ t, rfl, hx⟩

theorem fscanf_tag_snd (tg fp : List Nat) : (fscanf_tag tg fp).2 = (fscanf_tag [] fp).2 := by
  unfold fscanf_tag
  split <;> rfl

/-- What `fscanf_tag` leaves depends on the bytes it consumed and on the next byte only. -/
theorem tag_stable (tg fp : List Nat) (hne : (fscanf_tag tg fp).2 ≠ []) :
    ∃ h0, fp = h0 ++ (fscanf_tag tg fp).2 ∧ starts_not isspace (fscanf_tag tg fp).2 ∧
      ∀ t, starts_not isspace t → fscanf_tag tg (h0 ++ t) = ((fscanf_tag tg fp).1, t) := by
  have hsplit := List.takeWhile_append_dropWhile isspace fp
  have hw := all_takeWhile isspace fp
  generalize hw0 : fp.takeWhile isspace = w0 at hsplit hw
  unfold fscanf_tag at hne ⊢
  unfold skip_space at hne ⊢
  cases hrest : fp.dropWhile isspace with
  | nil => rw [hrest] at hne; simp at hne
  | cons c rest =>
    rw [hrest] at hne hsplit
    simp only at hne ⊢
    have hc : starts_not isspace (c :: rest) := by
      rw [← hrest]; exact dropWhile_starts_not _ _ (by rw [hrest]; simp)
    -- the run of bytes that are not white space, and the token cut from it
    have hrun := List.takeWhile_append_dropWhile (fun x => !isspace x) (c :: rest)
    have hrunall := all_takeWhile (fun x => !isspace x) (c :: rest)
    generalize hrn : (c :: rest).takeWhile (fun x => !isspace x) = run at hrun hrunall hne ⊢
    have htok : run.take 19 ++ (c :: rest).drop (run.take 19).length = c :: rest := by
      obtain ⟨s, hs⟩ : ∃ s, run.take 19 ++ s = run := ⟨run.drop 19, List.take_append_drop 19 run⟩
      have h1 : c :: rest = run.take 19 ++ (s ++ (c :: rest).dropWhile (fun x => !isspace x)) := by
        rw [← List.append_assoc, hs, hrun]
      conv_lhs => rw [h1, List.drop_left]
      exact h1.symm
    have hrunne : run ≠ [] := by
      obtain ⟨x, t, hxt, hx⟩ := hc
      rw [← hrn, hxt]
      simp [hx]
    have htokne : starts_not isspace (run.take 19) := by
      obtain ⟨x, t, hxt, hx⟩ := hc
      have : run = x :: (t.takeWhile (fun x => !isspace x)) := by
        rw [← hrn, hxt]; simp [hx]
      rw [this]
      exact ⟨x, _, rfl, hx⟩
    generalize htk : run.take 19 = tok at htok hne htokne ⊢
    have htokall : ∀ a ∈ tok, (fun x => !isspace x) a = true := by
      intro a ha
      exact hrunall a (by rw [← htk] at ha; exact List.mem_of_mem_take ha)
    have hsp := List.takeWhile_append_dropWhile isspace ((c :: rest).drop tok.length)
    have hspall := all_takeWhile isspace ((c :: rest).drop tok.length)
    have hstart := dropWhile_starts_not isspace ((c :: rest).drop tok.length) hne
    generalize hws2 : ((c :: rest).drop tok.length).takeWhile isspace = ws2 at hsp hspall
    generalize ht1 : ((c :: rest).drop tok.length).dropWhile isspace = t1 at hsp hne hstart ⊢
    refine ⟨w0 ++ tok ++ ws2, ?_, hstart, ?_⟩
    · rw [← hsplit, ← htok, ← hsp]; simp
    · intro t ht
      -- the boundary of the token: white space follows, or the width of 19 cut it
      have hbound : ws2 ≠ [] ∨ tok.length = 19 := by
        by_cases hws : ws2 = []
        · right
          subst hws
          simp only [List.nil_append] at hsp
          by_contra hlen
          have hlt : run.length ≤ 19 := by
            by_contra hgt
            apply hlen
            rw [← htk, List.length_take]
            omega
          have htr : tok = run := by
            rw [← htk]; exact List.take_of_length_le hlt
          rw [htr, ← hrn, drop_length_takeWhile] at hsp
          have h1 := dropWhile_starts_not (fun x => !isspace x) (c :: rest) (by rw [← hsp]; exact hne)
          rw [← hsp] at h1
          obtain ⟨x, u, hxu, hx⟩ := h1
          obtain ⟨y, v, hyv, hy⟩ := hstart
          rw [hxu] at hyv
          cases hyv
          simp [hy] at hx
        · left; exact hws
      have hskip : (w0 ++ tok ++ ws2 ++ t).dropWhile isspace = tok ++ ws2 ++ t := by
        rw [List.append_assoc, List.append_assoc, List.dropWhile_append_of_pos hw]
        rw [← List.append_assoc]
        exact dropWhile_of_starts_not _ _ (starts_not_append _ _ _ (starts_not_append _ _ _ htokne))
      rw [hskip]
      obtain ⟨x, u, hxu, hx⟩ := htokne
      subst hxu
      simp only [List.cons_append]
      have hrun2 : (x :: (u ++ ws2 ++ t)).takeWhile (fun x => !isspace x)
          = (x :: u) ++ (ws2 ++ t).takeWhile (fun x => !isspace x) := by
        have := @List.takeWhile_append_of_pos _ (fun x => !isspace x) (x :: u) (ws2 ++ t) htokall
        simpa using this
      have htoklen : (x :: u).length ≤ 19 := by
        rw [← htk, List.length_take]; omega
      have htake : ((x :: (u ++ ws2 ++ t)).takeWhile (fun x => !isspace x)).take 19 = x :: u := by
        rw [hrun2]
        rcases hbound with hb | hb
        · have : (ws2 ++ t).takeWhile (fun x => !isspace x) = [] := by
            cases ws2 with
            | nil => exact absurd rfl hb
            | cons y ys =>
              have hy := hspall y (by simp)
              simp [hy]
          rw [this, List.append_nil]
          exact List.take_of_length_le htoklen
        · rw [List.take_append_of_le_length (by omega)]
          exact List.take_of_length_le htoklen
      rw [htake]
      have hdrop : (x :: (u ++ ws2 ++ t)).drop (x :: u).length = ws2 ++ t := by
        have := List.drop_left (x :: u) (ws2 ++ t)
        simp only [List.cons_append, List.append_assoc] at this ⊢
        exact this
      rw [hdrop, List.dropWhile_append_of_pos hspall, dropWhile_of_starts_not _ _ ht]

theorem comment_loop_stable : ∀ (l : List Nat) (b : Bool), comment_loop b l ≠ [] →
    ∃ cm, l = cm ++ comment_loop b l ∧
      ∀ u, u.head? = (comment_loop b l).head? → comment_loop b (cm ++ u) = u := by
  intro l
  induction l with
  | nil => intro b h; cases b <;> simp [comment_loop] at h
  | cons c l ih =>
    intro b h
    cases b with
    | false =>
      by_cases hc : c = 35
      · have hcl : comment_loop false (c :: l) = comment_loop true l := by simp [comment_loop, hc]
        rw [hcl] at h ⊢
        obtain ⟨cm, h1, h2⟩ := ih true h
        refine ⟨c :: cm, by rw [List.cons_append, ← h1], ?_⟩
        intro u hu
        simp only [List.cons_append, comment_loop, hc, if_true]
        exact h2 u hu
      · have hcl : comment_loop false (c :: l) = c :: l := by simp [comment_loop, hc]
        rw [hcl]
        refine ⟨[], rfl, ?_⟩
        intro u hu
        cases u with
        | nil => simp at hu
        | cons x t =>
          simp only [List.head?_cons, Option.some.injEq] at hu
          subst hu
          simp [comment_loop, hc]
    | true =>
      by_cases hc : c = 10
      · have hcl : comment_loop true (c :: l) = comment_loop false l := by simp [comment_loop, hc]
        rw [hcl] at h ⊢
        obtain ⟨cm, h1, h2⟩ := ih false h
        refine ⟨c :: cm, by rw [List.cons_append, ← h1], ?_⟩
        intro u hu
        simp only [List.cons_append, comment_loop, hc, if_true]
        exact h2 u hu
      · have hcl : comment_loop true (c :: l) = comment_loop true l := by simp [comment_loop, hc]
        rw [hcl] at h ⊢
        obtain ⟨cm, h1, h2⟩ := ih true h
        refine ⟨c :: cm, by rw [List.cons_append, ← h1], ?_⟩
        intro u hu
        simp only [List.cons_append, comment_loop, hc, if_false]
        exact h2 u hu

theorem isspace_not_digit (x : Nat) (h : isspace x = true) : isdigit x = false := by
  unfold isspace at h
  unfold isdigit
  simp only [Bool.or_eq_true, beq_iff_eq, Bool.and_eq_true, decide_eq_true_eq] at h
  simp only [Bool.and_eq_false_imp, decide_eq_true_eq, decide_eq_false_iff_not]
  omega

theorem isdigit_not_space (x : Nat) (h : isdigit x = true) : isspace x = false := by
  cases hs : isspace x with
  | false => rfl
  | true => rw [isspace_not_digit x hs] at h; cases h

/-- The digits part of `fscanf_d`, on a stream whose sign has been read. -/
theorem digits_stable (t ds : List Nat) (hds : t.takeWhile isdigit = ds) (r : List Nat)
    (hr : r = [] ∨ starts_not isdigit r) :
    (ds ++ r).takeWhile isdigit = ds := by
  have hall : ∀ a ∈ ds, isdigit a = true := by
    rw [← hds]; exact all_takeWhile _ _
  rw [List.takeWhile_append_of_pos hall]
  rcases hr with hr | hr
  · subst hr; simp
  · rw [takeWhile_of_starts_not _ _ hr]; simp

theorem fscanf_d_stable (u : List Nat) (v : Int) (fp1 : List Nat)
    (h : fscanf_d u = (some v, fp1)) :
    ∃ hd, hd ≠ [] ∧ u = hd ++ fp1 ∧ (fp1 = [] ∨ starts_not isdigit fp1) ∧
      ∀ r, (r = [] ∨ starts_not isdigit r) → fscanf_d (hd ++ r) = (some v, r) := by
  have hsplit := List.takeWhile_append_dropWhile isspace u
  have hw := all_takeWhile isspace u
  generalize hw0 : u.takeWhile isspace = w0 at hsplit hw
  unfold fscanf_d at h
  unfold skip_space at h
  have hnd : ∀ t : List Nat, t.dropWhile isdigit = [] ∨ starts_not isdigit (t.dropWhile isdigit) := by
    intro t
    by_cases ht : t.dropWhile isdigit = []
    · left; exact ht
    · right; exact dropWhile_starts_not _ _ ht
  cases hu1 : u.dropWhile isspace with
  | nil =>
    rw [hu1] at h
    simp at h
  | cons c t =>
    have hc : starts_not isspace (c :: t) := by
      rw [← hu1]; exact dropWhile_starts_not _ _ (by rw [hu1]; simp)
    have hcs : isspace c = false := by
      obtain ⟨x, y, hxy, hx⟩ := hc
      cases hxy; exact hx
    rw [hu1] at h hsplit
    simp only at h
    by_cases h45 : c = 45
    · subst h45
      simp only [if_true] at h
      have hsp2 := List.takeWhile_append_dropWhile isdigit t
      generalize hds : t.takeWhile isdigit = ds at h hsp2
      by_cases hemp : ds.isEmpty = true
      · rw [if_pos hemp] at h; cases h
      · rw [if_neg hemp] at h
        rw [← hds, drop_length_takeWhile] at h
        simp only [Prod.mk.injEq, Option.some.injEq] at h
        obtain ⟨hv, hfp⟩ := h
        refine ⟨w0 ++ 45 :: ds, by simp, ?_, by rw [← hfp]; exact hnd t, ?_⟩
        · rw [← hfp]
          conv_lhs => rw [← hsplit, ← hsp2]
          simp
        · intro r hr
          unfold fscanf_d skip_space
          have h1 : (w0 ++ 45 :: ds ++ r).dropWhile isspace = 45 :: (ds ++ r) := by
            rw [List.append_assoc, List.dropWhile_append_of_pos hw]
            exact dropWhile_of_starts_not _ _ ⟨45, _, rfl, hcs⟩
          rw [h1]
          simp only [if_true]
          rw [digits_stable t ds hds r hr, if_neg hemp, List.drop_left]
          rw [← hds, hv]
    · by_cases h43 : c = 43
      · subst h43
        simp only [if_true, if_neg h45] at h
        have hsp2 := List.takeWhile_append_dropWhile isdigit t
        generalize hds : t.takeWhile isdigit = ds at h hsp2
        by_cases hemp : ds.isEmpty = true
        · rw [if_pos hemp] at h; cases h
        · rw [if_neg hemp] at h
          rw [← hds, drop_length_takeWhile] at h
          simp only [Prod.mk.injEq, Option.some.injEq] at h
          obtain ⟨hv, hfp⟩ := h
          refine ⟨w0 ++ 43 :: ds, by simp, ?_, by rw [← hfp]; exact hnd t, ?_⟩
          · rw [← hfp]
            conv_lhs => rw [← hsplit, ← hsp2]
            simp
          · intro r hr
            unfold fscanf_d skip_space
            have h1 : (w0 ++ 43 :: ds ++ r).dropWhile isspace = 43 :: (ds ++ r) := by
              rw [List.append_assoc, List.dropWhile_append_of_pos hw]
              exact dropWhile_of_starts_not _ _ ⟨43, _, rfl, hcs⟩
            rw [h1]
            simp only [if_true, if_neg h45]
            rw [digits_stable t ds hds r hr, if_neg hemp, List.drop_left]
            rw [← hds, hv]
      · simp only [if_neg h45, if_neg h43] at h
        have hsp2 := List.takeWhile_append_dropWhile isdigit (c :: t)
        generalize hds : (c :: t).takeWhile isdigit = ds at h hsp2
        by_cases hemp : ds.isEmpty = true
        · rw [if_pos hemp] at h; cases h
        · rw [if_neg hemp] at h
          rw [← hds, drop_length_takeWhile] at h
          simp only [Prod.mk.injEq, Option.some.injEq] at h
          obtain ⟨hv, hfp⟩ := h
          have hdsc : ∃ ds1, ds = c :: ds1 := by
            rw [List.takeWhile_cons] at hds
            split_ifs at hds with hcd
            · exact ⟨_, hds.symm⟩
            · rw [← hds] at hemp; simp at hemp
          obtain ⟨ds1, hds1⟩ := hdsc
          refine ⟨w0 ++ ds, by rw [hds1]; simp, ?_, by rw [← hfp]; exact hnd (c :: t), ?_⟩
          · rw [← hfp]
            conv_lhs => rw [← hsplit, ← hsp2]
            simp
          · intro r hr
            unfold fscanf_d skip_space
            have h1 : (w0 ++ ds ++ r).dropWhile isspace = c :: (ds1 ++ r) := by
              rw [List.append_assoc, List.dropWhile_append_of_pos hw, hds1]
              exact dropWhile_of_starts_not _ _ ⟨c, _, rfl, hcs⟩
            rw [h1]
            simp only [if_neg h45, if_neg h43]
            have h2 := digits_stable (c :: t) ds hds r hr
            rw [hds1] at h2
            simp only [List.cons_append] at h2
            rw [h2, ← hds1, if_neg hemp]
            have h3 : (c :: (ds1 ++ r)).drop ds.length = r := by
              have := List.drop_left ds r
              rw [hds1] at this ⊢
              exact this
            rw [h3, ← hds, hv]

theorem head_append_ne_nil (hd a b : List Nat) (h : hd ≠ []) :
    (hd ++ a).head? = (hd ++ b).head? := by
  cases hd with
  | nil => exact absurd rfl h
  | cons x xs => rfl

theorem same_start_space (t t1 : List Nat) (ht : starts_not isspace t) (h : same_start t t1) :
    starts_not isspace t1 := by
  obtain ⟨x, u, rfl, hx⟩ := ht
  rcases h with h | h
  · cases t1 with
    | nil => simp at h
    | cons y v =>
      simp only [List.head?_cons, Option.some.injEq] at h
      subst h
      exact ⟨y, v, rfl, hx⟩
  · cases t1 with
    | nil => simp at h
    | cons y v =>
      simp only [List.head?_cons, Option.some.injEq] at h
      subst h
      exact ⟨35, v, rfl, by decide⟩

theorem same_start_digit (t t1 : List Nat) (ht : starts_not isdigit t) (h : same_start t t1) :
    starts_not isdigit t1 := by
  obtain ⟨x, u, rfl, hx⟩ := ht
  rcases h with h | h
  · cases t1 with
    | nil => simp at h
    | cons y v =>
      simp only [List.head?_cons, Option.some.injEq] at h
      subst h
      exact ⟨y, v, rfl, hx⟩
  · cases t1 with
    | nil => simp at h
    | cons y v =>
      simp only [List.head?_cons, Option.some.injEq] at h
      subst h
      exact ⟨35, v, rfl, by decide⟩

theorem same_start_of_ne_nil (hd a b : List Nat) (h : hd ≠ []) :
    same_start (hd ++ a) (hd ++ b) := Or.inl (head_append_ne_nil hd b a h)

theorem read_num_of_readable (t : List Nat) (h : ¬ readable t) : (read_num t).1 = -1 := by
  unfold readable at h
  unfold read_num
  cases hfd : fscanf_d (comment_loop false t) with
  | mk o fp1 =>
    cases o with
    | none => rfl
    | some v => rw [hfd] at h; simp at h

/-- What `read_num` returns depends on the bytes it consumed and on the next byte only,
as long as that byte is the same or is `#`. -/
theorem read_num_stable (t : List Nat) (hr : readable t) (hne : (read_num t).2 ≠ []) :
    ∃ hd, hd ≠ [] ∧ t = hd ++ (read_num t).2 ∧ starts_not isspace (read_num t).2 ∧
      ∀ t1, same_start (read_num t).2 t1 → read_num (hd ++ t1) = ((read_num t).1, t1) := by
  unfold readable at hr
  unfold read_num at hne ⊢
  cases hfd : fscanf_d (comment_loop false t) with
  | mk o fp1 =>
    cases o with
    | none => rw [hfd] at hr; simp at hr
    | some v =>
      rw [hfd] at hne
      simp only at hne ⊢
      obtain ⟨hd, hdne, hu, hfp1, hstab⟩ := fscanf_d_stable _ v fp1 hfd
      have hune : comment_loop false t ≠ [] := by
        rw [hu]; simp [hdne]
      obtain ⟨cm, ht, hcl⟩ := comment_loop_stable t false hune
      have hsp := List.takeWhile_append_dropWhile isspace fp1
      have hspall := all_takeWhile isspace fp1
      have ht2 : starts_not isspace (skip_space fp1) := dropWhile_starts_not _ _ hne
      unfold skip_space at hne ht2 ⊢
      generalize hws2 : fp1.takeWhile isspace = ws2 at hsp hspall
      generalize ht2e : fp1.dropWhile isspace = t2 at hsp hne ht2 ⊢
      refine ⟨cm ++ hd ++ ws2, by simp [hdne], ?_, ht2, ?_⟩
      · conv_lhs => rw [ht, hu, ← hsp]
        simp
      · intro t1 hs
        have hsp1 := same_start_space t2 t1 ht2 hs
        have hr1 : (ws2 ++ t1 = [] ∨ starts_not isdigit (ws2 ++ t1)) := by
          right
          cases ws2 with
          | nil =>
            simp only [List.nil_append] at hsp ⊢
            subst hsp
            rcases hfp1 with h0 | h0
            · exact absurd h0 hne
            · exact same_start_digit _ _ h0 hs
          | cons y ys =>
            exact ⟨y, ys ++ t1, rfl, isspace_not_digit y (hspall y (by simp))⟩
        have h1 : comment_loop false (cm ++ hd ++ ws2 ++ t1) = hd ++ (ws2 ++ t1) := by
          have := hcl (hd ++ (ws2 ++ t1)) (by rw [hu]; exact head_append_ne_nil hd _ _ hdne)
          simpa using this
        rw [h1, hstab (ws2 ++ t1) hr1]
        simp only
        rw [List.dropWhile_append_of_pos hspall, dropWhile_of_starts_not _ _ hsp1]

theorem comment_line_skip (b t : List Nat) (hb : 10 ∉ b) :
    comment_loop true (b ++ 10 :: t) = comment_loop false t := by
  induction b with
  | nil => simp [comment_loop]
  | cons x xs ih =>
    have hx : x ≠ 10 := by
      intro h; apply hb; simp [h]
    have hxs : 10 ∉ xs := by
      intro h; apply hb; simp [h]
    simp only [List.cons_append, comment_loop, hx, if_false]
    exact ih hxs

theorem comment_block_skip (bodies : List (List Nat)) (t : List Nat)
    (h : ∀ b ∈ bodies, 10 ∉ b) :
    comment_loop false (comment_block bodies ++ t) = comment_loop false t := by
  induction bodies with
  | nil => rfl
  | cons b bs ih =>
    have hb := h b (by simp)
    have hbs : ∀ b1 ∈ bs, 10 ∉ b1 := fun b1 hb1 => h b1 (by simp [hb1])
    have : comment_block (b :: bs) ++ t = 35 :: (b ++ 10 :: (comment_block bs ++ t)) := by
      simp [comment_block]
    rw [this]
    simp only [comment_loop, if_true]
    rw [comment_line_skip b _ hb]
    exact ih hbs

theorem read_num_comment_block (bodies : List (List Nat)) (t : List Nat)
    (h : ∀ b ∈ bodies, 10 ∉ b) : read_num (comment_block bodies ++ t) = read_num t := by
  unfold read_num
  rw [comment_block_skip bodies t h]

theorem comment_block_head (bodies : List (List Nat)) (t : List Nat) (h : bodies ≠ []) :
    (comment_block bodies ++ t).head? = some 35 := by
  cases bodies with
  | nil => exact absurd rfl h
  | cons b bs => simp [comment_block]

theorem read_ppm_unfold (tag0 fp : List Nat) :
    read_ppm tag0 fp =
      if !strncmp_eq (fscanf_tag (tag0.take 19) fp).1 P6 20 then none
      else if (read_num (at_maxval fp)).1 ≠ 255 then none
      else if (read_num (at_width fp)).1 ≤ 0 ∨ (read_num (at_height fp)).1 ≤ 0 then none
      else if (fread (size_t_of_int ((read_num (at_height fp)).1 * (read_num (at_width fp)).1))
            (at_pixels fp)).1.length
          ≠ size_t_of_int ((read_num (at_height fp)).1 * (read_num (at_width fp)).1) then none
      else some
        { data := some (fread (size_t_of_int ((read_num (at_height fp)).1 *
            (read_num (at_width fp)).1)) (at_pixels fp)).1,
          rows := (read_num (at_height fp)).1, cols := (read_num (at_width fp)).1 } := by
  unfold read_ppm at_pixels at_maxval at_height at_width
  simp only [fscanf_tag_snd (tag0.take 19) fp]

theorem insert_at_split (fp a b cs : List Nat) (h : fp = a ++ b) :
    insert_at fp (fp.length - b.length) cs = a ++ (cs ++ b) := by
  subst h
  unfold insert_at
  have : (a ++ b).length - b.length = a.length := by simp
  rw [this, List.take_left, List.drop_left, List.append_assoc]

theorem at_height_eq (fp : List Nat) : at_height fp = (read_num (at_width fp)).2 := rfl

theorem at_maxval_eq (fp : List Nat) : at_maxval fp = (read_num (at_height fp)).2 := rfl

theorem readable_ne_nil (t : List Nat) (h : readable t) : t ≠ [] := by
  intro ht
  subst ht
  exact h (by decide)

theorem readable_of_pos (t : List Nat) (h : 0 < (read_num t).1) : readable t := by
  by_contra hn
  rw [read_num_of_readable t hn] at h
  omega

theorem read_ppm_congr (tag0 fp fp1 : List Nat)
    (htag : (fscanf_tag (tag0.take 19) fp1).1 = (fscanf_tag (tag0.take 19) fp).1)
    (hw : (read_num (at_width fp1)).1 = (read_num (at_width fp)).1)
    (hh : (read_num (at_height fp1)).1 = (read_num (at_height fp)).1)
    (hm : read_num (at_maxval fp1) = read_num (at_maxval fp)) :
    read_ppm tag0 fp1 = read_ppm tag0 fp := by
  rw [read_ppm_unfold tag0 fp1, read_ppm_unfold tag0 fp]
  have hp : at_pixels fp1 = at_pixels fp := by unfold at_pixels; rw [hm]
  rw [htag, hw, hh, hm, hp]

theorem read_ppm_some (tag0 fp : List Nat) (im : Image) (h : read_ppm tag0 fp = some im) :
    strncmp_eq (fscanf_tag (tag0.take 19) fp).1 P6 20 = true ∧
    (read_num (at_maxval fp)).1 = 255 ∧
    0 < (read_num (at_width fp)).1 ∧ 0 < (read_num (at_height fp)).1 ∧
    (fread (size_t_of_int ((read_num (at_height fp)).1 * (read_num (at_width fp)).1))
      (at_pixels fp)).1.length
        = size_t_of_int ((read_num (at_height fp)).1 * (read_num (at_width fp)).1) := by
  rw [read_ppm_unfold] at h
  split_ifs at h with h1 h2 h3 h4
  refine ⟨by simpa using h1, by simpa using h2, ?_, ?_, by simpa using h4⟩
  · by_contra hc; exact h3 (Or.inl (by omega))
  · by_contra hc; exact h3 (Or.inr (by omega))

theorem comment_block_append (old bodies : List (List Nat)) :
    comment_block old ++ comment_block bodies = comment_block (old ++ bodies) := by
  unfold comment_block
  rw [List.flatMap_append]

/-- C5 (as stated): the stream `P6\n#\n\n1 1 255\nabc` decodes to a 1x1 raster; its byte 6
is the first digit of the width; with the comment line `#\n` inserted there, immediately
before the width, `read_ppm` returns no raster. -/
theorem read_ppm_comment_counterexample :
    read_ppm [] [80, 54, 10, 35, 10, 10, 49, 32, 49, 32, 50, 53, 53, 10, 97, 98, 99]
      = some ⟨some [⟨97, 98, 99⟩], 1, 1⟩ ∧
    [80, 54, 10, 35, 10, 10, 49, 32, 49, 32, 50, 53, 53, 10, 97, 98, 99].drop 6
      = [49, 32, 49, 32, 50, 53, 53, 10, 97, 98, 99] ∧
    insert_at [80, 54, 10, 35, 10, 10, 49, 32, 49, 32, 50, 53, 53, 10, 97, 98, 99] 6 [35, 10]
      = [80, 54, 10, 35, 10, 10, 35, 10, 49, 32, 49, 32, 50, 53, 53, 10, 97, 98, 99] ∧
    read_ppm [] (insert_at [80, 54, 10, 35, 10, 10, 49, 32, 49, 32, 50, 53, 53, 10, 97, 98, 99]
      6 [35, 10]) = none := by
  decide

/-- C5 (amended): when a stream decodes, inserting comment lines (each a `#`, a body
without newline, and a newline; at least one line) at the point where `read_ppm` starts to
read the width, the height or the maximum value, or directly after comment lines `old`
that start at that point, gives a stream that decodes to the same raster. The stream
read from such a point is `comment_block old ++ rest`, and the lines go before `rest`. -/
theorem read_ppm_skips_comments (tag0 fp : List Nat) (im : Image)
    (old bodies : List (List Nat)) (rest : List Nat)
    (hdec : read_ppm tag0 fp = some im) (hne : bodies ≠ []) (hnl : ∀ b ∈ bodies, 10 ∉ b)
    (hold : ∀ b ∈ old, 10 ∉ b)
    (hpos : at_width fp = comment_block old ++ rest ∨
      at_height fp = comment_block old ++ rest ∨
      at_maxval fp = comment_block old ++ rest) :
    read_ppm tag0 (insert_at fp (fp.length - rest.length) (comment_block bodies)) = some im := by
  obtain ⟨_, hM, hW, hH, _⟩ := read_ppm_some tag0 fp im hdec
  have hrW := readable_of_pos _ hW
  have hrH := readable_of_pos _ hH
  have hrM : readable (at_maxval fp) := by
    by_contra hn
    rw [read_num_of_readable _ hn] at hM
    omega
  have hneW := readable_ne_nil _ hrW
  have hneH := readable_ne_nil _ hrH
  have hneM := readable_ne_nil _ hrM
  have hsnd := fscanf_tag_snd (tag0.take 19) fp
  obtain ⟨h0, hfp, hs1, htag⟩ := tag_stable (tag0.take 19) fp (by rw [hsnd]; exact hneW)
  rw [hsnd] at hfp hs1
  change fp = h0 ++ at_width fp at hfp
  change starts_not isspace (at_width fp) at hs1
  obtain ⟨h1, h1ne, ht1, hs2, hst1⟩ := read_num_stable (at_width fp) hrW hneH
  change at_width fp = h1 ++ at_height fp at ht1
  change starts_not isspace (at_height fp) at hs2
  change ∀ t1, same_start (at_height fp) t1 → read_num (h1 ++ t1) = ((read_num (at_width fp)).1, t1)
    at hst1
  obtain ⟨h2, h2ne, ht2, hs3, hst2⟩ := read_num_stable (at_height fp) hrH hneM
  change at_height fp = h2 ++ at_maxval fp at ht2
  change starts_not isspace (at_maxval fp) at hs3
  change ∀ t1, same_start (at_maxval fp) t1 → read_num (h2 ++ t1) = ((read_num (at_height fp)).1, t1)
    at hst2
  -- the old and the new comment lines together
  have hall : ∀ b ∈ old ++ bodies, 10 ∉ b := by
    intro b hb
    rcases List.mem_append.mp hb with hb | hb
    · exact hold b hb
    · exact hnl b hb
  have hcs : (comment_block (old ++ bodies) ++ rest).head? = some 35 :=
    comment_block_head _ rest (by simp [hne])
  have hrn : read_num (comment_block (old ++ bodies) ++ rest)
      = read_num (comment_block old ++ rest) := by
    rw [read_num_comment_block _ rest hall, read_num_comment_block _ rest hold]
  have hblock : comment_block old ++ (comment_block bodies ++ rest)
      = comment_block (old ++ bodies) ++ rest := by
    rw [← List.append_assoc, comment_block_append]
  have hwidth : ∀ t, starts_not isspace t → at_width (h0 ++ t) = t := by
    intro t ht
    unfold at_width
    rw [← fscanf_tag_snd (tag0.take 19), htag t ht]
  rw [← hdec]
  rcases hpos with hpos | hpos | hpos
  · -- before the width
    have hins : insert_at fp (fp.length - rest.length) (comment_block bodies)
        = h0 ++ (comment_block (old ++ bodies) ++ rest) := by
      rw [insert_at_split fp (h0 ++ comment_block old) rest _
        (by rw [List.append_assoc, ← hpos]; exact hfp), List.append_assoc, hblock]
    have hsp : starts_not isspace (comment_block (old ++ bodies) ++ rest) :=
      same_start_space _ _ hs1 (Or.inr hcs)
    have hw1 := hwidth _ hsp
    rw [← hpos] at hrn
    rw [hins]
    apply read_ppm_congr
    · rw [htag _ hsp]
    · rw [hw1, hrn]
    · rw [at_height_eq, hw1, hrn]; rfl
    · rw [at_maxval_eq, at_height_eq, hw1, hrn]; rfl
  · -- before the height
    have hins : insert_at fp (fp.length - rest.length) (comment_block bodies)
        = h0 ++ (h1 ++ (comment_block (old ++ bodies) ++ rest)) := by
      rw [insert_at_split fp (h0 ++ h1 ++ comment_block old) rest _
        (by rw [List.append_assoc, List.append_assoc, ← hpos, ← ht1]; exact hfp),
        List.append_assoc, List.append_assoc, hblock]
    have hsp : starts_not isspace (h1 ++ (comment_block (old ++ bodies) ++ rest)) := by
      apply same_start_space _ _ hs1
      conv_lhs => rw [ht1]
      exact same_start_of_ne_nil h1 _ _ h1ne
    have hw1 := hwidth _ hsp
    have hrn1 := hst1 (comment_block (old ++ bodies) ++ rest) (Or.inr hcs)
    rw [← hpos] at hrn
    have hh1 : at_height (h0 ++ (h1 ++ (comment_block (old ++ bodies) ++ rest)))
        = comment_block (old ++ bodies) ++ rest := by
      rw [at_height_eq, hw1, hrn1]
    rw [hins]
    apply read_ppm_congr
    · rw [htag _ hsp]
    · rw [hw1, hrn1]
    · rw [hh1, hrn]
    · rw [at_maxval_eq, hh1, hrn]; rfl
  · -- before the maximum value
    have hins : insert_at fp (fp.length - rest.length) (comment_block bodies)
        = h0 ++ (h1 ++ (h2 ++ (comment_block (old ++ bodies) ++ rest))) := by
      rw [insert_at_split fp (h0 ++ h1 ++ h2 ++ comment_block old) rest _
        (by rw [List.append_assoc, List.append_assoc, List.append_assoc, ← hpos, ← ht2, ← ht1]
            exact hfp),
        List.append_assoc, List.append_assoc, List.append_assoc, hblock]
    have hsp : starts_not isspace (h1 ++ (h2 ++ (comment_block (old ++ bodies) ++ rest))) := by
      apply same_start_space _ _ hs1
      conv_lhs => rw [ht1]
      exact same_start_of_ne_nil h1 _ _ h1ne
    have hw1 := hwidth _ hsp
    have hrn1 := hst1 (h2 ++ (comment_block (old ++ bodies) ++ rest)) (by
      conv_lhs => rw [ht2]
      exact same_start_of_ne_nil h2 _ _ h2ne)
    have hrn2 := hst2 (comment_block (old ++ bodies) ++ rest) (Or.inr hcs)
    rw [← hpos] at hrn
    have hh1 : at_height (h0 ++ (h1 ++ (h2 ++ (comment_block (old ++ bodies) ++ rest))))
        = h2 ++ (comment_block (old ++ bodies) ++ rest) := by
      rw [at_height_eq, hw1, hrn1]
    have hm1 : at_maxval (h0 ++ (h1 ++ (h2 ++ (comment_block (old ++ bodies) ++ rest))))
        = comment_block (old ++ bodies) ++ rest := by
      rw [at_maxval_eq, hh1, hrn2]
    rw [hins]
    apply read_ppm_congr
    · rw [htag _ hsp]
    · rw [hw1, hrn1]
    · rw [hh1, hrn2]
    · rw [hm1, hrn]

theorem takeWhile_take (p : Nat → Bool) : ∀ (l : List Nat) (n : Nat),
    (l.take n).takeWhile p = (l.takeWhile p).take n := by
  intro l
  induction l with
  | nil => intro n; simp
  | cons x xs ih =>
    intro n
    cases n with
    | zero => simp
    | succ n =>
      rw [List.take_succ_cons, List.takeWhile_cons, List.takeWhile_cons]
      split_ifs with hx
      · rw [List.take_succ_cons, ih n]
      · simp

theorem strncmp_take19 (t : List Nat) (h : strncmp_eq (t.take 19) P6 20 = true) :
    cstr t = P6 := by
  unfold strncmp_eq at h
  have hP : (cstr P6).take 20 = P6 := by decide
  rw [hP] at h
  have h1 : ((cstr (t.take 19)).take 20) = P6 := by simpa using h
  unfold cstr at h1 ⊢
  rw [takeWhile_take, List.take_take] at h1
  have hlen := congrArg List.length h1
  rw [List.length_take] at hlen
  have h2 : (List.takeWhile (fun c => c != 0) t).length = 2 := by
    have : P6.length = 2 := rfl
    omega
  rw [List.take_of_length_le (by omega)] at h1
  exact h1

theorem fscanf_tag_fst (tg fp : List Nat) (h : (fscanf_tag tg fp).2 ≠ []) :
    (fscanf_tag tg fp).1 = (first_token fp).take 19 := by
  unfold fscanf_tag first_token at *
  cases hs : skip_space fp with
  | nil => rw [hs] at h; simp at h
  | cons c rest => rfl

theorem fread_length : ∀ (n : Nat) (s : List Nat), 3 * (fread n s).1.length ≤ s.length := by
  intro n
  induction n with
  | zero => intro s; simp [fread]
  | succ n ih =>
    intro s
    match s with
    | [] => simp [fread]
    | [_] => simp [fread]
    | [_, _] => simp [fread]
    | r :: g :: b :: s1 =>
      have := ih s1
      simp only [fread, List.length_cons]
      omega

/-- C2 (as stated): the stream `P6\0 1 1 255\nabc` has the first token `P6\0`, which is
not exactly `P6`, and still decodes to a 1x1 raster. -/
theorem read_ppm_tag_counterexample :
    first_token [80, 54, 0, 32, 49, 32, 49, 32, 50, 53, 53, 10, 97, 98, 99] ≠ P6 ∧
    read_ppm [] [80, 54, 0, 32, 49, 32, 49, 32, 50, 53, 53, 10, 97, 98, 99]
      = some ⟨some [⟨97, 98, 99⟩], 1, 1⟩ := by
  decide

/-- C2 (amended): `read_ppm` returns no raster when the first token, read as a C string
(up to its first NUL byte), is not `P6`; when the width, the height or the maximum value
is not a readable number; when the width or the height, as read into an `int`, is not
positive; when the maximum value, as read into an `int`, is not 255; or when rows*cols is
within the range of `int` and fewer than rows*cols*3 bytes remain after the header. -/
theorem read_ppm_rejects (tag0 fp : List Nat)
    (h : cstr (first_token fp) ≠ P6 ∨
      ¬ readable (at_width fp) ∨ (read_num (at_width fp)).1 ≤ 0 ∨
      ¬ readable (at_height fp) ∨ (read_num (at_height fp)).1 ≤ 0 ∨
      ¬ readable (at_maxval fp) ∨ (read_num (at_maxval fp)).1 ≠ 255 ∨
      ((read_num (at_height fp)).1 * (read_num (at_width fp)).1 < 2147483648 ∧
        ((at_pixels fp).length : Int) <
          (read_num (at_height fp)).1 * (read_num (at_width fp)).1 * 3)) :
    read_ppm tag0 fp = none := by
  cases hres : read_ppm tag0 fp with
  | none => rfl
  | some im =>
    exfalso
    obtain ⟨hT, hM, hW, hH, hL⟩ := read_ppm_some tag0 fp im hres
    have hrW := readable_of_pos _ hW
    have hrH := readable_of_pos _ hH
    have hrM : readable (at_maxval fp) := by
      by_contra hn
      rw [read_num_of_readable _ hn] at hM
      omega
    rcases h with h | h | h | h | h | h | h | ⟨_, h⟩
    · apply h
      have hne : (fscanf_tag (tag0.take 19) fp).2 ≠ [] := by
        rw [fscanf_tag_snd]; exact readable_ne_nil _ hrW
      rw [fscanf_tag_fst _ _ hne] at hT
      exact strncmp_take19 _ hT
    · exact h hrW
    · omega
    · exact h hrH
    · omega
    · exact h hrM
    · exact h hM
    · have hpos : 0 < (read_num (at_height fp)).1 * (read_num (at_width fp)).1 :=
        Int.mul_pos hH hW
      have hlen := fread_length
        (size_t_of_int ((read_num (at_height fp)).1 * (read_num (at_width fp)).1)) (at_pixels fp)
      rw [hL] at hlen
      unfold size_t_of_int at hlen
      rw [if_neg (by omega)] at hlen
      generalize (read_num (at_height fp)).1 * (read_num (at_width fp)).1 = n at *
      omega

/-- Witness of C2 on a stream of one row and two columns that holds five pixel bytes. -/
theorem read_ppm_rejects_witness :
    (cstr (first_token [80, 54, 10, 50, 32, 49, 10, 50, 53, 53, 10, 1, 2, 3, 4, 5]) ≠ P6 ∨
      ¬ readable (at_width [80, 54, 10, 50, 32, 49, 10, 50, 53, 53, 10, 1, 2, 3, 4, 5]) ∨
      (read_num (at_width [80, 54, 10, 50, 32, 49, 10, 50, 53, 53, 10, 1, 2, 3, 4, 5])).1 ≤ 0 ∨
      ¬ readable (at_height [80, 54, 10, 50, 32, 49, 10, 50, 53, 53, 10, 1, 2, 3, 4, 5]) ∨
      (read_num (at_height [80, 54, 10, 50, 32, 49, 10, 50, 53, 53, 10, 1, 2, 3, 4, 5])).1 ≤ 0 ∨
      ¬ readable (at_maxval [80, 54, 10, 50, 32, 49, 10, 50, 53, 53, 10, 1, 2, 3, 4, 5]) ∨
      (read_num (at_maxval [80, 54, 10, 50, 32, 49, 10, 50, 53, 53, 10, 1, 2, 3, 4, 5])).1
        ≠ 255 ∨
      ((read_num (at_height [80, 54, 10, 50, 32, 49, 10, 50, 53, 53, 10, 1, 2, 3, 4, 5])).1 *
          (read_num (at_width [80, 54, 10, 50, 32, 49, 10, 50, 53, 53, 10, 1, 2, 3, 4, 5])).1
          < 2147483648 ∧
        ((at_pixels [80, 54, 10, 50, 32, 49, 10, 50, 53, 53, 10, 1, 2, 3, 4, 5]).length : Int) <
          (read_num (at_height [80, 54, 10, 50, 32, 49, 10, 50, 53, 53, 10, 1, 2, 3, 4, 5])).1 *
            (read_num (at_width [80, 54, 10, 50, 32, 49, 10, 50, 53, 53, 10, 1, 2, 3, 4, 5])).1
            * 3)) ∧
    read_ppm [] [80, 54, 10, 50, 32, 49, 10, 50, 53, 53, 10, 1, 2, 3, 4, 5] = none :=
  ⟨Or.inr (Or.inr (Or.inr (Or.inr (Or.inr (Or.inr (Or.inr (by decide))))))),
    read_ppm_rejects [] [80, 54, 10, 50, 32, 49, 10, 50, 53, 53, 10, 1, 2, 3, 4, 5]
      (Or.inr (Or.inr (Or.inr (Or.inr (Or.inr (Or.inr (Or.inr (by decide))))))))⟩

/-- Numerals beyond the range of `int` are read as the program reads them: the maximum
value 4294967551 is read as 255 and the width 4294967297 as 1, so both streams decode to
a raster of one row and one column; `atoi` reads 4294967296 as 0. -/
theorem wide_numerals_wrap :
    read_ppm [] [80, 54, 10, 49, 32, 49, 10, 52, 50, 57, 52, 57, 54, 55, 53, 53, 49, 10,
        97, 98, 99]
      = some ⟨some [⟨97, 98, 99⟩], 1, 1⟩ ∧
    read_ppm [] [80, 54, 10, 52, 50, 57, 52, 57, 54, 55, 50, 57, 55, 32, 49, 10, 50, 53, 53, 10,
        97, 98, 99]
      = some ⟨some [⟨97, 98, 99⟩], 1, 1⟩ ∧
    atoi [52, 50, 57, 52, 57, 54, 55, 50, 57, 54] = 0 ∧
    atoi [45, 50, 49, 52, 55, 52, 56, 51, 54, 52, 57] = 2147483647 ∧
    atoi [57, 57, 57, 57, 57, 57, 57, 57, 57, 57, 57, 57, 57, 57, 57, 57, 57, 57, 57, 57] = -1 :=
  ⟨by decide, by decide, by decide, by decide, by decide⟩

/-- C1: the 1x1 rasters with pixel (32,0,0) and (10,0,0) are encoded by `write_ppm` with
return code 0, and `read_ppm` returns no raster for the bytes written: the white space
skipped after the maximum value takes the first pixel byte with it. -/
theorem roundtrip_fails_on_space :
    write_ppm ⟨[], 14⟩ ⟨some [⟨32, 0, 0⟩], 1, 1⟩
      = (⟨[80, 54, 10, 49, 32, 49, 10, 50, 53, 53, 10, 32, 0, 0], 0⟩, 0) ∧
    read_ppm [] [80, 54, 10, 49, 32, 49, 10, 50, 53, 53, 10, 32, 0, 0] = none ∧
    write_ppm ⟨[], 14⟩ ⟨some [⟨10, 0, 0⟩], 1, 1⟩
      = (⟨[80, 54, 10, 49, 32, 49, 10, 50, 53, 53, 10, 10, 0, 0], 0⟩, 0) ∧
    read_ppm [] [80, 54, 10, 49, 32, 49, 10, 50, 53, 53, 10, 10, 0, 0] = none := by
  decide

/-- C3: the stream `P6\n2 1\n255`, one newline, and the six data bytes 9,1,2,3,4,5 is
rejected by `read_ppm`: the tab 9 is skipped with the newline and five bytes remain for
two pixels. With the data bytes 7,1,2,3,4,5 the same header decodes. -/
theorem read_ppm_eats_data_space :
    read_ppm [] ([80, 54, 10, 50, 32, 49, 10, 50, 53, 53] ++ [10] ++ [9, 1, 2, 3, 4, 5]) = none ∧
    at_pixels ([80, 54, 10, 50, 32, 49, 10, 50, 53, 53] ++ [10] ++ [9, 1, 2, 3, 4, 5])
      = [1, 2, 3, 4, 5] ∧
    read_ppm [] ([80, 54, 10, 50, 32, 49, 10, 50, 53, 53] ++ [10] ++ [7, 1, 2, 3, 4, 5])
      = some ⟨some [⟨7, 1, 2⟩, ⟨3, 4, 5⟩], 1, 2⟩ := by
  decide

/-- Witness of C5: two comment lines inserted after a comment line that precedes the width. -/
theorem read_ppm_skips_comments_witness :
    read_ppm [] [80, 54, 10, 35, 10, 49, 32, 49, 10, 50, 53, 53, 10, 97, 98, 99]
      = some ⟨some [⟨97, 98, 99⟩], 1, 1⟩ ∧
    [[104, 105], []] ≠ ([] : List (List Nat)) ∧
    (∀ b ∈ [[104, 105], ([] : List Nat)], 10 ∉ b) ∧
    (∀ b ∈ [([] : List Nat)], 10 ∉ b) ∧
    (at_width [80, 54, 10, 35, 10, 49, 32, 49, 10, 50, 53, 53, 10, 97, 98, 99]
        = comment_block [[]] ++ [49, 32, 49, 10, 50, 53, 53, 10, 97, 98, 99] ∨
      at_height [80, 54, 10, 35, 10, 49, 32, 49, 10, 50, 53, 53, 10, 97, 98, 99]
        = comment_block [[]] ++ [49, 32, 49, 10, 50, 53, 53, 10, 97, 98, 99] ∨
      at_maxval [80, 54, 10, 35, 10, 49, 32, 49, 10, 50, 53, 53, 10, 97, 98, 99]
        = comment_block [[]] ++ [49, 32, 49, 10, 50, 53, 53, 10, 97, 98, 99]) ∧
    read_ppm [] (insert_at [80, 54, 10, 35, 10, 49, 32, 49, 10, 50, 53, 53, 10, 97, 98, 99]
        ([80, 54, 10, 35, 10, 49, 32, 49, 10, 50, 53, 53, 10, 97, 98, 99].length -
          [49, 32, 49, 10, 50, 53, 53, 10, 97, 98, 99].length)
        (comment_block [[104, 105], []]))
      = some ⟨some [⟨97, 98, 99⟩], 1, 1⟩ :=
  ⟨by decide, by decide, by decide, by decide, Or.inl (by decide),
    read_ppm_skips_comments [] [80, 54, 10, 35, 10, 49, 32, 49, 10, 50, 53, 53, 10, 97, 98, 99]
      ⟨some [⟨97, 98, 99⟩], 1, 1⟩ [[]] [[104, 105], []]
      [49, 32, 49, 10, 50, 53, 53, 10, 97, 98, 99] (by decide) (by decide) (by decide)
      (by decide) (Or.inl (by decide))⟩

theorem decimal_nat (n : Nat) :
    decimal (n : Int) = if n = 0 then [48] else (Nat.digits 10 n).reverse.map (fun x => 48 + x) := by
  unfold decimal
  have h1 : ¬ ((n : Int) < 0) := by omega
  rw [if_neg h1]
  by_cases h0 : n = 0
  · subst h0; simp
  · have : ¬ ((n : Int) = 0) := by omega
    simp [h0]

theorem decimal_digits (n : Nat) : ∀ x ∈ decimal (n : Int), isdigit x = true := by
  intro x hx
  rw [decimal_nat] at hx
  split_ifs at hx with h0
  · simp at hx; subst hx; decide
  · simp only [List.mem_map, List.mem_reverse] at hx
    obtain ⟨y, hy, rfl⟩ := hx
    have := Nat.digits_lt_base (by norm_num : 1 < 10) hy
    unfold isdigit
    simp only [Bool.and_eq_true, decide_eq_true_eq]
    omega

theorem decimal_ne_nil (n : Nat) : decimal (n : Int) ≠ [] := by
  rw [decimal_nat]
  split_ifs with h0
  · simp
  · simp only [ne_eq, List.map_eq_nil_iff, List.reverse_eq_nil_iff]
    exact fun h => h0 (Nat.digits_eq_nil_iff_eq_zero.mp h)

theorem digits_value_ofDigits (L : List Nat) :
    digits_value (L.reverse.map (fun x => 48 + x)) = Nat.ofDigits 10 L := by
  unfold digits_value
  induction L with
  | nil => simp
  | cons a L ih =>
    simp only [List.reverse_cons, List.map_append, List.map_cons, List.map_nil, List.foldl_append,
      List.foldl_cons, List.foldl_nil, ih, Nat.ofDigits_cons]
    omega

theorem digits_value_decimal (n : Nat) : digits_value (decimal (n : Int)) = n := by
  rw [decimal_nat]
  split_ifs with h0
  · subst h0; rfl
  · rw [digits_value_ofDigits, Nat.ofDigits_digits]

/-- The function `read_num` reads back a decimal numeral that one white-space byte and
then no white space follow. -/
theorem read_num_decimal (n w : Nat) (Y : List Nat) (hn : n < 2147483648)
    (hw : isspace w = true) (hY : Y = [] ∨ starts_not isspace Y) :
    read_num (decimal (n : Int) ++ w :: Y) = ((n : Int), Y) := by
  have hall := decimal_digits n
  have hne := decimal_ne_nil n
  have hval : int_of_long (strtol_value false (decimal (n : Int))) = (n : Int) := by
    unfold int_of_long strtol_value
    rw [digits_value_decimal n]
    simp only [Bool.false_eq_true, if_false]
    rw [if_neg (by omega)]
    omega
  generalize decimal (n : Int) = ds at hall hne hval
  cases ds with
  | nil => exact absurd rfl hne
  | cons c ds =>
    have hc : isdigit c = true := hall c (by simp)
    have hcs : isspace c = false := isdigit_not_space c hc
    have hc35 : c ≠ 35 := by
      intro h; subst h; exact absurd hc (by decide)
    have hc45 : c ≠ 45 := by
      intro h; subst h; exact absurd hc (by decide)
    have hc43 : c ≠ 43 := by
      intro h; subst h; exact absurd hc (by decide)
    have htw : (c :: ds ++ w :: Y).takeWhile isdigit = c :: ds := by
      have := @List.takeWhile_append_of_pos _ isdigit (c :: ds) (w :: Y) hall
      rw [this, takeWhile_of_starts_not _ _ ⟨w, Y, rfl, isspace_not_digit w hw⟩]
      simp
    have hskip : skip_space (w :: Y) = Y := by
      unfold skip_space
      rw [List.dropWhile_cons_of_pos hw]
      rcases hY with hY | hY
      · subst hY; rfl
      · exact dropWhile_of_starts_not _ _ hY
    unfold read_num
    have hcl : comment_loop false (c :: ds ++ w :: Y) = c :: ds ++ w :: Y := by
      simp [comment_loop, hc35]
    rw [hcl]
    have hfd : fscanf_d (c :: ds ++ w :: Y) = (some (n : Int), w :: Y) := by
      unfold fscanf_d skip_space
      have h1 : (c :: ds ++ w :: Y).dropWhile isspace = c :: (ds ++ w :: Y) :=
        dropWhile_of_starts_not _ _ ⟨c, _, rfl, hcs⟩
      rw [h1]
      simp only [if_neg hc45, if_neg hc43]
      have h2 : (c :: (ds ++ w :: Y)).takeWhile isdigit = c :: ds := htw
      rw [h2]
      have h3 : (c :: (ds ++ w :: Y)).drop (c :: ds).length = w :: Y := by
        have := List.drop_left (c :: ds) (w :: Y)
        exact this
      rw [h3, hval]
      simp
    rw [hfd]
    simp only
    rw [hskip]

theorem fread_exact : ∀ (n : Nat) (D : List Nat), D.length = 3 * n →
    (fread n D).1.length = n ∧
    ∀ i, i < n → getPx (fread n D).1 i = ⟨D.getD (3 * i) 0, D.getD (3 * i + 1) 0, D.getD (3 * i + 2) 0⟩ := by
  intro n
  induction n with
  | zero => intro D _; exact ⟨rfl, fun i hi => absurd hi (by omega)⟩
  | succ n ih =>
    intro D hD
    match D, hD with
    | r :: g :: b :: D1, hD =>
      have hD1 : D1.length = 3 * n := by simp only [List.length_cons] at hD; omega
      obtain ⟨h1, h2⟩ := ih D1 hD1
      refine ⟨by simp [fread, h1], ?_⟩
      intro i hi
      cases i with
      | zero => simp [fread, getPx]
      | succ j =>
        have := h2 j (by omega)
        have hg : ∀ k, (r :: g :: b :: D1).getD (k + 3) 0 = D1.getD k 0 := fun _ => rfl
        rw [show 3 * (j + 1) + 1 = (3 * j + 1) + 3 by omega,
          show 3 * (j + 1) + 2 = (3 * j + 2) + 3 by omega,
          show 3 * (j + 1) = 3 * j + 3 by omega, hg, hg, hg, ← this]
        simp [fread, getPx]
    | [], hD => exact absurd hD (by simp only [List.length_nil]; omega)
    | [_], hD => exact absurd hD (by simp only [List.length_cons, List.length_nil]; omega)
    | [_, _], hD => exact absurd hD (by simp only [List.length_cons, List.length_nil]; omega)

theorem fread_flatMap (d : List Pixel) : (fread d.length (d.flatMap Pixel.bytes)).1 = d := by
  induction d with
  | nil => rfl
  | cons p d ih =>
    rw [List.flatMap_cons]
    show (fread (d.length + 1) (p.r :: p.g :: p.b :: d.flatMap Pixel.bytes)).1 = p :: d
    simp only [fread]
    rw [ih]

/-- Decode of a well-formed stream whose first data byte is not white space: the header
`P6`, cols, rows and 255 with single white-space bytes between them, one white-space
byte, and 3*rows*cols data bytes decode to the rows x cols raster of these bytes. -/
theorem read_ppm_wellformed (tag0 : List Nat) (rows cols : Nat) (hr : 0 < rows) (hc : 0 < cols)
    (hr2 : rows < 2147483648) (hc2 : cols < 2147483648) (w1 w2 w3 w4 : Nat) (h1 : isspace w1 = true) (h2 : isspace w2 = true)
    (h3 : isspace w3 = true) (h4 : isspace w4 = true)
    (D : List Nat) (hD : D.length = 3 * (rows * cols)) (hfirst : starts_not isspace D) :
    read_ppm tag0 (P6 ++ w1 :: (decimal cols ++ w2 :: (decimal rows ++ w3 ::
        ([50, 53, 53] ++ w4 :: D))))
      = some ⟨some (fread (rows * cols) D).1, rows, cols⟩ ∧
    (fread (rows * cols) D).1.length = rows * cols ∧
    ∀ i, i < rows * cols → getPx (fread (rows * cols) D).1 i
      = ⟨D.getD (3 * i) 0, D.getD (3 * i + 1) 0, D.getD (3 * i + 2) 0⟩ := by
  obtain ⟨hlen, hpx⟩ := fread_exact (rows * cols) D hD
  refine ⟨?_, hlen, hpx⟩
  have hstart : ∀ (n : Nat) (t : List Nat), starts_not isspace (decimal (n : Int) ++ t) := by
    intro n t
    have hall := decimal_digits n
    have hne := decimal_ne_nil n
    generalize decimal (n : Int) = ds at hall hne
    cases ds with
    | nil => exact absurd rfl hne
    | cons c ds => exact ⟨c, ds ++ t, rfl, isdigit_not_space c (hall c (by simp))⟩
  have h255 : ([50, 53, 53] : List Nat) = decimal ((255 : Nat) : Int) := by
    rw [decimal_nat]; norm_num
  -- the tag
  have htag : fscanf_tag (tag0.take 19) (P6 ++ w1 :: (decimal cols ++ w2 :: (decimal rows ++ w3 ::
      ([50, 53, 53] ++ w4 :: D)))) = (P6, decimal cols ++ w2 :: (decimal rows ++ w3 ::
      ([50, 53, 53] ++ w4 :: D))) := by
    generalize hX : decimal (cols : Int) ++ w2 :: (decimal rows ++ w3 :: ([50, 53, 53] ++ w4 :: D)) = X
    have hXs : starts_not isspace X := by rw [← hX]; exact hstart cols _
    unfold fscanf_tag skip_space P6
    simp only [List.cons_append, List.nil_append]
    have e1 : (80 :: 54 :: w1 :: X).dropWhile isspace = 80 :: 54 :: w1 :: X :=
      dropWhile_of_starts_not _ _ ⟨80, _, rfl, by decide⟩
    rw [e1]
    have e2 : (80 :: 54 :: w1 :: X).takeWhile (fun x => !isspace x) = [80, 54] := by
      simp [List.takeWhile_cons, h1, show isspace 80 = false by decide,
        show isspace 54 = false by decide]
    simp only [e2]
    have e3 : (80 :: 54 :: w1 :: X).drop ([80, 54].take 19).length = w1 :: X := rfl
    have e4 : ([80, 54] : List Nat).take 19 = [80, 54] := rfl
    rw [e3, e4, List.dropWhile_cons_of_pos h1, dropWhile_of_starts_not _ _ hXs]
  have hc1 := read_num_decimal cols w2 (decimal rows ++ w3 :: ([50, 53, 53] ++ w4 :: D)) hc2 h2
    (Or.inr (hstart rows _))
  have hr1 := read_num_decimal rows w3 ([50, 53, 53] ++ w4 :: D) hr2 h3
    (Or.inr (by rw [h255]; exact hstart 255 _))
  have hm1 := read_num_decimal 255 w4 D (by omega) h4 (Or.inr hfirst)
  rw [← h255] at hm1
  unfold read_ppm
  simp only [htag, hc1, hr1, hm1]
  have hsz : size_t_of_int ((rows : Int) * (cols : Int)) = rows * cols := by
    unfold size_t_of_int
    have hmul : ((rows : Int) * (cols : Int)) = ((rows * cols : Nat) : Int) := by push_cast; ring
    rw [hmul, if_neg (by omega)]
    simp only [Int.toNat_ofNat]
  have hP : strncmp_eq P6 P6 20 = true := by decide
  have hcpos : ¬ ((cols : Int) ≤ 0 ∨ (rows : Int) ≤ 0) := by omega
  simp [hP, hsz, hlen, hcpos]
  omega

/-- Round trip away from the defect: a raster with present storage, at least one row and
one column, both within the range of `int`, and a first pixel whose red byte is not white
space is read back by `read_ppm` from the bytes `write_ppm` writes into an empty sink with
enough room. -/
theorem roundtrip_of_first_byte (tag0 : List Nat) (im : Image) (d : List Pixel) (room : Nat)
    (h : im.holds d) (hr : 0 < im.rows) (hc : 0 < im.cols)
    (hr2 : im.rows < 2147483648) (hc2 : im.cols < 2147483648)
    (hfirst : isspace (getPx d 0).r = false)
    (hroom : ([80, 54, 10] ++ decimal im.cols ++ [32] ++ decimal im.rows ++ [10, 50, 53, 53, 10]
      ++ d.flatMap Pixel.bytes).length ≤ room) :
    (write_ppm ⟨[], room⟩ im).2 = 0 ∧
    read_ppm tag0 (write_ppm ⟨[], room⟩ im).1.out = some im := by
  obtain ⟨hret, hout, hlen, _⟩ := write_ppm_format ⟨[], room⟩ im d h hroom
  refine ⟨hret, ?_⟩
  rw [hout]
  obtain ⟨hd, hr0, hc0, hdl⟩ := h
  obtain ⟨R, hR⟩ := Int.eq_ofNat_of_zero_le hr0
  obtain ⟨C, hC⟩ := Int.eq_ofNat_of_zero_le hc0
  rw [hR, hC] at hdl hlen
  simp only [Int.toNat_ofNat] at hdl hlen
  have hRpos : 0 < R := by omega
  have hCpos : 0 < C := by omega
  have hdne : d ≠ [] := by
    intro hd0
    rw [hd0] at hdl
    have : 0 < R * C := Nat.mul_pos hRpos hCpos
    simp at hdl
    omega
  have hD : starts_not isspace (d.flatMap Pixel.bytes) := by
    cases d with
    | nil => exact absurd rfl hdne
    | cons p d1 =>
      exact ⟨p.r, p.g :: p.b :: d1.flatMap Pixel.bytes, by rw [List.flatMap_cons]; rfl,
        by simpa [getPx] using hfirst⟩
  have key := (read_ppm_wellformed tag0 R C hRpos hCpos (by omega) (by omega) 10 32 10 10
    (by decide) (by decide)
    (by decide) (by decide) (d.flatMap Pixel.bytes) hlen hD).1
  have hfr : (fread (R * C) (d.flatMap Pixel.bytes)).1 = d := by
    rw [← hdl]; exact fread_flatMap d
  rw [hfr] at key
  have hstream : [] ++ ([80, 54, 10] ++ decimal im.cols ++ [32] ++ decimal im.rows ++
      [10, 50, 53, 53, 10] ++ d.flatMap Pixel.bytes)
      = P6 ++ 10 :: (decimal (C : Int) ++ 32 :: (decimal (R : Int) ++ 10 ::
        ([50, 53, 53] ++ 10 :: d.flatMap Pixel.bytes))) := by
    rw [hR, hC]; simp [P6]
  rw [hstream, key]
  cases im
  simp only at hd hR hC ⊢
  rw [hd, hR, hC]

/-! ### Loop nests that fill a new block -/

theorem set3_eq (nd : List Pixel) (j a b c : Nat) :
    setB (setG (setR nd j a) j b) j c = nd.set j ⟨a, b, c⟩ := by
  by_cases h : j < nd.length
  · simp [setR, setG, setB, getPx_set_self, h, List.set_set]
  · simp [setR, setG, setB, set_of_length_le _ _ _ (Nat.le_of_not_lt h)]

theorem getPx_set_ne (d : List Pixel) (i k : Nat) (p : Pixel) (h : i ≠ k) :
    getPx (d.set i p) k = getPx d k := by
  simp [getPx, List.getD_eq_getElem?_getD, List.getElem?_set_ne h]

/-- One row of the loop nest: lengths, the pixels written, and the pixels left alone. -/
theorem fill_row (C : Nat) (dst : Nat → Nat) (val : Nat → Pixel) (a : List Pixel)
    (hinj : ∀ c c1, c < C → c1 < C → dst c = dst c1 → c = c1)
    (hlt : ∀ c, c < C → dst c < a.length) :
    ∀ n, n ≤ C →
      ((List.range n).foldl (fun a2 c => a2.set (dst c) (val c)) a).length = a.length ∧
      (∀ c, c < n → getPx ((List.range n).foldl (fun a2 c => a2.set (dst c) (val c)) a) (dst c)
        = val c) ∧
      (∀ k, (∀ c, c < n → dst c ≠ k) →
        getPx ((List.range n).foldl (fun a2 c => a2.set (dst c) (val c)) a) k = getPx a k) := by
  intro n
  induction n with
  | zero => intro _; exact ⟨rfl, fun c hc => absurd hc (by omega), fun k _ => rfl⟩
  | succ n ih =>
    intro hn
    obtain ⟨h1, h2, h3⟩ := ih (by omega)
    rw [List.range_succ, List.foldl_append]
    simp only [List.foldl_cons, List.foldl_nil]
    refine ⟨by rw [List.length_set, h1], ?_, ?_⟩
    · intro c hc
      by_cases hcn : c = n
      · subst hcn
        exact getPx_set_self _ _ _ (by rw [h1]; exact hlt c (by omega))
      · rw [getPx_set_ne _ _ _ _ (fun h => hcn (hinj n c (by omega) (by omega) h).symm)]
        exact h2 c (by omega)
    · intro k hk
      rw [getPx_set_ne _ _ _ _ (hk n (by omega))]
      exact h3 k (fun c hc => hk c (by omega))

/-- The whole loop nest: lengths, the pixels written, and the pixels left alone. -/
theorem fill2_spec (R C : Nat) (dst : Nat → Nat → Nat) (val : Nat → Nat → Pixel)
    (a : List Pixel)
    (hinj : ∀ r c r1 c1, r < R → c < C → r1 < R → c1 < C → dst r c = dst r1 c1 →
      r = r1 ∧ c = c1)
    (hlt : ∀ r c, r < R → c < C → dst r c < a.length) :
    (fill2 R C dst val a).length = a.length ∧
    (∀ r c, r < R → c < C → getPx (fill2 R C dst val a) (dst r c) = val r c) ∧
    (∀ k, (∀ r c, r < R → c < C → dst r c ≠ k) → getPx (fill2 R C dst val a) k = getPx a k) := by
  unfold fill2
  have key : ∀ n, n ≤ R →
      ((List.range n).foldl
        (fun a1 r => (List.range C).foldl (fun a2 c => a2.set (dst r c) (val r c)) a1) a).length
          = a.length ∧
      (∀ r c, r < n → c < C → getPx ((List.range n).foldl
        (fun a1 r => (List.range C).foldl (fun a2 c => a2.set (dst r c) (val r c)) a1) a)
          (dst r c) = val r c) ∧
      (∀ k, (∀ r c, r < n → c < C → dst r c ≠ k) → getPx ((List.range n).foldl
        (fun a1 r => (List.range C).foldl (fun a2 c => a2.set (dst r c) (val r c)) a1) a) k
          = getPx a k) := by
    intro n
    induction n with
    | zero =>
      intro _
      exact ⟨rfl, fun r c hr => absurd hr (by omega), fun k _ => rfl⟩
    | succ n ih =>
      intro hn
      obtain ⟨h1, h2, h3⟩ := ih (by omega)
      rw [List.range_succ, List.foldl_append]
      simp only [List.foldl_cons, List.foldl_nil]
      obtain ⟨g1, g2, g3⟩ := fill_row C (dst n) (val n) _
        (fun c c1 hc hc1 h => (hinj n c n c1 (by omega) hc (by omega) hc1 h).2)
        (fun c hc => by rw [h1]; exact hlt n c (by omega) hc) C (le_refl C)
      refine ⟨by rw [g1, h1], ?_, ?_⟩
      · intro r c hr hc
        by_cases hrn : r = n
        · subst hrn
          exact g2 c hc
        · rw [g3 _ (fun c1 hc1 h => hrn (hinj n c1 r c (by omega) hc1 (by omega) hc h).1.symm)]
          exact h2 r c (by omega) hc
      · intro k hk
        rw [g3 k (fun c hc => hk n c (by omega) hc)]
        exact h3 k (fun r c hr hc => hk r c (by omega) hc)
  exact key R (le_refl R)

theorem rowmajor_inj (C : Nat) (r c r1 c1 : Nat) (hc : c < C) (hc1 : c1 < C)
    (h : r * C + c = r1 * C + c1) : r = r1 ∧ c = c1 := by
  have h1 : (r * C + c) / C = r := by
    rw [Nat.add_comm, Nat.add_mul_div_right _ _ (by omega), Nat.div_eq_of_lt hc, Nat.zero_add]
  have h2 : (r1 * C + c1) / C = r1 := by
    rw [Nat.add_comm, Nat.add_mul_div_right _ _ (by omega), Nat.div_eq_of_lt hc1, Nat.zero_add]
  have hr : r = r1 := by rw [← h1, ← h2, h]
  subst hr
  exact ⟨rfl, by omega⟩

theorem rowmajor_lt (R C r c : Nat) (hr : r < R) (hc : c < C) : r * C + c < R * C := by
  calc r * C + c < r * C + C := by omega
    _ = (r + 1) * C := by ring
    _ ≤ R * C := Nat.mul_le_mul_right _ hr

theorem length_malloc_pixels (fresh : Nat → Pixel) (n : Nat) :
    (malloc_pixels fresh n).length = n := by
  simp [malloc_pixels]

theorem getPx_mem (d : List Pixel) (i : Nat) (h : i < d.length) : getPx d i ∈ d := by
  have : getPx d i = d.get ⟨i, h⟩ := by
    simp [getPx, List.getD_eq_getElem?_getD, h]
  rw [this]
  exact List.get_mem _ _ _

theorem tdiv_two (n : Int) (h : 0 ≤ n) :
    0 ≤ Int.tdiv n 2 ∧ (Int.tdiv n 2).toNat = n.toNat / 2 := by
  obtain ⟨k, rfl⟩ := Int.eq_ofNat_of_zero_le h
  have : Int.tdiv (k : Int) 2 = ((k / 2 : Nat) : Int) := rfl
  rw [this]
  exact ⟨Int.ofNat_nonneg _, by simp only [Int.toNat_ofNat]⟩

theorem toNat_mul (a b : Int) (ha : 0 ≤ a) (hb : 0 ≤ b) :
    (a * b).toNat = a.toNat * b.toNat := by
  obtain ⟨m, rfl⟩ := Int.eq_ofNat_of_zero_le ha
  obtain ⟨n, rfl⟩ := Int.eq_ofNat_of_zero_le hb
  have : ((m : Int) * (n : Int)) = ((m * n : Nat) : Int) := by push_cast; ring
  rw [this]
  simp only [Int.toNat_ofNat]

/-! ### The function `invert` -/

theorem invert_body_eq (d : List Pixel) (i : Nat) :
    invert_body d i = point_update invert_px d i := by
  unfold invert_body point_update
  by_cases h : i < d.length
  · simp [setR, setG, setB, getPx_set_self, h, invert_px, List.set_set]
  · simp [setR, setG, setB, set_of_length_le _ _ _ (Nat.le_of_not_lt h)]

theorem invert_eq_map (im : Image) (d : List Pixel) (h : im.holds d) :
    invert im = { im with data := some (d.map invert_px) } := by
  obtain ⟨hd, _, hc, hlen⟩ := h
  unfold invert
  rw [hd]
  simp only [invert_body_eq, pix_index_eq _ _ _ hc]
  rw [rows_loop invert_px d _ _ hlen]

theorem uchar_of_int_sub (v : Nat) (h : v < 256) :
    uchar_of_int (255 - (v : Int)) + v = 255 := by
  unfold uchar_of_int
  omega

theorem invert_px_twice (p : Pixel) (hp : p.isByte) : invert_px (invert_px p) = p := by
  obtain ⟨hr, hg, hb⟩ := hp
  cases p
  simp only [invert_px, uchar_of_int] at *
  refine Pixel.mk.injEq .. |>.mpr ⟨?_, ?_, ?_⟩ <;> omega

/-- C11: on a raster with present storage whose channels are bytes, `invert` keeps rows,
cols and positions, and every channel `v` becomes `255 - v`: the new and the old value add
up to 255, so the new value lies in 0..255. -/
theorem invert_post (im : Image) (d : List Pixel) (h : im.holds d)
    (hb : ∀ p ∈ d, p.isByte) :
    (invert im).rows = im.rows ∧ (invert im).cols = im.cols ∧
    ∃ d1, (invert im).data = some d1 ∧ d1.length = d.length ∧
      ∀ i, i < d.length →
        (getPx d1 i).r + (getPx d i).r = 255 ∧
        (getPx d1 i).g + (getPx d i).g = 255 ∧
        (getPx d1 i).b + (getPx d i).b = 255 := by
  rw [invert_eq_map im d h]
  refine ⟨rfl, rfl, d.map invert_px, rfl, by simp, ?_⟩
  intro i hi
  rw [getPx_map _ _ _ hi]
  obtain ⟨h1, h2, h3⟩ := hb _ (getPx_mem d i hi)
  exact ⟨uchar_of_int_sub _ h1, uchar_of_int_sub _ h2, uchar_of_int_sub _ h3⟩

/-- Witness of C11 on a 1x2 raster. -/
theorem invert_post_witness :
    Image.holds ⟨some [⟨0, 255, 3⟩, ⟨4, 5, 6⟩], 1, 2⟩ [⟨0, 255, 3⟩, ⟨4, 5, 6⟩] ∧
    (∀ p ∈ [(⟨0, 255, 3⟩ : Pixel), ⟨4, 5, 6⟩], p.isByte) ∧
    ((invert ⟨some [⟨0, 255, 3⟩, ⟨4, 5, 6⟩], 1, 2⟩).rows = 1 ∧
     (invert ⟨some [⟨0, 255, 3⟩, ⟨4, 5, 6⟩], 1, 2⟩).cols = 2 ∧
    ∃ d1, (invert ⟨some [⟨0, 255, 3⟩, ⟨4, 5, 6⟩], 1, 2⟩).data = some d1 ∧
      d1.length = [(⟨0, 255, 3⟩ : Pixel), ⟨4, 5, 6⟩].length ∧
      ∀ i, i < [(⟨0, 255, 3⟩ : Pixel), ⟨4, 5, 6⟩].length →
        (getPx d1 i).r + (getPx [⟨0, 255, 3⟩, ⟨4, 5, 6⟩] i).r = 255 ∧
        (getPx d1 i).g + (getPx [⟨0, 255, 3⟩, ⟨4, 5, 6⟩] i).g = 255 ∧
        (getPx d1 i).b + (getPx [⟨0, 255, 3⟩, ⟨4, 5, 6⟩] i).b = 255) :=
  ⟨by unfold Image.holds; decide, by unfold Pixel.isByte; decide,
    invert_post ⟨some [⟨0, 255, 3⟩, ⟨4, 5, 6⟩], 1, 2⟩ [⟨0, 255, 3⟩, ⟨4, 5, 6⟩]
      (by unfold Image.holds; decide) (by unfold Pixel.isByte; decide)⟩

/-- C12: on a raster with present storage whose channels are bytes, two applications of
`invert` give the raster back. -/
theorem invert_invert (im : Image) (d : List Pixel) (h : im.holds d)
    (hb : ∀ p ∈ d, p.isByte) :
    invert (invert im) = im := by
  have h1 := holds_map im d invert_px h
  rw [invert_eq_map im d h, invert_eq_map _ _ h1]
  obtain ⟨hd, _⟩ := h
  have : (d.map invert_px).map invert_px = d := by
    rw [List.map_map]
    conv_rhs => rw [← List.map_id d]
    apply List.map_congr_left
    intro p hp
    exact invert_px_twice p (hb p hp)
  cases im
  simp only at hd ⊢
  rw [this, hd]

/-- Witness of C12 on a 2x1 raster. -/
theorem invert_invert_witness :
    Image.holds ⟨some [⟨0, 255, 3⟩, ⟨4, 5, 6⟩], 2, 1⟩ [⟨0, 255, 3⟩, ⟨4, 5, 6⟩] ∧
    (∀ p ∈ [(⟨0, 255, 3⟩ : Pixel), ⟨4, 5, 6⟩], p.isByte) ∧
    invert (invert ⟨some [⟨0, 255, 3⟩, ⟨4, 5, 6⟩], 2, 1⟩) =
      ⟨some [⟨0, 255, 3⟩, ⟨4, 5, 6⟩], 2, 1⟩ :=
  ⟨by unfold Image.holds; decide, by unfold Pixel.isByte; decide,
    invert_invert ⟨some [⟨0, 255, 3⟩, ⟨4, 5, 6⟩], 2, 1⟩ [⟨0, 255, 3⟩, ⟨4, 5, 6⟩]
      (by unfold Image.holds; decide) (by unfold Pixel.isByte; decide)⟩

/-! ### The function `zoom_out` -/

theorem zoom_out_body_eq (d : List Pixel) (cols newCols : Int) (nd : List Pixel) (r c : Nat) :
    zoom_out_body d cols newCols nd r c = nd.set (pix_index r newCols c) (zoom_px d cols r c) :=
  set3_eq _ _ _ _ _

theorem avg4_bytes (a b c d : Nat) (ha : a < 256) (hb : b < 256) (hc : c < 256)
    (hd : d < 256) : avg4 a b c d = (a + b + c + d) / 4 := by
  unfold avg4 uchar_of_int
  have : Int.tdiv ((a : Int) + b + c + d) 4 = (((a + b + c + d) / 4 : Nat) : Int) := by
    have h1 : ((a : Int) + b + c + d) = ((a + b + c + d : Nat) : Int) := by push_cast; ring
    rw [h1]
    rfl
  rw [this]
  omega

/-- The loop nest of `zoom_out` in terms of the old data, for natural dimensions. -/
theorem zoom_out_eq_fill (fresh : Nat → Pixel) (im : Image) (d : List Pixel) (h : im.holds d) :
    zoom_out fresh im =
      ⟨some (fill2 (im.rows.toNat / 2) (im.cols.toNat / 2)
        (fun r c => r * (im.cols.toNat / 2) + c) (fun r c => zoom_px d im.cols r c)
        (malloc_pixels fresh (im.rows.toNat / 2 * (im.cols.toNat / 2)))),
       Int.tdiv im.rows 2, Int.tdiv im.cols 2⟩ := by
  obtain ⟨hd, hr, hc, _⟩ := h
  obtain ⟨hr1, hr2⟩ := tdiv_two _ hr
  obtain ⟨hc1, hc2⟩ := tdiv_two _ hc
  unfold zoom_out
  rw [hd]
  simp only [zoom_out_body_eq, pix_index_eq _ _ _ hc1, toNat_mul _ _ hr1 hc1, hr2, hc2]
  rfl

theorem block_lt (R C r c : Nat) (hr : r < R / 2) (hc : c < C / 2) (i j : Nat) (hi : i < 2)
    (hj : j < 2) : (2 * r + i) * C + (2 * c + j) < R * C :=
  rowmajor_lt R C _ _ (by omega) (by omega)

/-- C13: on a raster of rows x cols with present storage whose channels are bytes,
`zoom_out` gives a raster of rows/2 rows and cols/2 columns (truncating division) with
storage of that many pixels, in which each channel at (r,c) is the sum of that channel at
(2r,2c), (2r,2c+1), (2r+1,2c), (2r+1,2c+1) of the input, all inside the input, divided by 4
with truncation, the sum being taken in the naturals. A 2x2 all-white raster gives one white
pixel, and a 4x4 raster of four solid quadrants gives the four quadrant colours. -/
theorem zoom_out_post (fresh : Nat → Pixel) (im : Image) (d : List Pixel) (h : im.holds d)
    (hb : ∀ p ∈ d, p.isByte) :
    ((zoom_out fresh im).rows = Int.tdiv im.rows 2 ∧
     (zoom_out fresh im).cols = Int.tdiv im.cols 2 ∧
     ∃ d1, (zoom_out fresh im).holds d1 ∧
       d1.length = (im.rows.toNat / 2) * (im.cols.toNat / 2) ∧
       ∀ r c, r < im.rows.toNat / 2 → c < im.cols.toNat / 2 →
         (2 * r + 1) * im.cols.toNat + (2 * c + 1) < d.length ∧
         (getPx d1 (r * (im.cols.toNat / 2) + c)).r =
           ((getPx d (2 * r * im.cols.toNat + 2 * c)).r
            + (getPx d (2 * r * im.cols.toNat + (2 * c + 1))).r
            + (getPx d ((2 * r + 1) * im.cols.toNat + 2 * c)).r
            + (getPx d ((2 * r + 1) * im.cols.toNat + (2 * c + 1))).r) / 4 ∧
         (getPx d1 (r * (im.cols.toNat / 2) + c)).g =
           ((getPx d (2 * r * im.cols.toNat + 2 * c)).g
            + (getPx d (2 * r * im.cols.toNat + (2 * c + 1))).g
            + (getPx d ((2 * r + 1) * im.cols.toNat + 2 * c)).g
            + (getPx d ((2 * r + 1) * im.cols.toNat + (2 * c + 1))).g) / 4 ∧
         (getPx d1 (r * (im.cols.toNat / 2) + c)).b =
           ((getPx d (2 * r * im.cols.toNat + 2 * c)).b
            + (getPx d (2 * r * im.cols.toNat + (2 * c + 1))).b
            + (getPx d ((2 * r + 1) * im.cols.toNat + 2 * c)).b
            + (getPx d ((2 * r + 1) * im.cols.toNat + (2 * c + 1))).b) / 4) ∧
    zoom_out fresh ⟨some (List.replicate 4 ⟨255, 255, 255⟩), 2, 2⟩
      = ⟨some [⟨255, 255, 255⟩], 1, 1⟩ ∧
    zoom_out fresh
        ⟨some [⟨255, 0, 0⟩, ⟨255, 0, 0⟩, ⟨0, 255, 0⟩, ⟨0, 255, 0⟩,
               ⟨255, 0, 0⟩, ⟨255, 0, 0⟩, ⟨0, 255, 0⟩, ⟨0, 255, 0⟩,
               ⟨0, 0, 255⟩, ⟨0, 0, 255⟩, ⟨9, 8, 7⟩, ⟨9, 8, 7⟩,
               ⟨0, 0, 255⟩, ⟨0, 0, 255⟩, ⟨9, 8, 7⟩, ⟨9, 8, 7⟩], 4, 4⟩
      = ⟨some [⟨255, 0, 0⟩, ⟨0, 255, 0⟩, ⟨0, 0, 255⟩, ⟨9, 8, 7⟩], 2, 2⟩ := by
  refine ⟨?_, rfl, rfl⟩
  rw [zoom_out_eq_fill fresh im d h]
  obtain ⟨hd, hr, hc, hlen⟩ := h
  obtain ⟨hr1, hr2⟩ := tdiv_two _ hr
  obtain ⟨hc1, hc2⟩ := tdiv_two _ hc
  obtain ⟨f1, f2, _⟩ := fill2_spec (im.rows.toNat / 2) (im.cols.toNat / 2)
    (fun r c => r * (im.cols.toNat / 2) + c) (fun r c => zoom_px d im.cols r c)
    (malloc_pixels fresh (im.rows.toNat / 2 * (im.cols.toNat / 2)))
    (fun r c r1 c1 _ hc _ hc1 hh => rowmajor_inj _ r c r1 c1 hc hc1 hh)
    (fun r c hr hc => by
      rw [length_malloc_pixels]
      exact rowmajor_lt _ _ r c hr hc)
  rw [length_malloc_pixels] at f1
  refine ⟨rfl, rfl, _, ⟨rfl, hr1, hc1, ?_⟩, f1, ?_⟩
  · simp only [f1, hr2, hc2]
  intro r c hr0 hc0
  have hin : ∀ i j, i < 2 → j < 2 →
      (getPx d ((2 * r + i) * im.cols.toNat + (2 * c + j))).isByte := fun i j hi hj =>
    hb _ (getPx_mem d _ (by rw [hlen]; exact block_lt _ _ r c hr0 hc0 i j hi hj))
  have h00 := hin 0 0 (by omega) (by omega)
  have h01 := hin 0 1 (by omega) (by omega)
  have h10 := hin 1 0 (by omega) (by omega)
  have h11 := hin 1 1 (by omega) (by omega)
  simp only [Nat.add_zero] at h00 h01 h10 h11
  refine ⟨by rw [hlen]; exact block_lt _ _ r c hr0 hc0 1 1 (by omega) (by omega), ?_⟩
  have hz := f2 r c hr0 hc0
  simp only at hz
  rw [hz]
  simp only [zoom_px, pix_index_eq _ _ _ hc]
  exact ⟨avg4_bytes _ _ _ _ h00.1 h01.1 h10.1 h11.1,
    avg4_bytes _ _ _ _ h00.2.1 h01.2.1 h10.2.1 h11.2.1,
    avg4_bytes _ _ _ _ h00.2.2 h01.2.2 h10.2.2 h11.2.2⟩

/-- Witness of C13 on the 3x3 sample raster. -/
theorem zoom_out_post_witness :
    sample_raster.holds sample_pixels ∧
    (∀ p ∈ sample_pixels, p.isByte) ∧
    (((zoom_out sample_fresh sample_raster).rows = Int.tdiv sample_raster.rows 2 ∧
     (zoom_out sample_fresh sample_raster).cols = Int.tdiv sample_raster.cols 2 ∧
     ∃ d1, (zoom_out sample_fresh sample_raster).holds d1 ∧
       d1.length = (sample_raster.rows.toNat / 2) * (sample_raster.cols.toNat / 2) ∧
       ∀ r c, r < sample_raster.rows.toNat / 2 → c < sample_raster.cols.toNat / 2 →
         (2 * r + 1) * sample_raster.cols.toNat + (2 * c + 1) < sample_pixels.length ∧
         (getPx d1 (r * (sample_raster.cols.toNat / 2) + c)).r =
           ((getPx sample_pixels (2 * r * sample_raster.cols.toNat + 2 * c)).r
            + (getPx sample_pixels (2 * r * sample_raster.cols.toNat + (2 * c + 1))).r
            + (getPx sample_pixels ((2 * r + 1) * sample_raster.cols.toNat + 2 * c)).r
            + (getPx sample_pixels ((2 * r + 1) * sample_raster.cols.toNat + (2 * c + 1))).r) / 4 ∧
         (getPx d1 (r * (sample_raster.cols.toNat / 2) + c)).g =
           ((getPx sample_pixels (2 * r * sample_raster.cols.toNat + 2 * c)).g
            + (getPx sample_pixels (2 * r * sample_raster.cols.toNat + (2 * c + 1))).g
            + (getPx sample_pixels ((2 * r + 1) * sample_raster.cols.toNat + 2 * c)).g
            + (getPx sample_pixels ((2 * r + 1) * sample_raster.cols.toNat + (2 * c + 1))).g) / 4 ∧
         (getPx d1 (r * (sample_raster.cols.toNat / 2) + c)).b =
           ((getPx sample_pixels (2 * r * sample_raster.cols.toNat + 2 * c)).b
            + (getPx sample_pixels (2 * r * sample_raster.cols.toNat + (2 * c + 1))).b
            + (getPx sample_pixels ((2 * r + 1) * sample_raster.cols.toNat + 2 * c)).b
            + (getPx sample_pixels ((2 * r + 1) * sample_raster.cols.toNat + (2 * c + 1))).b) / 4) ∧
    zoom_out sample_fresh ⟨some (List.replicate 4 ⟨255, 255, 255⟩), 2, 2⟩
      = ⟨some [⟨255, 255, 255⟩], 1, 1⟩ ∧
    zoom_out sample_fresh
        ⟨some [⟨255, 0, 0⟩, ⟨255, 0, 0⟩, ⟨0, 255, 0⟩, ⟨0, 255, 0⟩,
               ⟨255, 0, 0⟩, ⟨255, 0, 0⟩, ⟨0, 255, 0⟩, ⟨0, 255, 0⟩,
               ⟨0, 0, 255⟩, ⟨0, 0, 255⟩, ⟨9, 8, 7⟩, ⟨9, 8, 7⟩,
               ⟨0, 0, 255⟩, ⟨0, 0, 255⟩, ⟨9, 8, 7⟩, ⟨9, 8, 7⟩], 4, 4⟩
      = ⟨some [⟨255, 0, 0⟩, ⟨0, 255, 0⟩, ⟨0, 0, 255⟩, ⟨9, 8, 7⟩], 2, 2⟩) :=
  ⟨by unfold Image.holds; decide,
    by unfold Pixel.isByte; decide,
    zoom_out_post sample_fresh sample_raster sample_pixels
      (by unfold Image.holds; decide) (by unfold Pixel.isByte; decide)⟩

/-! ### The function `rotate_right` -/

theorem rotate_right_body_eq (d : List Pixel) (cols newCols : Int) (nd : List Pixel)
    (r c : Nat) :
    rotate_right_body d cols newCols nd r c
      = nd.set (rot_index c newCols r) (getPx d (pix_index r cols c)) :=
  set3_eq _ _ _ _ _

theorem rot_index_eq (c r R : Nat) (h : r < R) :
    rot_index c (R : Int) r = c * R + (R - 1 - r) := by
  unfold rot_index
  have : ((c : Int) * (R : Int) + ((R : Int) - 1 - (r : Int)))
      = ((c * R + (R - 1 - r) : Nat) : Int) := by
    push_cast
    omega
  rw [this, Int.toNat_ofNat]

theorem rot_inj (R r c r1 c1 : Nat) (hr : r < R) (hr1 : r1 < R)
    (h : c * R + (R - 1 - r) = c1 * R + (R - 1 - r1)) : r = r1 ∧ c = c1 := by
  obtain ⟨h1, h2⟩ := rowmajor_inj R c (R - 1 - r) c1 (R - 1 - r1) (by omega) (by omega) h
  exact ⟨by omega, h1⟩

theorem rot_lt (R C r c : Nat) (hr : r < R) (hc : c < C) : c * R + (R - 1 - r) < C * R :=
  rowmajor_lt C R c (R - 1 - r) hc (by omega)

theorem ext_getPx (a b : List Pixel) (hl : a.length = b.length)
    (h : ∀ k, k < a.length → getPx a k = getPx b k) : a = b := by
  apply List.ext_getElem hl
  intro k h1 h2
  have := h k h1
  simpa [getPx, List.getD_eq_getElem?_getD, h1, h2] using this

/-- The effect of `rotate_right` on a raster of `R` rows and `C` columns. -/
theorem rotate_right_spec (fresh : Nat → Pixel) (im : Image) (d : List Pixel)
    (h : im.holds d) :
    ∃ d1, rotate_right fresh im = ⟨some d1, im.cols, im.rows⟩ ∧
      d1.length = im.cols.toNat * im.rows.toNat ∧
      ∀ r c, r < im.rows.toNat → c < im.cols.toNat →
        getPx d1 (c * im.rows.toNat + (im.rows.toNat - 1 - r))
          = getPx d (r * im.cols.toNat + c) := by
  obtain ⟨hd, hr, hc, hlen⟩ := h
  obtain ⟨R, hR⟩ := Int.eq_ofNat_of_zero_le hr
  obtain ⟨C, hC⟩ := Int.eq_ofNat_of_zero_le hc
  obtain ⟨f1, f2, _⟩ := fill2_spec R C (fun r c => rot_index c (R : Int) r)
    (fun r c => getPx d (pix_index r (C : Int) c)) (malloc_pixels fresh (C * R))
    (fun r c r1 c1 hr0 _ hr1 _ hh => by
      simp only [rot_index_eq _ _ _ hr0, rot_index_eq _ _ _ hr1] at hh
      exact rot_inj R r c r1 c1 hr0 hr1 hh)
    (fun r c hr0 hc0 => by
      simp only [length_malloc_pixels, rot_index_eq _ _ _ hr0]
      exact rot_lt R C r c hr0 hc0)
  rw [length_malloc_pixels] at f1
  refine ⟨fill2 R C (fun r c => rot_index c (R : Int) r)
    (fun r c => getPx d (pix_index r (C : Int) c)) (malloc_pixels fresh (C * R)), ?_, ?_, ?_⟩
  · unfold rotate_right
    rw [hd]
    simp only [rotate_right_body_eq, hR, hC, Int.toNat_ofNat, toNat_mul _ _
      (Int.ofNat_nonneg C) (Int.ofNat_nonneg R)]
    rfl
  · rw [hR, hC]
    simpa using f1
  · intro r c hr0 hc0
    simp only [hR, hC, Int.toNat_ofNat] at hr0 hc0 ⊢
    have := f2 r c hr0 hc0
    simp only [rot_index_eq _ _ _ hr0, pix_index_eq _ _ _ (Int.ofNat_nonneg C),
      Int.toNat_ofNat] at this
    exact this

theorem rot_unique (R C k : Nat) (hk : k < C * R) :
    ∃! p : Nat × Nat, p.1 < R ∧ p.2 < C ∧ rot_index p.2 (R : Int) p.1 = k := by
  have hR : 0 < R := by
    rcases Nat.eq_zero_or_pos R with h0 | h0
    · rw [h0, Nat.mul_zero] at hk
      omega
    · exact h0
  have hm : k % R < R := Nat.mod_lt _ hR
  have hq : k / R < C := (Nat.div_lt_iff_lt_mul hR).mpr hk
  have hdm : R * (k / R) + k % R = k := Nat.div_add_mod k R
  refine ⟨(R - 1 - k % R, k / R), ⟨by simp only; omega, hq, ?_⟩, ?_⟩
  · simp only
    rw [rot_index_eq _ _ _ (by omega), Nat.mul_comm]
    omega
  · rintro ⟨r, c⟩ ⟨h1, h2, h3⟩
    simp only at h1 h2 h3
    rw [rot_index_eq _ _ _ h1] at h3
    have h4 : c * R + (R - 1 - r) = k / R * R + (R - 1 - (R - 1 - k % R)) := by
      rw [h3, Nat.mul_comm]
      omega
    obtain ⟨e1, e2⟩ := rot_inj R r c (R - 1 - k % R) (k / R) h1 (by omega) h4
    rw [e1, e2]

/-- C14: on a raster of rows x cols with present storage, `rotate_right` gives a raster of
cols rows and rows columns with storage of that many pixels, in which the pixel at row c
and column newCols-1-r, the index that the loop writes at (r,c), is the input pixel at
(r,c); every index of the new storage is the one written at exactly one (r,c). On a 2x3
raster the input pixel (0,0) is at row 0, column 1 of the output. -/
theorem rotate_right_post (fresh : Nat → Pixel) (im : Image) (d : List Pixel)
    (h : im.holds d) :
    ((rotate_right fresh im).rows = im.cols ∧ (rotate_right fresh im).cols = im.rows ∧
     ∃ d1, (rotate_right fresh im).holds d1 ∧
       (∀ r c, r < im.rows.toNat → c < im.cols.toNat →
         rot_index c (rotate_right fresh im).cols r
           = c * im.rows.toNat + (im.rows.toNat - 1 - r) ∧
         c * im.rows.toNat + (im.rows.toNat - 1 - r) < d1.length ∧
         getPx d1 (c * im.rows.toNat + (im.rows.toNat - 1 - r))
           = getPx d (r * im.cols.toNat + c)) ∧
       (∀ k, k < d1.length →
         ∃! p : Nat × Nat, p.1 < im.rows.toNat ∧ p.2 < im.cols.toNat ∧
           rot_index p.2 (rotate_right fresh im).cols p.1 = k)) ∧
    ∀ p0 p1 p2 p3 p4 p5 : Pixel,
      rotate_right fresh ⟨some [p0, p1, p2, p3, p4, p5], 2, 3⟩
        = ⟨some [p3, p0, p4, p1, p5, p2], 3, 2⟩ := by
  refine ⟨?_, ?_⟩
  swap
  · intro p0 p1 p2 p3 p4 p5
    simp only [rotate_right, rotate_right_body, set3_eq]
    simp [List.range_succ, rot_index, pix_index, getPx, malloc_pixels]
  obtain ⟨d1, e, hl, hp⟩ := rotate_right_spec fresh im d h
  obtain ⟨hd, hr, hc, hlen⟩ := h
  rw [e]
  obtain ⟨R, hR⟩ := Int.eq_ofNat_of_zero_le hr
  refine ⟨rfl, rfl, d1, ⟨rfl, hc, hr, hl⟩, ?_, ?_⟩
  · intro r c hr0 hc0
    refine ⟨?_, ?_, hp r c hr0 hc0⟩
    · simp only [hR, Int.toNat_ofNat] at hr0 ⊢
      exact rot_index_eq _ _ _ hr0
    · rw [hl]
      exact rot_lt _ _ r c hr0 hc0
  · intro k hk
    rw [hl] at hk
    simp only [hR, Int.toNat_ofNat] at hk ⊢
    exact rot_unique R _ k hk

theorem rotate_right_holds (im : Image) (d d1 : List Pixel) (h : im.holds d)
    (hl : d1.length = im.cols.toNat * im.rows.toNat) :
    Image.holds ⟨some d1, im.cols, im.rows⟩ d1 :=
  ⟨rfl, h.2.2.1, h.2.1, hl⟩

/-- C15: on a raster with present storage, square or not, four applications of
`rotate_right` give back the rows, the cols and every pixel, whatever the contents of the
four blocks that `malloc` returned. -/
theorem rotate_right_four (f1 f2 f3 f4 : Nat → Pixel) (im : Image) (d : List Pixel)
    (h : im.holds d) :
    rotate_right f4 (rotate_right f3 (rotate_right f2 (rotate_right f1 im))) = im := by
  obtain ⟨d1, e1, l1, s1⟩ := rotate_right_spec f1 im d h
  have h1 := rotate_right_holds im d d1 h l1
  obtain ⟨d2, e2, l2, s2⟩ := rotate_right_spec f2 _ d1 h1
  have h2 := rotate_right_holds _ d1 d2 h1 l2
  obtain ⟨d3, e3, l3, s3⟩ := rotate_right_spec f3 _ d2 h2
  have h3 := rotate_right_holds _ d2 d3 h2 l3
  obtain ⟨d4, e4, l4, s4⟩ := rotate_right_spec f4 _ d3 h3
  rw [e1, e2, e3, e4]
  obtain ⟨hd, hr, hc, hlen⟩ := h
  simp only at l2 l3 l4 s2 s3 s4 ⊢
  generalize im.rows.toNat = R at *
  generalize im.cols.toNat = C at *
  have key : d4 = d := by
    apply ext_getPx _ _ (by rw [l4, hlen])
    intro k hk
    rw [l4] at hk
    have hC : 0 < C := by
      rcases Nat.eq_zero_or_pos C with h0 | h0
      · rw [h0, Nat.mul_zero] at hk
        omega
      · exact h0
    have hj : k % C < C := Nat.mod_lt _ hC
    have hi : k / C < R := (Nat.div_lt_iff_lt_mul hC).mpr hk
    have hdm : C * (k / C) + k % C = k := Nat.div_add_mod k C
    have hk1 : k = k / C * C + k % C := by rw [Nat.mul_comm]; exact hdm.symm
    generalize k / C = i at *
    generalize k % C = j at *
    have a4 := s4 (C - 1 - j) i (by omega) hi
    have a3 := s3 (R - 1 - i) (C - 1 - j) (by omega) (by omega)
    have a2 := s2 j (R - 1 - i) hj (by omega)
    have a1 := s1 i j hi hj
    rw [show C - 1 - (C - 1 - j) = j by omega] at a4
    rw [show R - 1 - (R - 1 - i) = i by omega] at a3
    rw [hk1, a4, a3, a2, a1]
  cases im
  simp only at hd ⊢
  rw [key, hd]

/-- Witness of C14 on the 2x3 sample raster. -/
theorem rotate_right_post_witness :
    wide_raster.holds wide_pixels ∧
    (((rotate_right sample_fresh wide_raster).rows = wide_raster.cols ∧ (rotate_right sample_fresh wide_raster).cols = wide_raster.rows ∧
     ∃ d1, (rotate_right sample_fresh wide_raster).holds d1 ∧
       (∀ r c, r < wide_raster.rows.toNat → c < wide_raster.cols.toNat →
         rot_index c (rotate_right sample_fresh wide_raster).cols r
           = c * wide_raster.rows.toNat + (wide_raster.rows.toNat - 1 - r) ∧
         c * wide_raster.rows.toNat + (wide_raster.rows.toNat - 1 - r) < d1.length ∧
         getPx d1 (c * wide_raster.rows.toNat + (wide_raster.rows.toNat - 1 - r))
           = getPx wide_pixels (r * wide_raster.cols.toNat + c)) ∧
       (∀ k, k < d1.length →
         ∃! p : Nat × Nat, p.1 < wide_raster.rows.toNat ∧ p.2 < wide_raster.cols.toNat ∧
           rot_index p.2 (rotate_right sample_fresh wide_raster).cols p.1 = k)) ∧
    ∀ p0 p1 p2 p3 p4 p5 : Pixel,
      rotate_right sample_fresh ⟨some [p0, p1, p2, p3, p4, p5], 2, 3⟩
        = ⟨some [p3, p0, p4, p1, p5, p2], 3, 2⟩) :=
  ⟨by unfold Image.holds; decide,
    rotate_right_post sample_fresh wide_raster wide_pixels (by unfold Image.holds; decide)⟩

/-- Witness of C15 on the 2x3 sample raster. -/
theorem rotate_right_four_witness :
    wide_raster.holds wide_pixels ∧
    (rotate_right sample_fresh (rotate_right sample_fresh (rotate_right sample_fresh (rotate_right sample_fresh wide_raster))) = wide_raster) :=
  ⟨by unfold Image.holds; decide,
    rotate_right_four sample_fresh sample_fresh sample_fresh sample_fresh wide_raster wide_pixels
      (by unfold Image.holds; decide)⟩

/-! ### The function `swirl` -/

theorem swirl_body_eq {F : Type} (ops : FloatOps F) (d : List Pixel) (rows cols : Int)
    (cx cy s : F) (nd : List Pixel) (r c : Nat) :
    swirl_body ops d rows cols cx cy s nd r c
      = nd.set (pix_index r cols c) (swirl_px ops d rows cols cx cy s r c) := by
  unfold swirl_body swirl_px
  simp only
  split
  · exact set3_eq _ _ _ _ _
  · exact set3_eq _ _ _ _ _

theorem swirl_eq_fill {F : Type} (ops : FloatOps F) (fresh : Nat → Pixel) (im : Image)
    (d : List Pixel) (h : im.holds d) (cx cy s : F) :
    swirl ops fresh im cx cy s =
      ⟨some (fill2 im.rows.toNat im.cols.toNat (fun r c => r * im.cols.toNat + c)
        (fun r c => swirl_px ops d im.rows im.cols (swirl_centre ops cx im.cols)
          (swirl_centre ops cy im.rows) s r c)
        (malloc_pixels fresh (im.rows.toNat * im.cols.toNat))), im.rows, im.cols⟩ := by
  obtain ⟨hd, hr, hc, _⟩ := h
  unfold swirl
  rw [hd]
  simp only [swirl_body_eq, pix_index_eq _ _ _ hc, toNat_mul _ _ hr hc]
  rfl

/-- The storage that a row-major loop nest fills. -/
theorem fill_rowmajor (R C : Nat) (val : Nat → Nat → Pixel) (fresh : Nat → Pixel) :
    (fill2 R C (fun r c => r * C + c) val (malloc_pixels fresh (R * C))).length = R * C ∧
    ∀ r c, r < R → c < C →
      getPx (fill2 R C (fun r c => r * C + c) val (malloc_pixels fresh (R * C))) (r * C + c)
        = val r c := by
  obtain ⟨f1, f2, _⟩ := fill2_spec R C (fun r c => r * C + c) val (malloc_pixels fresh (R * C))
    (fun r c r1 c1 _ hc _ hc1 hh => rowmajor_inj _ r c r1 c1 hc hc1 hh)
    (fun r c hr hc => by
      rw [length_malloc_pixels]
      exact rowmajor_lt _ _ r c hr hc)
  rw [length_malloc_pixels] at f1
  exact ⟨f1, f2⟩

theorem pix_indexZ_eq (a b : Int) (C r c : Nat) (ha : a = r) (hb : b = c) :
    pix_indexZ a (C : Int) b = r * C + c := by
  subst ha hb
  unfold pix_indexZ
  have : ((r : Int) * (C : Int) + (c : Int)) = ((r * C + c : Nat) : Int) := by push_cast; ring
  rw [this, Int.toNat_ofNat]

theorem rowmajor_split (R C k : Nat) (hk : k < R * C) :
    k / C < R ∧ k % C < C ∧ k = k / C * C + k % C := by
  have hC : 0 < C := by
    rcases Nat.eq_zero_or_pos C with h0 | h0
    · rw [h0, Nat.mul_zero] at hk
      omega
    · exact h0
  refine ⟨(Nat.div_lt_iff_lt_mul hC).mpr hk, Nat.mod_lt _ hC, ?_⟩
  rw [Nat.mul_comm]
  exact (Nat.div_add_mod k C).symm

/-- C16: on a raster with present storage, `swirl` gives a raster of the same rows and cols
with storage of that many pixels. With cx1 = cols/2 when cx compares equal to -1 and cx
otherwise, cy1 likewise from rows/2 and cy, alpha = sqrt(pow(c - cx1, 2) + pow(r - cy1, 2)) / s,
srcC = (c - cx1) * cos(alpha) - (r - cy1) * sin(alpha) + cx1 converted to `int` and
srcR = (c - cx1) * sin(alpha) + (r - cy1) * cos(alpha) + cy1 converted to `int`, the pixel
at (r,c) is black when srcC < 0 or srcC >= cols or srcR < 0 or srcR >= rows, and otherwise
the input pixel at (srcR, srcC), which lies inside the input. So every pixel of the result
is black or a pixel of the input. -/
theorem swirl_post {F : Type} (ops : FloatOps F) (fresh : Nat → Pixel) (im : Image)
    (d : List Pixel) (h : im.holds d) (cx cy s : F) :
    (swirl ops fresh im cx cy s).rows = im.rows ∧
    (swirl ops fresh im cx cy s).cols = im.cols ∧
    ∃ d1, (swirl ops fresh im cx cy s).holds d1 ∧
      (∀ (r c : Nat) (cx1 cy1 alpha : F) (srcR srcC : Int),
        r < im.rows.toNat → c < im.cols.toNat →
        cx1 = (if ops.eq cx (ops.ofInt (-1)) = true then ops.ofInt (Int.tdiv im.cols 2)
          else cx) →
        cy1 = (if ops.eq cy (ops.ofInt (-1)) = true then ops.ofInt (Int.tdiv im.rows 2)
          else cy) →
        alpha = ops.div
          (ops.sqrt (ops.add (ops.pow (ops.sub (ops.ofInt (c : Int)) cx1) (ops.ofInt 2))
            (ops.pow (ops.sub (ops.ofInt (r : Int)) cy1) (ops.ofInt 2)))) s →
        srcC = ops.toInt (ops.add
          (ops.sub (ops.mul (ops.sub (ops.ofInt (c : Int)) cx1) (ops.cos alpha))
            (ops.mul (ops.sub (ops.ofInt (r : Int)) cy1) (ops.sin alpha))) cx1) →
        srcR = ops.toInt (ops.add
          (ops.add (ops.mul (ops.sub (ops.ofInt (c : Int)) cx1) (ops.sin alpha))
            (ops.mul (ops.sub (ops.ofInt (r : Int)) cy1) (ops.cos alpha))) cy1) →
        ((srcC < 0 ∨ srcC ≥ im.cols ∨ srcR < 0 ∨ srcR ≥ im.rows) →
          getPx d1 (r * im.cols.toNat + c) = ⟨0, 0, 0⟩) ∧
        (¬ (srcC < 0 ∨ srcC ≥ im.cols ∨ srcR < 0 ∨ srcR ≥ im.rows) →
          srcR.toNat < im.rows.toNat ∧ srcC.toNat < im.cols.toNat ∧
          srcR.toNat * im.cols.toNat + srcC.toNat < d.length ∧
          getPx d1 (r * im.cols.toNat + c)
            = getPx d (srcR.toNat * im.cols.toNat + srcC.toNat))) ∧
      (∀ k, k < d1.length → getPx d1 k = ⟨0, 0, 0⟩ ∨ getPx d1 k ∈ d) := by
  rw [swirl_eq_fill ops fresh im d h]
  obtain ⟨hd, hr, hc, hlen⟩ := h
  obtain ⟨f1, f2⟩ := fill_rowmajor im.rows.toNat im.cols.toNat
    (fun r c => swirl_px ops d im.rows im.cols (swirl_centre ops cx im.cols)
      (swirl_centre ops cy im.rows) s r c) fresh
  have src : ∀ a b : Int, ¬ (b < 0 ∨ b ≥ im.cols ∨ a < 0 ∨ a ≥ im.rows) →
      a.toNat < im.rows.toNat ∧ b.toNat < im.cols.toNat ∧
      a.toNat * im.cols.toNat + b.toNat < d.length ∧
      pix_indexZ a im.cols b = a.toNat * im.cols.toNat + b.toNat := by
    intro a b hab
    have h1 : a.toNat < im.rows.toNat := by omega
    have h2 : b.toNat < im.cols.toNat := by omega
    refine ⟨h1, h2, by rw [hlen]; exact rowmajor_lt _ _ _ _ h1 h2, ?_⟩
    have e := pix_indexZ_eq a b im.cols.toNat a.toNat b.toNat (by omega) (by omega)
    rw [Int.toNat_of_nonneg hc] at e
    exact e
  refine ⟨rfl, rfl, _, ⟨rfl, hr, hc, f1⟩, ?_, ?_⟩
  · intro r c cx1 cy1 alpha srcR srcC hr0 hc0 e1 e2 e3 e4 e5
    subst e1 e2 e3
    have hC : srcC = swirl_newC ops (swirl_centre ops cx im.cols)
        (swirl_centre ops cy im.rows) s r c := e4
    have hR : srcR = swirl_newR ops (swirl_centre ops cx im.cols)
        (swirl_centre ops cy im.rows) s r c := e5
    rw [f2 r c hr0 hc0]
    simp only [swirl_px, ← hC, ← hR]
    constructor
    · intro hout
      rw [if_pos hout]
    · intro hin
      rw [if_neg hin]
      obtain ⟨s1, s2, s3, s4⟩ := src srcR srcC hin
      exact ⟨s1, s2, s3, by rw [s4]⟩
  · intro k hk
    rw [f1] at hk
    obtain ⟨k1, k2, k3⟩ := rowmajor_split _ _ k hk
    rw [k3, f2 _ _ k1 k2]
    simp only [swirl_px]
    split
    · exact Or.inl rfl
    · rename_i hin
      obtain ⟨_, _, s3, s4⟩ := src _ _ hin
      right
      rw [s4]
      exact getPx_mem d _ s3

theorem swirl_centre_minus_one {F : Type} (ops : FloatOps F) (dim : Int)
    (he : ops.eq (ops.ofInt (-1)) (ops.ofInt (-1)) = true) :
    swirl_centre ops (ops.ofInt (-1)) dim = ops.ofInt (Int.tdiv dim 2) := by
  simp [swirl_centre, he]

theorem swirl_centre_half {F : Type} (ops : FloatOps F) (dim : Int) :
    swirl_centre ops (ops.ofInt (Int.tdiv dim 2)) dim = ops.ofInt (Int.tdiv dim 2) := by
  unfold swirl_centre
  split <;> rfl

/-- C17: when -1 compares equal to itself, `swirl` with cx = -1 returns what `swirl` with
cx = cols/2 (truncating division) returns, for every cy, strength and raster, and `swirl`
with cy = -1 returns what `swirl` with cy = rows/2 returns, for every cx: each coordinate
is resolved by itself, before the loop. -/
theorem swirl_default_centre {F : Type} (ops : FloatOps F) (fresh : Nat → Pixel) (im : Image)
    (cx cy s : F) (he : ops.eq (ops.ofInt (-1)) (ops.ofInt (-1)) = true) :
    swirl ops fresh im (ops.ofInt (-1)) cy s
      = swirl ops fresh im (ops.ofInt (Int.tdiv im.cols 2)) cy s ∧
    swirl ops fresh im cx (ops.ofInt (-1)) s
      = swirl ops fresh im cx (ops.ofInt (Int.tdiv im.rows 2)) s := by
  constructor
  · unfold swirl
    simp only [swirl_centre_minus_one ops _ he, swirl_centre_half]
  · unfold swirl
    simp only [swirl_centre_minus_one ops _ he, swirl_centre_half]

/-- The two source coordinates at the centre pixel are the centre itself. -/
theorem swirl_src_centre {F : Type} (ops : FloatOps F) (Z : F → Prop) (laws : ZeroLaws ops Z)
    (s : F) (hs : ∀ z, Z z → Z (ops.div z s)) (r0 c0 : Nat)
    (hr : (r0 : Int) < 2 ^ 31) (hc : (c0 : Int) < 2 ^ 31) :
    swirl_newC ops (ops.ofInt c0) (ops.ofInt r0) s r0 c0 = c0 ∧
    swirl_newR ops (ops.ofInt c0) (ops.ofInt r0) s r0 c0 = r0 := by
  have zc := laws.sub_self c0
  have zr := laws.sub_self r0
  have za : Z (swirl_alpha ops (ops.ofInt c0) (ops.ofInt r0) s r0 c0) :=
    hs _ (laws.sqrt_zero _ (laws.add_zero _ _ (laws.pow_two _ zc) (laws.pow_two _ zr)))
  have zsin := laws.sin_zero _ za
  have hcos := laws.cos_zero _ za
  constructor
  · unfold swirl_newC
    rw [hcos]
    exact laws.toInt_add _ _
      (laws.sub_zero _ _ (laws.mul_one _ zc) (laws.mul_zero _ _ zr zsin))
      (Int.ofNat_nonneg _) hc
  · unfold swirl_newR
    rw [hcos]
    exact laws.toInt_add _ _
      (laws.add_zero _ _ (laws.mul_zero _ _ zc zsin) (laws.mul_one _ zr))
      (Int.ofNat_nonneg _) hr

/-- C18: on a raster with present storage and `int` dimensions, for an arithmetic that
obeys the facts about zeros and a strength `s` by which a zero divided is a zero, `swirl`
with the centre at the in-bounds position (r0, c0) leaves the pixel at (r0, c0) equal to
the input pixel at (r0, c0). -/
theorem swirl_fixes_centre {F : Type} (ops : FloatOps F) (Z : F → Prop)
    (laws : ZeroLaws ops Z) (fresh : Nat → Pixel) (im : Image) (d : List Pixel)
    (h : im.holds d) (hrows : im.rows < 2 ^ 31) (hcols : im.cols < 2 ^ 31)
    (s : F) (hs : ∀ z, Z z → Z (ops.div z s))
    (r0 c0 : Nat) (hr : r0 < im.rows.toNat) (hc : c0 < im.cols.toNat) :
    ∃ d1, (swirl ops fresh im (ops.ofInt c0) (ops.ofInt r0) s).data = some d1 ∧
      getPx d1 (r0 * im.cols.toNat + c0) = getPx d (r0 * im.cols.toNat + c0) := by
  rw [swirl_eq_fill ops fresh im d h]
  obtain ⟨hd, hr1, hc1, hlen⟩ := h
  obtain ⟨_, f2⟩ := fill_rowmajor im.rows.toNat im.cols.toNat
    (fun r c => swirl_px ops d im.rows im.cols (swirl_centre ops (ops.ofInt c0) im.cols)
      (swirl_centre ops (ops.ofInt r0) im.rows) s r c) fresh
  refine ⟨_, rfl, ?_⟩
  rw [f2 r0 c0 hr hc]
  have hr2 : (r0 : Int) < 2 ^ 31 := by omega
  have hc2 : (c0 : Int) < 2 ^ 31 := by omega
  have ex : swirl_centre ops (ops.ofInt c0) im.cols = ops.ofInt c0 := by
    simp [swirl_centre, laws.ne_minus_one c0 (Int.ofNat_nonneg _) hc2]
  have ey : swirl_centre ops (ops.ofInt r0) im.rows = ops.ofInt r0 := by
    simp [swirl_centre, laws.ne_minus_one r0 (Int.ofNat_nonneg _) hr2]
  obtain ⟨e1, e2⟩ := swirl_src_centre ops Z laws s hs r0 c0 hr2 hc2
  simp only [swirl_px, ex, ey, e1, e2]
  rw [if_neg (by omega)]
  have e := pix_indexZ_eq (r0 : Int) (c0 : Int) im.cols.toNat r0 c0 rfl rfl
  rw [Int.toNat_of_nonneg hc1] at e
  rw [e]

theorem intOps_laws : ZeroLaws intOps (fun x => x = 0) :=
  ⟨fun a => by simp [intOps],
   fun x y hx hy => by subst hx hy; rfl,
   fun x y hx hy => by subst hx hy; rfl,
   fun x y hx hy => by subst hx hy; rfl,
   fun x hx => by subst hx; rfl,
   fun x hx => by subst hx; rfl,
   fun x hx => by subst hx; rfl,
   fun x hx => by subst hx; rfl,
   fun x hx => by subst hx; rfl,
   fun x a hx _ _ => by subst hx; simp [intOps],
   fun a h0 _ => by
    simp only [intOps, id, decide_eq_false_iff_not]
    omega⟩

theorem intOps_div_zero (s : Int) : ∀ z : Int, z = 0 → intOps.div z s = 0 := by
  intro z hz
  subst hz
  simp [intOps]

/-- Witness of C16 on the 3x3 sample raster, centre (1,1) and strength 1. -/
theorem swirl_post_witness :
    sample_raster.holds sample_pixels ∧
    ((swirl intOps sample_fresh sample_raster (1 : Int) (1 : Int) (1 : Int)).rows = sample_raster.rows ∧
    (swirl intOps sample_fresh sample_raster (1 : Int) (1 : Int) (1 : Int)).cols = sample_raster.cols ∧
    ∃ d1, (swirl intOps sample_fresh sample_raster (1 : Int) (1 : Int) (1 : Int)).holds d1 ∧
      (∀ (r c : Nat) (cx1 cy1 alpha : Int) (srcR srcC : Int),
        r < sample_raster.rows.toNat → c < sample_raster.cols.toNat →
        cx1 = (if intOps.eq (1 : Int) (intOps.ofInt (-1)) = true then intOps.ofInt (Int.tdiv sample_raster.cols 2)
          else (1 : Int)) →
        cy1 = (if intOps.eq (1 : Int) (intOps.ofInt (-1)) = true then intOps.ofInt (Int.tdiv sample_raster.rows 2)
          else (1 : Int)) →
        alpha = intOps.div
          (intOps.sqrt (intOps.add (intOps.pow (intOps.sub (intOps.ofInt (c : Int)) cx1) (intOps.ofInt 2))
            (intOps.pow (intOps.sub (intOps.ofInt (r : Int)) cy1) (intOps.ofInt 2)))) (1 : Int) →
        srcC = intOps.toInt (intOps.add
          (intOps.sub (intOps.mul (intOps.sub (intOps.ofInt (c : Int)) cx1) (intOps.cos alpha))
            (intOps.mul (intOps.sub (intOps.ofInt (r : Int)) cy1) (intOps.sin alpha))) cx1) →
        srcR = intOps.toInt (intOps.add
          (intOps.add (intOps.mul (intOps.sub (intOps.ofInt (c : Int)) cx1) (intOps.sin alpha))
            (intOps.mul (intOps.sub (intOps.ofInt (r : Int)) cy1) (intOps.cos alpha))) cy1) →
        ((srcC < 0 ∨ srcC ≥ sample_raster.cols ∨ srcR < 0 ∨ srcR ≥ sample_raster.rows) →
          getPx d1 (r * sample_raster.cols.toNat + c) = ⟨0, 0, 0⟩) ∧
        (¬ (srcC < 0 ∨ srcC ≥ sample_raster.cols ∨ srcR < 0 ∨ srcR ≥ sample_raster.rows) →
          srcR.toNat < sample_raster.rows.toNat ∧ srcC.toNat < sample_raster.cols.toNat ∧
          srcR.toNat * sample_raster.cols.toNat + srcC.toNat < sample_pixels.length ∧
          getPx d1 (r * sample_raster.cols.toNat + c)
            = getPx sample_pixels (srcR.toNat * sample_raster.cols.toNat + srcC.toNat))) ∧
      (∀ k, k < d1.length → getPx d1 k = ⟨0, 0, 0⟩ ∨ getPx d1 k ∈ sample_pixels)) :=
  ⟨by unfold Image.holds; decide,
    swirl_post intOps sample_fresh sample_raster sample_pixels (by unfold Image.holds; decide)
      1 1 1⟩

/-- Witness of C17 on the 3x3 sample raster. -/
theorem swirl_default_centre_witness :
    intOps.eq (intOps.ofInt (-1)) (intOps.ofInt (-1)) = true ∧
    (swirl intOps sample_fresh sample_raster (intOps.ofInt (-1)) (2 : Int) (1 : Int)
      = swirl intOps sample_fresh sample_raster (intOps.ofInt (Int.tdiv sample_raster.cols 2)) (2 : Int) (1 : Int) ∧
    swirl intOps sample_fresh sample_raster (0 : Int) (intOps.ofInt (-1)) (1 : Int)
      = swirl intOps sample_fresh sample_raster (0 : Int) (intOps.ofInt (Int.tdiv sample_raster.rows 2)) (1 : Int)) :=
  ⟨by decide,
    swirl_default_centre intOps sample_fresh sample_raster 0 2 1 (by decide)⟩

/-- Witness of C18 on the 3x3 sample raster, at row 2, column 0, with strength 1. -/
theorem swirl_fixes_centre_witness :
    ZeroLaws intOps (fun x => x = 0) ∧
    sample_raster.holds sample_pixels ∧
    sample_raster.rows < 2 ^ 31 ∧
    sample_raster.cols < 2 ^ 31 ∧
    (∀ z : Int, z = 0 → intOps.div z 1 = 0) ∧
    2 < sample_raster.rows.toNat ∧
    0 < sample_raster.cols.toNat ∧
    (∃ d1, (swirl intOps sample_fresh sample_raster (intOps.ofInt 0) (intOps.ofInt 2) (1 : Int)).data = some d1 ∧
      getPx d1 (2 * sample_raster.cols.toNat + 0) = getPx sample_pixels (2 * sample_raster.cols.toNat + 0)) :=
  ⟨intOps_laws,
    by unfold Image.holds; decide,
    by decide,
    by decide,
    intOps_div_zero 1,
    by decide,
    by decide,
    swirl_fixes_centre intOps (fun x => x = 0) intOps_laws sample_fresh sample_raster
      sample_pixels (by unfold Image.holds; decide) (by decide) (by decide) 1 (intOps_div_zero 1) 2 0
      (by decide) (by decide)⟩

/-! ### The function `edges` -/

theorem edges_body_eq {F : Type} (ops : FloatOps F) (g : List Pixel) (rows cols : Int)
    (t : F) (nd : List Pixel) (r c : Nat) :
    edges_body ops g rows cols t nd r c
      = nd.set (pix_index r cols c) (edges_px ops g rows cols t r c) := by
  unfold edges_body edges_px
  simp only
  split
  · exact set3_eq _ _ _ _ _
  · split
    · exact set3_eq _ _ _ _ _
    · exact set3_eq _ _ _ _ _

theorem edges_eq_fill {F : Type} (ops : FloatOps F) (fresh : Nat → Pixel) (im : Image)
    (d : List Pixel) (h : im.holds d) (t : F) :
    edges ops fresh im t =
      ⟨some (fill2 im.rows.toNat im.cols.toNat (fun r c => r * im.cols.toNat + c)
        (fun r c => edges_px ops (d.map gray_px) im.rows im.cols t r c)
        (malloc_pixels fresh (im.rows.toNat * im.cols.toNat))), im.rows, im.cols⟩ := by
  have hg := grayscale_eq_map im d h
  obtain ⟨hd, hr, hc, _⟩ := h
  unfold edges
  rw [hd]
  simp only
  rw [hg]
  simp only [edges_body_eq, pix_index_eq _ _ _ hc, toNat_mul _ _ hr hc]
  rfl

/-- The grey level that `grayscale` leaves at row `r` and column `c`. -/
theorem gray_at (d : List Pixel) (R C r c : Nat) (hlen : d.length = R * C) (hr : r < R)
    (hc : c < C) :
    getPx (d.map gray_px) (r * C + c)
      = ⟨pixel_to_gray (getPx d (r * C + c)), pixel_to_gray (getPx d (r * C + c)),
         pixel_to_gray (getPx d (r * C + c))⟩ := by
  rw [getPx_map _ _ _ (by rw [hlen]; exact rowmajor_lt R C r c hr hc)]
  rfl

theorem edges_px_boundary {F : Type} (ops : FloatOps F) (im : Image) (d : List Pixel)
    (h : im.holds d) (t : F) (r c : Nat) (hr : r < im.rows.toNat) (hc : c < im.cols.toNat)
    (hb : r = 0 ∨ r + 1 = im.rows.toNat ∨ c = 0 ∨ c + 1 = im.cols.toNat) :
    edges_px ops (d.map gray_px) im.rows im.cols t r c
      = ⟨pixel_to_gray (getPx d (r * im.cols.toNat + c)),
         pixel_to_gray (getPx d (r * im.cols.toNat + c)),
         pixel_to_gray (getPx d (r * im.cols.toNat + c))⟩ := by
  obtain ⟨_, hr0, hc0, hlen⟩ := h
  unfold edges_px
  rw [if_pos (by omega), pix_index_eq _ _ _ hc0, gray_at d _ _ r c hlen hr hc]

theorem edges_px_interior {F : Type} (ops : FloatOps F) (im : Image) (d : List Pixel)
    (h : im.holds d) (t : F) (r c : Nat) (hr : 0 < r) (hr1 : r + 1 < im.rows.toNat)
    (hc : 0 < c) (hc1 : c + 1 < im.cols.toNat) :
    edges_px ops (d.map gray_px) im.rows im.cols t r c
      = if ops.lt (gradient_magnitude ops
          ((pixel_to_gray (getPx d (r * im.cols.toNat + (c - 1))) : Int)
            - (pixel_to_gray (getPx d ((r + 1) * im.cols.toNat + (c + 1))) : Int))
          ((pixel_to_gray (getPx d ((r - 1) * im.cols.toNat + c)) : Int)
            - (pixel_to_gray (getPx d ((r + 1) * im.cols.toNat + c)) : Int))) t = true
        then ⟨255, 255, 255⟩ else ⟨0, 0, 0⟩ := by
  obtain ⟨_, hr0, hc0, hlen⟩ := h
  have pz : ∀ (a b : Int) (r1 c1 : Nat), a = r1 → b = c1 →
      pix_indexZ a im.cols b = r1 * im.cols.toNat + c1 := by
    intro a b r1 c1 ha hb
    have e := pix_indexZ_eq a b im.cols.toNat r1 c1 ha hb
    rw [Int.toNat_of_nonneg hc0] at e
    exact e
  unfold edges_px
  rw [if_neg (by omega)]
  rw [pz (r : Int) ((c : Int) - 1) r (c - 1) rfl (by omega),
    pz ((r : Int) + 1) ((c : Int) + 1) (r + 1) (c + 1) (by omega) (by omega),
    pz ((r : Int) - 1) (c : Int) (r - 1) c (by omega) rfl,
    pz ((r : Int) + 1) (c : Int) (r + 1) c (by omega) rfl,
    gray_at d _ _ r (c - 1) hlen (by omega) (by omega),
    gray_at d _ _ (r + 1) (c + 1) hlen (by omega) (by omega),
    gray_at d _ _ (r - 1) c hlen (by omega) (by omega),
    gray_at d _ _ (r + 1) c hlen (by omega) (by omega)]

/-- C19: on a raster with present storage, `edges` gives a raster of the same rows and cols
with storage of that many pixels. With I(r,c) the value of `pixel_to_gray` on the input
pixel at (r,c): a position with r = 0, r = rows-1, c = 0 or c = cols-1 holds (I,I,I) for
I = I(r,c); any other position holds white when the magnitude computed from the integer
differences I(r,c-1) - I(r+1,c+1) and I(r-1,c) - I(r+1,c), each halved, squared, the
squares added and the square root taken, compares below the threshold, and black
otherwise. -/
theorem edges_post {F : Type} (ops : FloatOps F) (fresh : Nat → Pixel) (im : Image)
    (d : List Pixel) (h : im.holds d) (t : F) :
    (edges ops fresh im t).rows = im.rows ∧ (edges ops fresh im t).cols = im.cols ∧
    ∃ d1, (edges ops fresh im t).holds d1 ∧
      (∀ r c, r < im.rows.toNat → c < im.cols.toNat →
        (r = 0 ∨ r + 1 = im.rows.toNat ∨ c = 0 ∨ c + 1 = im.cols.toNat) →
        getPx d1 (r * im.cols.toNat + c)
          = ⟨pixel_to_gray (getPx d (r * im.cols.toNat + c)),
             pixel_to_gray (getPx d (r * im.cols.toNat + c)),
             pixel_to_gray (getPx d (r * im.cols.toNat + c))⟩) ∧
      (∀ r c, 0 < r → r + 1 < im.rows.toNat → 0 < c → c + 1 < im.cols.toNat →
        getPx d1 (r * im.cols.toNat + c)
          = if ops.lt (ops.sqrt (ops.add
              (ops.pow (ops.div (ops.ofInt
                ((pixel_to_gray (getPx d (r * im.cols.toNat + (c - 1))) : Int)
                  - (pixel_to_gray (getPx d ((r + 1) * im.cols.toNat + (c + 1))) : Int)))
                (ops.ofInt 2)) (ops.ofInt 2))
              (ops.pow (ops.div (ops.ofInt
                ((pixel_to_gray (getPx d ((r - 1) * im.cols.toNat + c)) : Int)
                  - (pixel_to_gray (getPx d ((r + 1) * im.cols.toNat + c)) : Int)))
                (ops.ofInt 2)) (ops.ofInt 2)))) t = true
            then ⟨255, 255, 255⟩ else ⟨0, 0, 0⟩) := by
  rw [edges_eq_fill ops fresh im d h]
  obtain ⟨f1, f2⟩ := fill_rowmajor im.rows.toNat im.cols.toNat
    (fun r c => edges_px ops (d.map gray_px) im.rows im.cols t r c) fresh
  refine ⟨rfl, rfl, _, ⟨rfl, h.2.1, h.2.2.1, f1⟩, ?_, ?_⟩
  · intro r c hr hc hb
    rw [f2 r c hr hc]
    exact edges_px_boundary ops im d h t r c hr hc hb
  · intro r c hr hr1 hc hc1
    rw [f2 r c (by omega) (by omega)]
    exact edges_px_interior ops im d h t r c hr hr1 hc hc1

/-- C20: on a raster with present storage whose pixels are all the colour `p`, for an
arithmetic in which the magnitude of the zero gradient is zero and a threshold above zero,
`edges` gives a raster in which every interior pixel is white and every boundary pixel is
(g,g,g) with g the value of `pixel_to_gray` on `p`. -/
theorem edges_uniform {F : Type} (ops : FloatOps F) (fresh : Nat → Pixel) (im : Image)
    (d : List Pixel) (h : im.holds d) (p : Pixel) (hu : ∀ q ∈ d, q = p) (t : F)
    (hmag : gradient_magnitude ops 0 0 = ops.ofInt 0)
    (ht : ops.lt (ops.ofInt 0) t = true) :
    ∃ d1, (edges ops fresh im t).holds d1 ∧
      (∀ r c, r < im.rows.toNat → c < im.cols.toNat →
        (r = 0 ∨ r + 1 = im.rows.toNat ∨ c = 0 ∨ c + 1 = im.cols.toNat) →
        getPx d1 (r * im.cols.toNat + c)
          = ⟨pixel_to_gray p, pixel_to_gray p, pixel_to_gray p⟩) ∧
      (∀ r c, 0 < r → r + 1 < im.rows.toNat → 0 < c → c + 1 < im.cols.toNat →
        getPx d1 (r * im.cols.toNat + c) = ⟨255, 255, 255⟩) := by
  rw [edges_eq_fill ops fresh im d h]
  obtain ⟨f1, f2⟩ := fill_rowmajor im.rows.toNat im.cols.toNat
    (fun r c => edges_px ops (d.map gray_px) im.rows im.cols t r c) fresh
  have hp : ∀ r c, r < im.rows.toNat → c < im.cols.toNat →
      getPx d (r * im.cols.toNat + c) = p := fun r c hr hc =>
    hu _ (getPx_mem d _ (by rw [h.2.2.2]; exact rowmajor_lt _ _ r c hr hc))
  refine ⟨_, ⟨rfl, h.2.1, h.2.2.1, f1⟩, ?_, ?_⟩
  · intro r c hr hc hb
    rw [f2 r c hr hc, edges_px_boundary ops im d h t r c hr hc hb, hp r c hr hc]
  · intro r c hr hr1 hc hc1
    rw [f2 r c (by omega) (by omega), edges_px_interior ops im d h t r c hr hr1 hc hc1,
      hp r (c - 1) (by omega) (by omega), hp (r + 1) (c + 1) (by omega) (by omega),
      hp (r - 1) c (by omega) (by omega), hp (r + 1) c (by omega) (by omega),
      Int.sub_self, hmag, ht]
    rfl

/-- Witness of C19 on the 3x3 sample raster with threshold 50. -/
theorem edges_post_witness :
    sample_raster.holds sample_pixels ∧
    ((edges intOps sample_fresh sample_raster (50 : Int)).rows = sample_raster.rows ∧ (edges intOps sample_fresh sample_raster (50 : Int)).cols = sample_raster.cols ∧
    ∃ d1, (edges intOps sample_fresh sample_raster (50 : Int)).holds d1 ∧
      (∀ r c, r < sample_raster.rows.toNat → c < sample_raster.cols.toNat →
        (r = 0 ∨ r + 1 = sample_raster.rows.toNat ∨ c = 0 ∨ c + 1 = sample_raster.cols.toNat) →
        getPx d1 (r * sample_raster.cols.toNat + c)
          = ⟨pixel_to_gray (getPx sample_pixels (r * sample_raster.cols.toNat + c)),
             pixel_to_gray (getPx sample_pixels (r * sample_raster.cols.toNat + c)),
             pixel_to_gray (getPx sample_pixels (r * sample_raster.cols.toNat + c))⟩) ∧
      (∀ r c, 0 < r → r + 1 < sample_raster.rows.toNat → 0 < c → c + 1 < sample_raster.cols.toNat →
        getPx d1 (r * sample_raster.cols.toNat + c)
          = if intOps.lt (intOps.sqrt (intOps.add
              (intOps.pow (intOps.div (intOps.ofInt
                ((pixel_to_gray (getPx sample_pixels (r * sample_raster.cols.toNat + (c - 1))) : Int)
                  - (pixel_to_gray (getPx sample_pixels ((r + 1) * sample_raster.cols.toNat + (c + 1))) : Int)))
                (intOps.ofInt 2)) (intOps.ofInt 2))
              (intOps.pow (intOps.div (intOps.ofInt
                ((pixel_to_gray (getPx sample_pixels ((r - 1) * sample_raster.cols.toNat + c)) : Int)
                  - (pixel_to_gray (getPx sample_pixels ((r + 1) * sample_raster.cols.toNat + c)) : Int)))
                (intOps.ofInt 2)) (intOps.ofInt 2)))) (50 : Int) = true
            then ⟨255, 255, 255⟩ else ⟨0, 0, 0⟩)) :=
  ⟨by unfold Image.holds; decide,
    edges_post intOps sample_fresh sample_raster sample_pixels (by unfold Image.holds; decide) 50⟩

/-- Witness of C20 on the 3x3 raster of one colour with threshold 1. -/
theorem edges_uniform_witness :
    uniform_raster.holds uniform_pixels ∧
    (∀ q ∈ uniform_pixels, q = (⟨10, 20, 30⟩ : Pixel)) ∧
    gradient_magnitude intOps 0 0 = intOps.ofInt 0 ∧
    intOps.lt (intOps.ofInt 0) 1 = true ∧
    (∃ d1, (edges intOps sample_fresh uniform_raster (1 : Int)).holds d1 ∧
      (∀ r c, r < uniform_raster.rows.toNat → c < uniform_raster.cols.toNat →
        (r = 0 ∨ r + 1 = uniform_raster.rows.toNat ∨ c = 0 ∨ c + 1 = uniform_raster.cols.toNat) →
        getPx d1 (r * uniform_raster.cols.toNat + c)
          = ⟨pixel_to_gray (⟨10, 20, 30⟩ : Pixel), pixel_to_gray (⟨10, 20, 30⟩ : Pixel), pixel_to_gray (⟨10, 20, 30⟩ : Pixel)⟩) ∧
      (∀ r c, 0 < r → r + 1 < uniform_raster.rows.toNat → 0 < c → c + 1 < uniform_raster.cols.toNat →
        getPx d1 (r * uniform_raster.cols.toNat + c) = ⟨255, 255, 255⟩)) :=
  ⟨by unfold Image.holds; decide,
    by decide,
    by decide,
    by decide,
    edges_uniform intOps sample_fresh uniform_raster uniform_pixels
      (by unfold Image.holds; decide) ⟨10, 20, 30⟩ (by decide) 1 (by decide) (by decide)⟩

/-! ### Rasters without storage -/

/-- C21: each of `grayscale`, `swap`, `invert`, `zoom_out`, `rotate_right`, `swirl` and
`edges`, given a raster with a null pixel pointer, prints its error message and returns the
raster with the same rows, cols and null pointer; given a raster with storage it prints
nothing. -/
theorem bad_image_reported {F : Type} (ops : FloatOps F) (fresh : Nat → Pixel)
    (rows cols : Int) (d : List Pixel) (cx cy s t : F) :
    (grayscale ⟨none, rows, cols⟩ = ⟨none, rows, cols⟩ ∧
     swap ⟨none, rows, cols⟩ = ⟨none, rows, cols⟩ ∧
     invert ⟨none, rows, cols⟩ = ⟨none, rows, cols⟩ ∧
     zoom_out fresh ⟨none, rows, cols⟩ = ⟨none, rows, cols⟩ ∧
     rotate_right fresh ⟨none, rows, cols⟩ = ⟨none, rows, cols⟩ ∧
     swirl ops fresh ⟨none, rows, cols⟩ cx cy s = ⟨none, rows, cols⟩ ∧
     edges ops fresh ⟨none, rows, cols⟩ t = ⟨none, rows, cols⟩) ∧
    (grayscale_stderr ⟨none, rows, cols⟩
       = ["Error:image_manip - grayscale given a bad image pointer\n"] ∧
     swap_stderr ⟨none, rows, cols⟩
       = ["Error:image_manip - swap given a bad image pointer\n"] ∧
     invert_stderr ⟨none, rows, cols⟩
       = ["Error:image_manip - invert given a bad image pointer\n"] ∧
     zoom_out_stderr ⟨none, rows, cols⟩
       = ["Error:image_manip - zoom_out given a bad image pointer\n"] ∧
     rotate_right_stderr ⟨none, rows, cols⟩
       = ["Error:image_manip - rotate_right given a bad image pointer\n"] ∧
     swirl_stderr ⟨none, rows, cols⟩
       = ["Error:image_manip - swirl given a bad image pointer\n"] ∧
     edges_stderr ⟨none, rows, cols⟩
       = ["Error:image_manip - edges given a bad image pointer\n"]) ∧
    (grayscale_stderr ⟨some d, rows, cols⟩ = [] ∧
     swap_stderr ⟨some d, rows, cols⟩ = [] ∧
     invert_stderr ⟨some d, rows, cols⟩ = [] ∧
     zoom_out_stderr ⟨some d, rows, cols⟩ = [] ∧
     rotate_right_stderr ⟨some d, rows, cols⟩ = [] ∧
     swirl_stderr ⟨some d, rows, cols⟩ = [] ∧
     edges_stderr ⟨some d, rows, cols⟩ = []) :=
  ⟨⟨rfl, rfl, rfl, rfl, rfl, rfl, rfl⟩, ⟨rfl, rfl, rfl, rfl, rfl, rfl, rfl⟩,
    ⟨rfl, rfl, rfl, rfl, rfl, rfl, rfl⟩⟩

/-! ### The function `main` -/

/-- The claim C22 fails for the strength text `0`: with a stream that decodes and an output
that opens, `main` passes every check, calls `swirl` with the strength 0 and returns 0. -/
theorem main_swirl_zero_counterexample :
    atoi str_0 = 0 ∧
    (main intOps sample_fresh []
        [str_name, str_name, str_name, str_swirl, [49], [49], str_0]
        (some one_pixel_ppm) (some 100)).map (fun o => (o.code, o.calls))
      = some (0, [Call.swirl (intOps.ofInt 1) (intOps.ofInt 1) (intOps.ofInt 0)]) := by
  decide

/-- C22, amended: when the input decodes and the output opens, a command line
`<in> <out> swirl <cx> <cy> <strength>` whose strength `atoi` reads as 0 and whose text is
not `0` makes `main` return 6 with no transform called, nothing written and the raster as
read. -/
theorem main_swirl_rejects {F : Type} (ops : FloatOps F) (fresh : Nat → Pixel)
    (tag0 a0 a1 a2 cx cy s inputF : List Nat) (room : Nat) (input : Image)
    (hread : read_ppm tag0 inputF = some input)
    (hs : atoi s = 0) (hs0 : strcmp_eq s str_0 = false) :
    main ops fresh tag0 [a0, a1, a2, str_swirl, cx, cy, s] (some inputF) (some room)
      = some ⟨6, some ⟨[], room⟩, [], some input⟩ := by
  have e1 : strcmp_eq str_swirl str_swap = false := by decide
  have e2 : strcmp_eq str_swirl str_invert = false := by decide
  have e3 : strcmp_eq str_swirl str_zoom_out = false := by decide
  have e4 : strcmp_eq str_swirl str_rotate_right = false := by decide
  have e5 : strcmp_eq str_swirl str_swirl = true := by decide
  unfold main
  simp only [hread, List.length_cons, List.length_nil, List.getElem?_cons_succ,
    List.getElem?_cons_zero, e1, e2, e3, e4, e5, List.getD_cons_succ, List.getD_cons_zero, hs,
    hs0]
  simp

/-- Witness of the amended C22 with the strength text `00`. -/
theorem main_swirl_rejects_witness :
    read_ppm [] one_pixel_ppm = some ⟨some [⟨1, 2, 3⟩], 1, 1⟩ ∧
    atoi [48, 48] = 0 ∧ strcmp_eq [48, 48] str_0 = false ∧
    main intOps sample_fresh [] [str_name, str_name, str_name, str_swirl, [49], [49], [48, 48]]
        (some one_pixel_ppm) (some 100)
      = some ⟨6, some ⟨[], 100⟩, [], some ⟨some [⟨1, 2, 3⟩], 1, 1⟩⟩ :=
  ⟨by decide, by decide, by decide,
    main_swirl_rejects intOps sample_fresh [] str_name str_name str_name [49] [49] [48, 48]
      one_pixel_ppm 100 ⟨some [⟨1, 2, 3⟩], 1, 1⟩ (by decide) (by decide) (by decide)⟩

/-- C23 fails for five of the six commands: on a stream that decodes to a 1x1 raster, with
an output that opens, `main` returns 0 for `swap`, `invert`, `zoom-out`, `swirl 0 0 1` and
`edge-detection 1` after calling the transform, and the output stream holds no byte, while
`write_ppm` of the transformed raster is not empty; for `rotate-right` the output holds
what `write_ppm` gives for the rotated raster. -/
theorem main_writes_only_rotate_right :
    (main intOps sample_fresh [] [str_name, str_name, str_name, str_swap]
        (some one_pixel_ppm) (some 100)
      = some ⟨0, some ⟨[], 100⟩, [Call.swap], some (swap ⟨some [⟨1, 2, 3⟩], 1, 1⟩)⟩ ∧
     (write_ppm ⟨[], 100⟩ (swap ⟨some [⟨1, 2, 3⟩], 1, 1⟩)).1.out
      = [80, 54, 10, 49, 32, 49, 10, 50, 53, 53, 10, 2, 3, 1]) ∧
    (main intOps sample_fresh [] [str_name, str_name, str_name, str_invert]
        (some one_pixel_ppm) (some 100)).map (fun o => (o.code, o.output, o.calls))
      = some (0, some ⟨[], 100⟩, [Call.invert]) ∧
    (main intOps sample_fresh [] [str_name, str_name, str_name, str_zoom_out]
        (some one_pixel_ppm) (some 100)).map (fun o => (o.code, o.output, o.calls))
      = some (0, some ⟨[], 100⟩, [Call.zoom_out]) ∧
    (main intOps sample_fresh [] [str_name, str_name, str_name, str_swirl, str_0, str_0, [49]]
        (some one_pixel_ppm) (some 100)).map (fun o => (o.code, o.output, o.calls))
      = some (0, some ⟨[], 100⟩,
          [Call.swirl (intOps.ofInt 0) (intOps.ofInt 0) (intOps.ofInt 1)]) ∧
    (main intOps sample_fresh [] [str_name, str_name, str_name, str_edge_detection, [49]]
        (some one_pixel_ppm) (some 100)).map (fun o => (o.code, o.output, o.calls))
      = some (0, some ⟨[], 100⟩, [Call.edges (intOps.ofInt 1)]) ∧
    (main intOps sample_fresh [] [str_name, str_name, str_name, str_rotate_right]
        (some one_pixel_ppm) (some 100)).map (fun o => (o.code, o.output, o.calls))
      = some (0, some (write_ppm ⟨[], 100⟩
          (rotate_right sample_fresh ⟨some [⟨1, 2, 3⟩], 1, 1⟩)).1, [Call.rotate_right]) :=
  ⟨⟨by decide, by decide⟩, by decide, by decide, by decide, by decide, by decide⟩

/-! ### The raster invariant -/

theorem zoom_out_holds (fresh : Nat → Pixel) (im : Image) (d : List Pixel) (h : im.holds d) :
    ∃ d1, (zoom_out fresh im).holds d1 ∧ (zoom_out fresh im).rows = Int.tdiv im.rows 2 ∧
      (zoom_out fresh im).cols = Int.tdiv im.cols 2 := by
  rw [zoom_out_eq_fill fresh im d h]
  obtain ⟨_, hr, hc, _⟩ := h
  obtain ⟨hr1, hr2⟩ := tdiv_two _ hr
  obtain ⟨hc1, hc2⟩ := tdiv_two _ hc
  obtain ⟨f1, _⟩ := fill_rowmajor (im.rows.toNat / 2) (im.cols.toNat / 2)
    (fun r c => zoom_px d im.cols r c) fresh
  exact ⟨_, ⟨rfl, hr1, hc1, by simp only [f1, hr2, hc2]⟩, rfl, rfl⟩

theorem swirl_holds {F : Type} (ops : FloatOps F) (fresh : Nat → Pixel) (im : Image)
    (d : List Pixel) (h : im.holds d) (cx cy s : F) :
    ∃ d1, (swirl ops fresh im cx cy s).holds d1 ∧ (swirl ops fresh im cx cy s).rows = im.rows ∧
      (swirl ops fresh im cx cy s).cols = im.cols := by
  rw [swirl_eq_fill ops fresh im d h]
  obtain ⟨f1, _⟩ := fill_rowmajor im.rows.toNat im.cols.toNat
    (fun r c => swirl_px ops d im.rows im.cols (swirl_centre ops cx im.cols)
      (swirl_centre ops cy im.rows) s r c) fresh
  exact ⟨_, ⟨rfl, h.2.1, h.2.2.1, f1⟩, rfl, rfl⟩

theorem edges_holds {F : Type} (ops : FloatOps F) (fresh : Nat → Pixel) (im : Image)
    (d : List Pixel) (h : im.holds d) (t : F) :
    ∃ d1, (edges ops fresh im t).holds d1 ∧ (edges ops fresh im t).rows = im.rows ∧
      (edges ops fresh im t).cols = im.cols := by
  rw [edges_eq_fill ops fresh im d h]
  obtain ⟨f1, _⟩ := fill_rowmajor im.rows.toNat im.cols.toNat
    (fun r c => edges_px ops (d.map gray_px) im.rows im.cols t r c) fresh
  exact ⟨_, ⟨rfl, h.2.1, h.2.2.1, f1⟩, rfl, rfl⟩

theorem tdiv_two_pos (n : Int) (h : 0 ≤ n) : 0 < Int.tdiv n 2 ↔ 2 ≤ n := by
  obtain ⟨k, rfl⟩ := Int.eq_ofNat_of_zero_le h
  have : Int.tdiv (k : Int) 2 = ((k / 2 : Nat) : Int) := rfl
  rw [this]
  omega

/-- The claim C24 fails for `zoom_out`: a raster of one row and one column satisfies the
invariant, and its image under `zoom_out` has no row, so it does not. -/
theorem zoom_out_valid_counterexample :
    Image.valid ⟨some [⟨1, 2, 3⟩], 1, 1⟩ [⟨1, 2, 3⟩] ∧
    zoom_out sample_fresh ⟨some [⟨1, 2, 3⟩], 1, 1⟩ = ⟨some [], 0, 0⟩ ∧
    ¬ ∃ d1, (zoom_out sample_fresh ⟨some [⟨1, 2, 3⟩], 1, 1⟩).valid d1 := by
  refine ⟨by unfold Image.valid Image.holds; decide, by decide, ?_⟩
  rintro ⟨d1, _, h, _⟩
  exact absurd h (by decide)

/-- C24, amended: on a raster with rows > 0, cols > 0 and storage of rows*cols pixels, the
results of `grayscale`, `swap`, `invert`, `rotate_right`, `swirl` and `edges` again have
rows > 0, cols > 0 and storage of rows*cols pixels; the result of `zoom_out` has rows >= 0,
cols >= 0 and storage of rows*cols pixels, and has rows > 0 and cols > 0 exactly when the
input has rows >= 2 and cols >= 2. -/
theorem transforms_keep_valid {F : Type} (ops : FloatOps F) (fresh : Nat → Pixel) (im : Image)
    (d : List Pixel) (h : im.valid d) (cx cy s t : F) :
    (∃ d1, (grayscale im).valid d1) ∧
    (∃ d1, (swap im).valid d1) ∧
    (∃ d1, (invert im).valid d1) ∧
    (∃ d1, (rotate_right fresh im).valid d1) ∧
    (∃ d1, (swirl ops fresh im cx cy s).valid d1) ∧
    (∃ d1, (edges ops fresh im t).valid d1) ∧
    (∃ d1, (zoom_out fresh im).holds d1 ∧
      ((zoom_out fresh im).valid d1 ↔ 2 ≤ im.rows ∧ 2 ≤ im.cols)) := by
  obtain ⟨hh, hr, hc⟩ := h
  refine ⟨?_, ?_, ?_, ?_, ?_, ?_, ?_⟩
  · rw [grayscale_eq_map im d hh]
    exact ⟨_, holds_map im d gray_px hh, hr, hc⟩
  · rw [swap_eq_map im d hh]
    exact ⟨_, holds_map im d swap_px hh, hr, hc⟩
  · rw [invert_eq_map im d hh]
    exact ⟨_, holds_map im d invert_px hh, hr, hc⟩
  · obtain ⟨d1, e, hl, _⟩ := rotate_right_spec fresh im d hh
    rw [e]
    exact ⟨d1, rotate_right_holds im d d1 hh hl, hc, hr⟩
  · obtain ⟨d1, h1, e1, e2⟩ := swirl_holds ops fresh im d hh cx cy s
    exact ⟨d1, h1, by rw [e1]; exact hr, by rw [e2]; exact hc⟩
  · obtain ⟨d1, h1, e1, e2⟩ := edges_holds ops fresh im d hh t
    exact ⟨d1, h1, by rw [e1]; exact hr, by rw [e2]; exact hc⟩
  · obtain ⟨d1, h1, e1, e2⟩ := zoom_out_holds fresh im d hh
    refine ⟨d1, h1, ?_⟩
    unfold Image.valid
    rw [e1, e2, tdiv_two_pos _ hh.2.1, tdiv_two_pos _ hh.2.2.1]
    exact ⟨fun hv => ⟨hv.2.1, hv.2.2⟩, fun hv => ⟨h1, hv.1, hv.2⟩⟩

/-- Witness of the amended C24 on the 3x3 sample raster. -/
theorem transforms_keep_valid_witness :
    sample_raster.valid sample_pixels ∧
    ((∃ d1, (grayscale sample_raster).valid d1) ∧
    (∃ d1, (swap sample_raster).valid d1) ∧
    (∃ d1, (invert sample_raster).valid d1) ∧
    (∃ d1, (rotate_right sample_fresh sample_raster).valid d1) ∧
    (∃ d1, (swirl intOps sample_fresh sample_raster (1 : Int) (1 : Int) (1 : Int)).valid d1) ∧
    (∃ d1, (edges intOps sample_fresh sample_raster (50 : Int)).valid d1) ∧
    (∃ d1, (zoom_out sample_fresh sample_raster).holds d1 ∧
      ((zoom_out sample_fresh sample_raster).valid d1 ↔ 2 ≤ sample_raster.rows ∧ 2 ≤ sample_raster.cols))) :=
  ⟨by unfold Image.valid Image.holds; decide,
    transforms_keep_valid intOps sample_fresh sample_raster sample_pixels
      (by unfold Image.valid Image.holds; decide) 1 1 1 50⟩

/-! ### The direction of `rotate_right` -/

/-- The claim C25 fails on the raster of 2 rows and 3 columns: after `rotate_right` the
pixel at column 0 of the last row is not the pixel at row 0 of the first column of the
input. -/
theorem rotate_right_last_row_counterexample :
    wide_raster.holds wide_pixels ∧
    ∃ d1, (rotate_right sample_fresh wide_raster).data = some d1 ∧
      ¬ ∀ r, r < wide_raster.rows.toNat →
        getPx d1 ((wide_raster.cols.toNat - 1) * wide_raster.rows.toNat + r)
          = getPx wide_pixels (r * wide_raster.cols.toNat + 0) :=
  ⟨by unfold Image.holds; decide, _, rfl, fun h => absurd (h 0 (by decide)) (by decide)⟩

/-- C25, amended: on a raster of rows x cols with present storage and cols > 0, after
`rotate_right` the first row of the output read right to left is the first column of the
input read top to bottom, output(0, rows-1-r) = input(r, 0); and the last row of the output
read left to right is the last column of the input read bottom to top,
output(cols-1, j) = input(rows-1-j, cols-1). -/
theorem rotate_right_first_column (fresh : Nat → Pixel) (im : Image) (d : List Pixel)
    (h : im.holds d) (hc : 0 < im.cols) :
    ∃ d1, (rotate_right fresh im).data = some d1 ∧
      (∀ r, r < im.rows.toNat →
        getPx d1 (0 * im.rows.toNat + (im.rows.toNat - 1 - r))
          = getPx d (r * im.cols.toNat + 0)) ∧
      (∀ j, j < im.rows.toNat →
        getPx d1 ((im.cols.toNat - 1) * im.rows.toNat + j)
          = getPx d ((im.rows.toNat - 1 - j) * im.cols.toNat + (im.cols.toNat - 1))) := by
  obtain ⟨d1, e, _, hp⟩ := rotate_right_spec fresh im d h
  rw [e]
  refine ⟨d1, rfl, fun r hr => hp r 0 hr (by omega), fun j hj => ?_⟩
  have := hp (im.rows.toNat - 1 - j) (im.cols.toNat - 1) (by omega) (by omega)
  rw [show im.rows.toNat - 1 - (im.rows.toNat - 1 - j) = j by omega] at this
  exact this

/-- Witness of the amended C25 on the 2x3 sample raster. -/
theorem rotate_right_first_column_witness :
    wide_raster.holds wide_pixels ∧
    0 < wide_raster.cols ∧
    (∃ d1, (rotate_right sample_fresh wide_raster).data = some d1 ∧
      (∀ r, r < wide_raster.rows.toNat →
        getPx d1 (0 * wide_raster.rows.toNat + (wide_raster.rows.toNat - 1 - r))
          = getPx wide_pixels (r * wide_raster.cols.toNat + 0)) ∧
      (∀ j, j < wide_raster.rows.toNat →
        getPx d1 ((wide_raster.cols.toNat - 1) * wide_raster.rows.toNat + j)
          = getPx wide_pixels ((wide_raster.rows.toNat - 1 - j) * wide_raster.cols.toNat + (wide_raster.cols.toNat - 1)))) :=
  ⟨by unfold Image.holds; decide,
    by decide,
    rotate_right_first_column sample_fresh wide_raster wide_pixels (by unfold Image.holds; decide) (by decide)⟩

/-! ### The row and column that `zoom_out` drops -/

/-- C26: two rasters of the same rows and cols with present storage that agree on every
pixel, except possibly on the last row when rows is odd and on the last column when cols
is odd, have the same image under `zoom_out`, whatever the allocated blocks held. -/
theorem zoom_out_ignores_dropped (f1 f2 : Nat → Pixel) (im1 im2 : Image) (d1 d2 : List Pixel)
    (h1 : im1.holds d1) (h2 : im2.holds d2) (hr : im2.rows = im1.rows)
    (hc : im2.cols = im1.cols)
    (hag : ∀ r c, r < im1.rows.toNat → c < im1.cols.toNat →
      (r + 1 = im1.rows.toNat ∧ im1.rows.toNat % 2 = 1) ∨
      (c + 1 = im1.cols.toNat ∧ im1.cols.toNat % 2 = 1) ∨
      getPx d1 (r * im1.cols.toNat + c) = getPx d2 (r * im1.cols.toNat + c)) :
    zoom_out f1 im1 = zoom_out f2 im2 := by
  rw [zoom_out_eq_fill f1 im1 d1 h1, zoom_out_eq_fill f2 im2 d2 h2, hr, hc]
  obtain ⟨_, _, hc0, _⟩ := h1
  obtain ⟨a1, a2⟩ := fill_rowmajor (im1.rows.toNat / 2) (im1.cols.toNat / 2)
    (fun r c => zoom_px d1 im1.cols r c) f1
  obtain ⟨b1, b2⟩ := fill_rowmajor (im1.rows.toNat / 2) (im1.cols.toNat / 2)
    (fun r c => zoom_px d2 im1.cols r c) f2
  have key : ∀ r c, r < im1.rows.toNat / 2 → c < im1.cols.toNat / 2 →
      zoom_px d1 im1.cols r c = zoom_px d2 im1.cols r c := by
    intro r c hr0 hc0'
    have e : ∀ i j, i < 2 → j < 2 →
        getPx d1 ((2 * r + i) * im1.cols.toNat + (2 * c + j))
          = getPx d2 ((2 * r + i) * im1.cols.toNat + (2 * c + j)) := by
      intro i j hi hj
      rcases hag (2 * r + i) (2 * c + j) (by omega) (by omega) with hx | hx | hx
      · omega
      · omega
      · exact hx
    have e00 := e 0 0 (by omega) (by omega)
    have e01 := e 0 1 (by omega) (by omega)
    have e10 := e 1 0 (by omega) (by omega)
    have e11 := e 1 1 (by omega) (by omega)
    simp only [Nat.add_zero] at e00 e01 e10 e11
    simp only [zoom_px, pix_index_eq _ _ _ hc0, e00, e01, e10, e11]
  have hd : fill2 (im1.rows.toNat / 2) (im1.cols.toNat / 2)
        (fun r c => r * (im1.cols.toNat / 2) + c) (fun r c => zoom_px d1 im1.cols r c)
        (malloc_pixels f1 (im1.rows.toNat / 2 * (im1.cols.toNat / 2)))
      = fill2 (im1.rows.toNat / 2) (im1.cols.toNat / 2)
        (fun r c => r * (im1.cols.toNat / 2) + c) (fun r c => zoom_px d2 im1.cols r c)
        (malloc_pixels f2 (im1.rows.toNat / 2 * (im1.cols.toNat / 2))) := by
    apply ext_getPx _ _ (by rw [a1, b1])
    intro k hk
    rw [a1] at hk
    obtain ⟨k1, k2, k3⟩ := rowmajor_split _ _ k hk
    rw [k3, a2 _ _ k1 k2, b2 _ _ k1 k2]
    exact key _ _ k1 k2
  rw [hd]

theorem sample_rasters_agree : ∀ r c, r < sample_raster.rows.toNat →
    c < sample_raster.cols.toNat →
    (r + 1 = sample_raster.rows.toNat ∧ sample_raster.rows.toNat % 2 = 1) ∨
    (c + 1 = sample_raster.cols.toNat ∧ sample_raster.cols.toNat % 2 = 1) ∨
    getPx sample_pixels (r * sample_raster.cols.toNat + c)
      = getPx sample_pixels_alt (r * sample_raster.cols.toNat + c) := by
  intro r c hr hc
  have hr1 : r < 3 := hr
  have hc1 : c < 3 := hc
  interval_cases r <;> interval_cases c <;> decide

/-- Witness of C26 on two 3x3 rasters that differ in the last row and the last column. -/
theorem zoom_out_ignores_dropped_witness :
    sample_raster.holds sample_pixels ∧
    sample_raster_alt.holds sample_pixels_alt ∧
    sample_raster_alt.rows = sample_raster.rows ∧
    sample_raster_alt.cols = sample_raster.cols ∧
    (∀ r c, r < sample_raster.rows.toNat → c < sample_raster.cols.toNat →
      (r + 1 = sample_raster.rows.toNat ∧ sample_raster.rows.toNat % 2 = 1) ∨
      (c + 1 = sample_raster.cols.toNat ∧ sample_raster.cols.toNat % 2 = 1) ∨
      getPx sample_pixels (r * sample_raster.cols.toNat + c) = getPx sample_pixels_alt (r * sample_raster.cols.toNat + c)) ∧
    sample_pixels ≠ sample_pixels_alt ∧
    (zoom_out sample_fresh sample_raster = zoom_out sample_fresh sample_raster_alt) :=
  ⟨by unfold Image.holds; decide,
    by unfold Image.holds; decide,
    by decide,
    by decide,
    sample_rasters_agree,
    by decide,
    zoom_out_ignores_dropped sample_fresh sample_fresh sample_raster sample_raster_alt sample_pixels sample_pixels_alt
      (by unfold Image.holds; decide) (by unfold Image.holds; decide) (by decide) (by decide)
      sample_rasters_agree⟩

/-! ### The elements that `edges` reads and writes -/

end PPM
